import Mathlib

/-!
Verification of the prefix-set radix-tree library (`wolcomm/prefixset-rs`).

The definitions below are a shallow embedding of the Rust sources:

* `src/node/gluemap.rs` — the per-node length bitmap (`GlueMap`), stored as a
  machine word (`bitmap`) plus a separate `hostbit` flag standing for length
  `W`.  Machine integers are modelled as `Nat` together with the family bit
  width `W`, reducing modulo `2 ^ W` exactly where the Rust `u32`/`u128`
  arithmetic wraps or shifts.
* `src/prefix/mod.rs`, `src/prefix/ipv4.rs`, `src/prefix/ipv6.rs` — prefixes,
  prefix comparison, sub-prefix enumeration, construction and errors.
* `src/node/mod.rs` — the radix-tree node and the tree algorithms `add`,
  `remove`, `deduplicate`, `aggregate`, `compress`, `search`,
  `intersect_nodes`.
* `src/node/ranges.rs`, `src/node/tree.rs` — the per-node range iterator and
  the pre-order tree walk.
* `src/set/mod.rs`, `src/set/iter.rs`, `src/set/ops.rs` — the `PrefixSet`
  facade, its iterators, and the set operators including equality.

Functions that are not structurally recursive in Rust (`Node::add`,
`Node::remove`) take an explicit fuel argument; the exported wrappers supply
a fuel that is large enough for every actual run, and every general theorem
below is proved for all fuel values, so no lemma depends on the particular
bound chosen.
-/

namespace PrefixSetRs

/-! ## Bit-level primitives

Helpers mirroring the `u32`/`u128` intrinsics used by the Rust code:
`trailing_zeros`, `leading_zeros`, `count_ones`, checked shifts. -/

/-- All-ones word of width `w`: the Rust `ONES` / `!0` constant. -/
def ones (w : Nat) : Nat := 2 ^ w - 1

/-- Index (from 0) of the least set bit of `x` among positions
`i, i+1, …, i+fuel-1`; returns `i + fuel` when none is set.  With `fuel = w`
and `i = 0` this is exactly Rust `trailing_zeros` on a `w`-bit word. -/
def findBit (x : Nat) : Nat → Nat → Nat
  | 0, i => i
  | fuel + 1, i => if x.testBit i then i else findBit x fuel (i + 1)

/-- Rust `trailing_zeros` on a `w`-bit word. -/
def tzW (w x : Nat) : Nat := findBit x w 0

/-- Number of binary digits of `x` (0 for 0), computed with fuel. -/
def bitLen : Nat → Nat → Nat
  | 0, _ => 0
  | fuel + 1, x => if x = 0 then 0 else bitLen fuel (x / 2) + 1

/-- Rust `leading_zeros` on a `w`-bit word (`x < 2 ^ w`). -/
def lzW (w x : Nat) : Nat := w - bitLen w x

/-- Rust `count_ones` on a `w`-bit word. -/
def popW : Nat → Nat → Nat
  | 0, _ => 0
  | fuel + 1, x => (x % 2) + popW fuel (x / 2)

/-- Rust `checked_shl` on a `w`-bit word: `none` iff the shift is `≥ w`. -/
def checkedShl (w x s : Nat) : Option Nat :=
  if s < w then some ((x <<< s) % 2 ^ w) else none

/-- Rust `checked_shr` on a `w`-bit word: `none` iff the shift is `≥ w`. -/
def checkedShr (w x s : Nat) : Option Nat :=
  if s < w then some (x >>> s) else none

/-! ## GlueMap (`src/node/gluemap.rs`)

The length bitmap attached to every tree node: bit `ℓ < W` of `bitmap`
stands for prefix length `ℓ`, and the separate `hostbit` flag stands for
length `W`. -/

structure GlueMap where
  bitmap : Nat
  hostbit : Bool
  deriving DecidableEq, Repr

namespace GlueMap

/-- `GlueMap::zero` / the `ZERO` constant. -/
def zero : GlueMap := ⟨0, false⟩

/-- `impl BitAnd for GlueMap`. -/
def and (a b : GlueMap) : GlueMap := ⟨a.bitmap &&& b.bitmap, a.hostbit && b.hostbit⟩

/-- `impl BitOr for GlueMap`. -/
def or (a b : GlueMap) : GlueMap := ⟨a.bitmap ||| b.bitmap, a.hostbit || b.hostbit⟩

/-- `impl Not for GlueMap` (the bitmap complement is the `w`-bit machine
complement). -/
def not (w : Nat) (a : GlueMap) : GlueMap := ⟨a.bitmap ^^^ ones w, !a.hostbit⟩

/-- `impl Shl<u8> for GlueMap`: on shift overflow the bitmap becomes zero and
the hostbit is set. -/
def shl (w : Nat) (a : GlueMap) (s : Nat) : GlueMap :=
  match checkedShl w a.bitmap s with
  | some result => ⟨result, a.hostbit⟩
  | none => ⟨0, true⟩

/-- `impl Shr<u8> for GlueMap`.  This reproduces the source faithfully,
including the line marked `TODO: BUG!` there: when the hostbit is shifted
down it is materialised as `ONES << (W - rhs)` instead of a single bit. -/
def shr (w : Nat) (a : GlueMap) (s : Nat) : GlueMap :=
  let (hostbit, shiftedHostbit) :=
    if a.hostbit && s > 0 then
      (false, if w < s then 0 else (ones w <<< (w - s)) % 2 ^ w)
    else
      (a.hostbit, 0)
  let shiftedBitmap :=
    match checkedShr w a.bitmap s with
    | some result => result
    | none => 0
  ⟨shiftedBitmap ||| shiftedHostbit, hostbit⟩

/-- `GlueMap::singleton`.  This reproduces the source faithfully, including
the line marked `TODO: BUG!` there: the pre-shift bitmap is `ONES` rather
than `1`, so the result has every bit from `length` upward set. -/
def singleton (w length : Nat) : GlueMap := shl w ⟨ones w, false⟩ length

/-- `GlueMap::trailing_zeros`. -/
def trailingZeros (w : Nat) (a : GlueMap) : Nat :=
  let zeros := tzW w a.bitmap
  if zeros = w && !a.hostbit then zeros + 1 else zeros

/-- `GlueMap::count_ones`. -/
def countOnes (w : Nat) (a : GlueMap) : Nat :=
  popW w a.bitmap + if a.hostbit then 1 else 0

/-- `impl From<IpPrefixRange> for GlueMap`: the OR of the singletons of every
length in `[lower, upper]`. -/
def ofRange (w lower upper : Nat) : GlueMap :=
  ((List.range (upper + 1 - lower)).map (fun i => singleton w (lower + i))).foldl or zero

/-- Observation function: bit `i` of the map.  Positions below `w` live in
the bitmap, position `w` is the hostbit, and higher positions read as
clear. -/
def test (w : Nat) (a : GlueMap) (i : Nat) : Bool :=
  if i < w then a.bitmap.testBit i else if i = w then a.hostbit else false

/-- The machine-word bound on the bitmap component maintained by every
operation of the library. -/
def Bnd (w : Nat) (a : GlueMap) : Prop := a.bitmap < 2 ^ w

end GlueMap

/-! ## Prefixes (`src/prefix/mod.rs`, `ipv4.rs`, `ipv6.rs`) -/

/-- An IP prefix: the address bit string and the prefix length.  The family
bit width `W` (32 or 128) is passed to every operation, as the Rust code
carries it in `P::MAX_LENGTH`. -/
structure Pfx where
  bits : Nat
  length : Nat
  deriving DecidableEq, Repr

/-- The error taxonomy of `src/error.rs` (the kinds used by the core). -/
inductive Err where
  | prefixLen
  | rangeParse
  deriving DecidableEq, Repr

/-- `Ipv4Prefix::new` / `Ipv6Prefix::new` (both are this function at their
width): fails iff `length > W`, and otherwise stores the address bits
unchanged — the source performs no host-bit truncation. -/
def pfxNew (w : Nat) (addr length : Nat) : Except Err Pfx :=
  if length > w then .error .prefixLen else .ok ⟨addr, length⟩

/-- `Ipv4Prefix::new` (`W = 32`). -/
def ipv4New (addr length : Nat) : Except Err Pfx := pfxNew 32 addr length

/-- `Ipv6Prefix::new` (`W = 128`). -/
def ipv6New (addr length : Nat) : Except Err Pfx := pfxNew 128 addr length

/-- A prefix is canonical when the bits below its length are zero
(spec §3.1); `w - length` low bits clear. -/
def canonical (w : Nat) (p : Pfx) : Prop := p.bits % 2 ^ (w - p.length) = 0

instance (w : Nat) (p : Pfx) : Decidable (canonical w p) := by
  unfold canonical; infer_instance

/-- `IpPrefix::new_from`: the super-prefix of `p` of the given length,
obtained by masking with `!0 << (W - length)` (mask zero on shift
overflow). -/
def newFrom (w : Nat) (p : Pfx) (length : Nat) : Except Err Pfx :=
  pfxNew w (p.bits &&& (checkedShl w (ones w) (w - length)).getD 0) length

/-- The result of `compare_with` (`Comparison` in `src/node/mod.rs`). -/
inductive Cmp where
  | equal
  | childOf (common : Nat)
  | parentOf (common : Nat)
  | divergent (common : Nat)
  deriving DecidableEq, Repr

/-- The `common` value computed by `Node::compare_with`: the minimum of the
two lengths clamped by the number of leading bits shared by the two
addresses. -/
def commonBits (w : Nat) (p q : Pfx) : Nat :=
  min (min p.length q.length) (lzW w (p.bits ^^^ q.bits))

/-- `Node::compare_with` (`common` abbreviates `commonBits w p q`).  The
`unreachable!` arm is modelled as `none`. -/
def compareWith (w : Nat) (p q : Pfx) : Option Cmp :=
  if commonBits w p q = p.length ∧ commonBits w p q = q.length then some .equal
  else if commonBits w p q = p.length ∧ commonBits w p q < q.length then
    some (.childOf (commonBits w p q))
  else if commonBits w p q < p.length ∧ commonBits w p q = q.length then
    some (.parentOf (commonBits w p q))
  else if commonBits w p q < p.length ∧ commonBits w p q < q.length then
    some (.divergent (commonBits w p q))
  else none

/-- The two branch directions (`Direction` in `src/node/mod.rs`). -/
inductive Dir where
  | left
  | right
  deriving DecidableEq, Repr

/-- `Node::branch_direction`: examine bit `bitIndex + 1` of the address
(counting lengths), i.e. address bit `w - 1 - bitIndex` from the LSB. -/
def branchDir (w : Nat) (bits bitIndex : Nat) : Dir :=
  if bits &&& (1 <<< (w - (bitIndex + 1))) % 2 ^ w = 0 then .left else .right

/-- The subprefixes of `base` at length `length`
(`IpPrefix::into_subprefixes`): `2 ^ (length - base.length)` prefixes
stepping by `2 ^ (w - length)`, empty unless
`base.length ≤ length ≤ w`.  The address addition wraps modulo `2 ^ w` as
the Rust `u32`/`u128` addition does. -/
def subprefixes (w : Nat) (base : Pfx) (length : Nat) : List Pfx :=
  if base.length ≤ length ∧ length ≤ w then
    let maxIndex := (checkedShr w (ones w) (w - length + base.length)).getD 0
    let step := (checkedShl w 1 (w - length)).getD 0
    (List.range (maxIndex + 1)).map (fun i => ⟨(base.bits + i * step) % 2 ^ w, length⟩)
  else []

end PrefixSetRs

namespace PrefixSetRs

/-! ## The radix-tree node (`src/node/mod.rs`) -/

/-- `Node<P>`: a base prefix, a glue map, and optional owned children. -/
inductive Tree where
  | node (pfx : Pfx) (map : GlueMap) (left right : Option Tree)

namespace Tree

def pfx : Tree → Pfx
  | .node p _ _ _ => p

def map : Tree → GlueMap
  | .node _ m _ _ => m

def left : Tree → Option Tree
  | .node _ _ l _ => l

def right : Tree → Option Tree
  | .node _ _ _ r => r

/-- Replace the glue map of the root node. -/
def setMap : Tree → GlueMap → Tree
  | .node p _ l r, m => .node p m l r

/-- Number of nodes of the tree (used as the fuel bound for `add`). -/
def size : Tree → Nat
  | .node _ _ l r =>
    1 + (match l with | some c => size c | none => 0)
      + (match r with | some c => size c | none => 0)

end Tree

/-- `Node::new_singleton` / `impl From<P> for Node`: a childless node whose
glue map is the singleton of the prefix length. -/
def nodeOfPrefix (w : Nat) (p : Pfx) : Tree :=
  .node p (GlueMap.singleton w p.length) none none

/-- A prefix range `base,lower,upper` (`IpPrefixRange<P>`). -/
structure Range where
  base : Pfx
  lower : Nat
  upper : Nat
  deriving DecidableEq, Repr

/-- `IpPrefixRange::new`: requires `base.length ≤ lower ≤ upper ≤ W`. -/
def rangeNew (w : Nat) (base : Pfx) (lower upper : Nat) : Option Range :=
  if base.length ≤ lower ∧ lower ≤ upper ∧ upper ≤ w then some ⟨base, lower, upper⟩ else none

/-- `Node::new_range` / `impl From<IpPrefixRange> for Node`. -/
def nodeOfRange (w : Nat) (rg : Range) : Tree :=
  .node rg.base (GlueMap.ofRange w rg.lower rg.upper) none none

/-- `Node::add`, with explicit fuel (the Rust recursion is not structural).
When the fuel runs out the left argument is returned unchanged; the
exported wrapper `addFull` supplies enough fuel for every actual run, and
every theorem below holds for all fuel values. -/
def addT (w : Nat) : Nat → Tree → Tree → Tree
  | 0, t, _ => t
  | fuel + 1, t, o =>
    match compareWith w t.pfx o.pfx with
    | some .equal =>
      let t1 := t.setMap (GlueMap.or t.map o.map)
      let t2 := match o.left with
        | some c => addT w fuel t1 c
        | none => t1
      match o.right with
      | some c => addT w fuel t2 c
      | none => t2
    | some (.childOf common) =>
      let o1 := o.setMap (GlueMap.and o.map (GlueMap.not w t.map))
      match branchDir w o1.pfx.bits common with
      | .left =>
        match t with
        | .node p m l r =>
          match l with
          | some child => .node p m (some (addT w fuel child o1)) r
          | none => .node p m (some o1) r
      | .right =>
        match t with
        | .node p m l r =>
          match r with
          | some child => .node p m l (some (addT w fuel child o1))
          | none => .node p m l (some o1)
    | some (.parentOf common) =>
      let t1 := t.setMap (GlueMap.and t.map (GlueMap.not w o.map))
      match branchDir w t1.pfx.bits common with
      | .left =>
        match o with
        | .node p m l r =>
          match l with
          | some child => .node p m (some (addT w fuel child t1)) r
          | none => .node p m (some t1) r
      | .right =>
        match o with
        | .node p m l r =>
          match r with
          | some child => .node p m l (some (addT w fuel child t1))
          | none => .node p m l (some t1)
    | some (.divergent common) =>
      let gluePfx := match newFrom w t.pfx common with
        | .ok p => p
        | .error _ => ⟨0, 0⟩
      match branchDir w t.pfx.bits common with
      | .left => .node gluePfx GlueMap.zero (some t) (some o)
      | .right => .node gluePfx GlueMap.zero (some o) (some t)
    | none => t

/-- `Node::add` with the sufficient fuel `size self + size other`. -/
def addFull (w : Nat) (t o : Tree) : Tree := addT w (t.size + o.size) t o

/-- The body of `Node::remove` after `other`'s children have been consumed:
`other` enters the `match self.compare_with(other)` arm with both its child
slots already `take`n, so only its prefix and glue map remain.  Fuelled,
since the `ChildOf` arm recurses into a tree enlarged by the
deaggregation `add`s. -/
def removeHere (w : Nat) : Nat → Tree → Pfx → GlueMap → Tree
  | 0, t, _, _ => t
  | fuel + 1, t, opfx, omap =>
    match compareWith w t.pfx opfx with
    | some (.parentOf _) | some .equal =>
      match t with
      | .node p m l r =>
        .node p (GlueMap.and m (GlueMap.not w omap))
          (match l with | some c => some (removeHere w fuel c opfx omap) | none => none)
          (match r with | some c => some (removeHere w fuel c opfx omap) | none => none)
    | some (.childOf common) =>
      let deaggr := GlueMap.and t.map omap
      let t1 :=
        if deaggr ≠ GlueMap.zero then
          let t0 := t.setMap (GlueMap.and t.map (GlueMap.not w deaggr))
          (subprefixes w t0.pfx opfx.length).foldl
            (fun acc p => addFull w acc (.node p deaggr none none)) t0
        else t
      match branchDir w opfx.bits common with
      | .left =>
        match t1 with
        | .node p m l r =>
          .node p m (match l with | some c => some (removeHere w fuel c opfx omap) | none => none) r
      | .right =>
        match t1 with
        | .node p m l r =>
          .node p m l (match r with | some c => some (removeHere w fuel c opfx omap) | none => none)
    | _ => t

/-- `Node::remove`: post-order over `other` — both of `other`'s children are
`take`n and removed first, then `other`'s own prefix and glue map are
applied via `removeHere`. -/
def removeT (w : Nat) : Nat → Tree → Tree → Tree
  | 0, t, _ => t
  | fuel + 1, t, o =>
    let t1 := match o.left with
      | some c => removeT w fuel t c
      | none => t
    let t2 := match o.right with
      | some c => removeT w fuel t1 c
      | none => t1
    removeHere w (fuel + 1) t2 o.pfx o.map

/-- `Node::remove` with a generous fuel bound. -/
def removeFull (w : Nat) (t o : Tree) : Tree :=
  removeT w ((t.size + o.size + 2) * (w + 2)) t o

/-- `Node::deduplicate`: top-down, clear every bit already set in an
ancestor's glue map (the Rust `mask` parameter is an `Option` defaulting to
`ZERO`; callers pass `None`, modelled by passing `GlueMap.zero`). -/
def deduplicateT (w : Nat) : Tree → GlueMap → Tree
  | .node p m l r, mask =>
    let m' := GlueMap.and m (GlueMap.not w mask)
    let mask' := GlueMap.or mask m'
    .node p m'
      (match l with | some c => some (deduplicateT w c mask') | none => none)
      (match r with | some c => some (deduplicateT w c mask') | none => none)

/-- `Node::aggregate`: bottom-up sibling pull-up — when both children sit at
`length + 1`, their shared glue-map bits move up into this node. -/
def aggregateT (w : Nat) : Tree → Tree
  | .node p m l r =>
    let l' := match l with | some c => some (aggregateT w c) | none => none
    let r' := match r with | some c => some (aggregateT w c) | none => none
    let aggrLength := p.length + 1
    match l', r' with
    | some lc, some rc =>
      if lc.pfx.length = aggrLength ∧ rc.pfx.length = aggrLength then
        let aggrBits := GlueMap.and lc.map rc.map
        .node p (GlueMap.or m aggrBits)
          (some (lc.setMap (GlueMap.and lc.map (GlueMap.not w aggrBits))))
          (some (rc.setMap (GlueMap.and rc.map (GlueMap.not w aggrBits))))
      else .node p m (some lc) (some rc)
    | l'', r'' => .node p m l'' r''

/-- `Node::compress`: bottom-up glue cleaning — a node with an empty glue
map is dropped when childless and bypassed when it has exactly one child. -/
def compressT : Tree → Option Tree
  | .node p m l r =>
    let l' := match l with | some c => compressT c | none => none
    let r' := match r with | some c => compressT c | none => none
    if m = GlueMap.zero then
      match l', r' with
      | none, none => none
      | some c, none => some c
      | none, some c => some c
      | some lc, some rc => some (.node p m (some lc) (some rc))
    else some (.node p m l' r')

/-- `Node::search`: membership of a query node (prefix plus glue map); a hit
requires every queried length bit to be present at a node at or above the
query prefix. -/
def searchT (w : Nat) : Tree → Pfx → GlueMap → Bool
  | .node p m l r, qp, qm =>
    match compareWith w p qp with
    | some .equal => decide (GlueMap.and m qm = qm)
    | some (.childOf common) =>
      if GlueMap.and m qm = qm then true
      else
        match branchDir w qp.bits common with
        | .left =>
          match l with
          | some child => searchT w child qp qm
          | none => false
        | .right =>
          match r with
          | some child => searchT w child qp qm
          | none => false
    | _ => false

/-- `Node::intersect_nodes`: `self ∩ qnode` as a fresh sub-tree (the query
node's children are never inspected, so only its prefix and map are
passed).  The recursive child intersections are bound up front; the Rust
code computes them inside the non-divergent arm, and as the function is
pure the result is identical. -/
def intersectT (w : Nat) : Tree → Pfx → GlueMap → Option Tree
  | .node p m l r, qp, qm =>
    let rl := match l with
      | some c => intersectT w c qp qm
      | none => none
    let rr := match r with
      | some c => intersectT w c qp qm
      | none => none
    match compareWith w p qp with
    | none => none
    | some (.divergent _) => none
    | some cmp =>
      let pfx := match cmp with
        | .childOf _ => qp
        | _ => p
      let new0 : Tree := .node pfx (GlueMap.and m qm) none none
      let new1 := match rl with
        | some ic => addFull w new0 ic
        | none => new0
      let new2 := match rr with
        | some ic => addFull w new1 ic
        | none => new1
      some new2

/-- Pre-order walk of `NodeTreeIter` (`src/node/tree.rs`): the node itself,
then — because the iterator pops the children vector `[left, right]` from
the back — the right subtree, then the left subtree. -/
def preorderT : Tree → List Tree
  | .node p m l r =>
    .node p m l r ::
      ((match r with | some c => preorderT c | none => []) ++
       (match l with | some c => preorderT c | none => []))

/-- `impl PartialEq for Node`: equality of base prefix and glue map only;
children are ignored. -/
def nodeEq (a b : Tree) : Bool :=
  decide (a.pfx = b.pfx) && decide (a.map = b.map)

end PrefixSetRs

namespace PrefixSetRs

/-! ## Per-node range iteration (`src/node/ranges.rs`) -/

/-- One run of `NodeRangesIter::next` per list entry.  Each entry is the
`IpPrefixRange::new(..).unwrap()` of the source; a `none` entry models the
panic of that `unwrap`.  The loop is fuelled; `2 * w + 4` steps are ample
since every iteration consumes at least one bit of the map. -/
def nodeRangesAux (w : Nat) (pfx : Pfx) : Nat → GlueMap → Nat → List (Option Range)
  | 0, _, _ => []
  | fuel + 1, m, last =>
    if m = GlueMap.zero then []
    else
      let rightZeros := m.trailingZeros w
      let lower := last + rightZeros
      let m1 := m.shr w rightZeros
      let rightOnes := (m1.not w).trailingZeros w
      let upper := lower + rightOnes - 1
      let m2 := m1.shr w rightOnes
      rangeNew w pfx lower upper :: nodeRangesAux w pfx fuel m2 (upper + 1)

/-- `Node::iter_ranges`: the ranges encoded by one node's glue map. -/
def nodeRanges (w : Nat) (t : Tree) : List (Option Range) :=
  nodeRangesAux w t.pfx (2 * w + 4) t.map 0

/-! ## The set facade (`src/set/mod.rs`, `src/set/iter.rs`, `src/set/ops.rs`)

A `PrefixSet` is an optional owned root: `Option Tree`. -/

/-- Pre-order node list of the whole set. -/
def preorderSet : Option Tree → List Tree
  | some root => preorderT root
  | none => []

/-- The `(base, gluemap)` sequence visited by the pre-order walk. -/
def traversal (r : Option Tree) : List (Pfx × GlueMap) :=
  (preorderSet r).map (fun n => (n.pfx, n.map))

/-- `PrefixSet::ranges` (`PrefixRangeIter`): walk the nodes, and for each
node yield its glue-map ranges; `none` (a panicking `unwrap` inside
`NodeRangesIter`) anywhere poisons the whole result. -/
def rangesSet (w : Nat) (r : Option Tree) : Option (List Range) :=
  (((preorderSet r).map (nodeRanges w)).flatten).foldr
    (fun o acc => match o, acc with
      | some rg, some rest => some (rg :: rest)
      | _, _ => none)
    (some [])

/-- `IpPrefixRange::into_iter`: all member prefixes of a range, by length. -/
def rangePrefixes (w : Nat) (rg : Range) : List Pfx :=
  (List.range (rg.upper + 1 - rg.lower)).flatMap
    (fun i => subprefixes w rg.base (rg.lower + i))

/-- `PrefixSet::prefixes` (`PrefixIter`): every range expanded to its member
prefixes. -/
def prefixesSet (w : Nat) (r : Option Tree) : Option (List Pfx) :=
  (rangesSet w r).map (fun rgs => rgs.flatMap (rangePrefixes w))

/-- `PrefixSet::len`: `self.prefixes().count()`. -/
def lenSet (w : Nat) (r : Option Tree) : Option Nat :=
  (prefixesSet w r).map List.length

/-- `PrefixSet::contains`: search for a query node built from the prefix
(`From<&P> for Node`, i.e. a singleton glue map at the prefix length). -/
def containsSet (w : Nat) (r : Option Tree) (p : Pfx) : Bool :=
  match r with
  | some root => searchT w root p (GlueMap.singleton w p.length)
  | none => false

/-- The node-level aggregation pass run by `PrefixSet::aggregate`:
`deduplicate` (with a `None`, i.e. zero, mask), then the sibling pull-up
`aggregate`, then the glue cleaning `compress`. -/
def aggPass (w : Nat) (t : Tree) : Option Tree :=
  compressT (aggregateT w (deduplicateT w t GlueMap.zero))

/-- `PrefixSet::aggregate`. -/
def aggSet (w : Nat) (r : Option Tree) : Option Tree :=
  r.bind (aggPass w)

/-- `PrefixSet::insert_node`: merge a new node into the root (no
aggregation). -/
def insertNode (w : Nat) (r : Option Tree) (n : Tree) : Option Tree :=
  match r with
  | some root => some (addFull w root n)
  | none => some n

/-- `PrefixSet::remove_node`: remove an old node's contents from the root
(no aggregation); a missing root is left untouched. -/
def removeNode (w : Nat) (r : Option Tree) (old : Tree) : Option Tree :=
  match r with
  | some root => some (removeFull w root old)
  | none => none

/-- `PrefixSet::insert`: `insert_node` then `aggregate`. -/
def insertSet (w : Nat) (r : Option Tree) (n : Tree) : Option Tree :=
  aggSet w (insertNode w r n)

/-- `PrefixSet::insert_from`: fold `insert_node` over the items, then a
single `aggregate`. -/
def insertFrom (w : Nat) (r : Option Tree) (ns : List Tree) : Option Tree :=
  aggSet w (ns.foldl (insertNode w) r)

/-- `PrefixSet::remove`: `remove_node` then `aggregate`. -/
def removeSet (w : Nat) (r : Option Tree) (old : Tree) : Option Tree :=
  aggSet w (removeNode w r old)

/-- `PrefixSet::remove_from`: fold `remove_node` over the items, then a
single `aggregate`. -/
def removeFrom (w : Nat) (r : Option Tree) (ns : List Tree) : Option Tree :=
  aggSet w (ns.foldl (removeNode w) r)

/-- `impl BitOr for PrefixSet`: add the two roots and re-aggregate; an empty
side short-circuits. -/
def orSet (w : Nat) (a b : Option Tree) : Option Tree :=
  match a, b with
  | some ra, some rb => aggSet w (some (addFull w ra rb))
  | some ra, none => some ra
  | none, some rb => some rb
  | none, none => none

/-- `impl BitAnd for Box<Node>` (`src/node/ops.rs`): fold over the pre-order
nodes of the left tree, intersecting each against the right tree and adding
the results together. -/
def andRoots (w : Nat) (ra rb : Tree) : Option Tree :=
  (preorderT ra).foldl
    (fun root n =>
      match intersectT w rb n.pfx n.map with
      | some new =>
        match root with
        | some root => some (addFull w root new)
        | none => some new
      | none => root)
    none

/-- `impl BitAnd for PrefixSet`: intersect the roots and re-aggregate; empty
if either side is empty. -/
def andSet (w : Nat) (a b : Option Tree) : Option Tree :=
  match a, b with
  | some ra, some rb => aggSet w (andRoots w ra rb)
  | _, _ => none

/-- `impl Sub for PrefixSet`: remove `b`'s tree from `a`'s and re-aggregate;
if either side is empty, `a` is returned unchanged. -/
def subSet (w : Nat) (a b : Option Tree) : Option Tree :=
  match a, b with
  | some ra, some rb => aggSet w (some (removeFull w ra rb))
  | _, _ => a

/-- `PrefixSet::one`: the universe — the full range `0/0,0,W` inserted into
an empty set. -/
def oneSet (w : Nat) : Option Tree :=
  insertSet w none (nodeOfRange w ⟨⟨0, 0⟩, 0, w⟩)

/-- `impl Not for PrefixSet`: `one() - self`. -/
def notSet (w : Nat) (a : Option Tree) : Option Tree :=
  subSet w (oneSet w) a

/-- `impl BitXor for PrefixSet`: `(self | rhs) - (self & rhs)`. -/
def xorSet (w : Nat) (a b : Option Tree) : Option Tree :=
  subSet w (orSet w a b) (andSet w a b)

/-- `impl PartialEq for PrefixSet`: zip the two pre-order node sequences
and require node equality pointwise — the zip stops at the shorter
sequence. -/
def eqSet (a b : Option Tree) : Bool :=
  match a, b with
  | some ra, some rb => ((preorderT ra).zip (preorderT rb)).all (fun pr => nodeEq pr.1 pr.2)
  | none, none => true
  | _, _ => false

end PrefixSetRs

namespace PrefixSetRs

set_option maxRecDepth 20000

/-! ## Concrete scenario values

IPv4 (`W = 32`) constants used by the end-to-end scenarios:
`192.0.2.0 = 0xC0000200`, `192.0.2.128 = 0xC0000280`,
`192.0.2.64 = 0xC0000240`, `1.0.0.0 = 0x01000000`. -/

/-- The set built by inserting `192.0.2.0/25` alone (via `insert_from`). -/
def scenario1 : Option Tree := insertFrom 32 none [nodeOfPrefix 32 ⟨0xC0000200, 25⟩]

/-- The set built by inserting `192.0.2.0/25` and `192.0.2.128/25`
(via `insert_from`). -/
def scenario2 : Option Tree :=
  insertFrom 32 none [nodeOfPrefix 32 ⟨0xC0000200, 25⟩, nodeOfPrefix 32 ⟨0xC0000280, 25⟩]

/-- The set `{1.0.0.0/8}`. -/
def scenarioA : Option Tree := insertFrom 32 none [nodeOfPrefix 32 ⟨0x01000000, 8⟩]

/-- The set built from `1.0.0.0/8` and `1.0.0.0/32`. -/
def scenarioB : Option Tree :=
  insertFrom 32 none [nodeOfPrefix 32 ⟨0x01000000, 8⟩, nodeOfPrefix 32 ⟨0x01000000, 32⟩]

/-- Sum of `gluemap.count_ones()` over the data (non-glue) nodes of a set. -/
def sumCountOnes (w : Nat) (r : Option Tree) : Nat :=
  (((preorderSet r).filter (fun n => decide (n.map ≠ GlueMap.zero))).map
    (fun n => n.map.countOnes w)).sum

/-! ## C1 — membership fidelity -/

/-- C1: building a `PrefixSet` from the one-element multiset
`S = {192.0.2.0/25}` and querying `192.0.2.64/26` returns `true`, although
that prefix is not an element of `S` — `GlueMap::singleton` (the line marked
`TODO: BUG!`) sets every bit from the prefix length upward, so the stored
node stands for all sub-prefixes of `192.0.2.0/25` of length 25–31 and
`prefixes()` yields 127 prefixes instead of 1.  This refutes membership
fidelity as the code stands. -/
theorem membership_fidelity_violated_at_singleton_insert :
    containsSet 32 scenario1 ⟨0xC0000240, 26⟩ = true ∧
    (⟨0xC0000240, 26⟩ : Pfx) ∉ [(⟨0xC0000200, 25⟩ : Pfx)] ∧
    lenSet 32 scenario1 = some 127 := by
  refine ⟨rfl, ?_, rfl⟩
  decide

/-! ## C2 — the aggregation scenario with two /25 prefixes -/

/-- C2: after inserting `192.0.2.0/25` and `192.0.2.128/25`, the code
yields the single range `192.0.2.0/24,25,31` (not `…,25,25`), `len() = 254`
(not 2), `contains(192.0.2.0/25) = true` and `contains(192.0.2.0/24) =
false`.  The first two values diverge from the claim (and from the
doctests in `src/set/mod.rs`) because `GlueMap::singleton` sets every bit
from the length upward. -/
theorem two_contiguous_slash25_aggregation_eval :
    rangesSet 32 scenario2 = some [⟨⟨0xC0000200, 24⟩, 25, 31⟩] ∧
    lenSet 32 scenario2 = some 254 ∧
    containsSet 32 scenario2 ⟨0xC0000200, 25⟩ = true ∧
    containsSet 32 scenario2 ⟨0xC0000200, 24⟩ = false :=
  ⟨rfl, rfl, rfl, rfl⟩

/-! ## C8 — `GlueMap::singleton` -/

/-- C8: `GlueMap::singleton(0)` at `W = 32` has 32 set bits, not 1; the
pre-shift bitmap is `ONES` (the line carries a `TODO: BUG!` marker in the
source, and the unified `GlueMap` in `prefixset-rs/src/node/gluemap.rs`
sets a single bit instead).  Witness values: `singleton 0` is all-ones,
`singleton 25` has the seven bits 25–31. -/
theorem gluemap_singleton_sets_all_upper_bits :
    (GlueMap.singleton 32 0).countOnes 32 = 32 ∧
    (GlueMap.singleton 32 0).countOnes 32 ≠ 1 ∧
    (GlueMap.singleton 32 25).countOnes 32 = 7 ∧
    GlueMap.singleton 32 25 = ⟨0xFE000000, false⟩ := by
  refine ⟨?_, ?_, ?_, rfl⟩ <;> decide

/-! ## C10 — node equality ignores children -/

/-- C10: `impl PartialEq for Node` compares only the base prefix and the
glue map: any two nodes agreeing on those are equal no matter what their
children are, and equal nodes agree on prefix and glue map. -/
theorem node_equality_ignores_children (p : Pfx) (g : GlueMap)
    (l₁ r₁ l₂ r₂ : Option Tree) (a b : Tree) :
    nodeEq (.node p g l₁ r₁) (.node p g l₂ r₂) = true ∧
    (nodeEq a b = true ↔ a.pfx = b.pfx ∧ a.map = b.map) := by
  constructor
  · simp [nodeEq, Tree.pfx, Tree.map]
  · simp [nodeEq]

/-! ## C4 — set equality via zipped traversals -/

/-- C4: `impl PartialEq for PrefixSet` zips the two pre-order node
sequences, so when one traversal is a strict prefix of the other the zip
stops at the shorter sequence and `==` wrongly returns `true`.  Here
`A = {1.0.0.0/8}` and `B` additionally holds a node for `1.0.0.0/32`: the
`(base, gluemap)` traversals differ (lengths 1 and 2) yet `A == B`. -/
theorem set_equality_true_on_strict_prefix_traversal :
    eqSet scenarioA scenarioB = true ∧
    traversal scenarioA ≠ traversal scenarioB ∧
    (traversal scenarioA).length = 1 ∧ (traversal scenarioB).length = 2 := by
  refine ⟨rfl, ?_, rfl, rfl⟩
  decide

/-! ## C7 — prefix construction -/

/-- C7 counterexample: `Ipv4Prefix::new(1, 8)` succeeds and stores the
address bits `1` unchanged — the host bits below length 8 are *not*
zeroed, so the stored prefix is not canonical. -/
theorem prefix_new_does_not_truncate_host_bits :
    ipv4New 1 8 = .ok ⟨1, 8⟩ ∧ ¬ canonical 32 (⟨1, 8⟩ : Pfx) := by
  refine ⟨rfl, ?_⟩
  decide

/-- C7 amended: for both families, `new(addr, length)` fails with the
invalid-length error exactly when `length > W`, and on success returns the
address bits unchanged (no host-bit truncation). -/
theorem prefix_new_checks_length_and_keeps_bits (addr len : Nat) :
    (ipv4New addr len = if len ≤ 32 then .ok ⟨addr, len⟩ else .error .prefixLen) ∧
    (ipv6New addr len = if len ≤ 128 then .ok ⟨addr, len⟩ else .error .prefixLen) := by
  constructor <;>
    · simp only [ipv4New, ipv6New, pfxNew]
      split <;> split <;> first | rfl | omega

/-! ## C6 — `len()` versus glue-map popcounts -/

/-- C6 counterexample: for the aggregated set of the two /25 prefixes, `len()` (the count
of `prefixes()`) is 254, while the sum of `gluemap.count_ones()` over the
data nodes is 7 — `len()` weights each glue-map bit `ℓ` of a node at base
length `l` by `2 ^ (ℓ - l)`, not by 1. -/
theorem len_differs_from_sum_of_count_ones :
    lenSet 32 scenario2 = some 254 ∧ sumCountOnes 32 scenario2 = 7 ∧ (254 : Nat) ≠ 7 := by
  refine ⟨rfl, rfl, ?_⟩
  decide

end PrefixSetRs

namespace PrefixSetRs

/-! ## C9 — the prefix comparison edge policy -/

/-- C9: for prefixes of one family (lengths at most `W`, canonical), the
comparison never reaches the `unreachable!` arm; when the common bit count
equals `W` both lengths are `W` and the comparison is `Equal` (so
`Divergent(W)` is impossible); and in a `Divergent(common)` result the
common bit count is strictly below `W`, so the glue prefix construction
`new_from(common)` in `add`'s divergent arm cannot fail. -/
theorem compare_edge_policy (w : Nat) (p q : Pfx)
    (hp : p.length ≤ w) (hq : q.length ≤ w)
    (hpc : canonical w p) (hqc : canonical w q) :
    (compareWith w p q).isSome = true ∧
    (commonBits w p q = w →
      p.length = w ∧ q.length = w ∧ compareWith w p q = some .equal) ∧
    (∀ c, compareWith w p q = some (.divergent c) →
      c < w ∧ (newFrom w p c).isOk = true) := by
  have h1 : commonBits w p q ≤ p.length :=
    le_trans (Nat.min_le_left _ _) (Nat.min_le_left _ _)
  have h2 : commonBits w p q ≤ q.length :=
    le_trans (Nat.min_le_left _ _) (Nat.min_le_right _ _)
  refine ⟨?_, ?_, ?_⟩
  · unfold compareWith
    split_ifs <;> simp_all <;> omega
  · intro hcw
    have hpw : p.length = w := by omega
    have hqw : q.length = w := by omega
    refine ⟨hpw, hqw, ?_⟩
    unfold compareWith
    split_ifs <;> first | rfl | omega
  · intro c hc
    have hcp : c < p.length := by
      unfold compareWith at hc
      split_ifs at hc <;> simp_all
    have hcw : c < w := lt_of_lt_of_le hcp hp
    refine ⟨hcw, ?_⟩
    simp only [newFrom, pfxNew]
    split
    · omega
    · rfl

/-- Witness for `compare_edge_policy`: the two /25 prefixes of the
aggregation scenario diverge at 24 common bits, and the glue prefix
construction succeeds. -/
theorem compare_edge_policy_witness :
    compareWith 32 ⟨0xC0000200, 25⟩ ⟨0xC0000280, 25⟩ = some (.divergent 24) ∧
    24 < 32 ∧ (newFrom 32 (⟨0xC0000200, 25⟩ : Pfx) 24).isOk = true :=
  have h := compare_edge_policy 32 ⟨0xC0000200, 25⟩ ⟨0xC0000280, 25⟩
    (by decide) (by decide) (by decide) (by decide)
  ⟨rfl, (h.2.2 24 rfl).1, (h.2.2 24 rfl).2⟩

end PrefixSetRs

namespace PrefixSetRs

/-! ## Arithmetic of leading bits

`agree w k a b` says the `k` leading bits (of `w`) of the two addresses
coincide; it is what `compare_with`'s `leading_zeros` computation and the
branching bit tests reason about. -/

/-- The top `k` of `w` bits of `a` and `b` agree. -/
def agree (w k a b : Nat) : Prop := a / 2 ^ (w - k) = b / 2 ^ (w - k)

/-- The address bit examined by `branch_direction` with `bit_index = k`:
bit `w - 1 - k` counted from the least significant end. -/
def dirbit (w bits k : Nat) : Bool := bits.testBit (w - 1 - k)

theorem agree_refl {w k a : Nat} : agree w k a a := rfl

theorem agree_symm {w k a b : Nat} (h : agree w k a b) : agree w k b a := h.symm

theorem agree_trans {w k a b c : Nat} (h1 : agree w k a b) (h2 : agree w k b c) :
    agree w k a c := h1.trans h2

theorem agree_mono {w k k' a b : Nat} (hk : k' ≤ k) (h : agree w k a b) :
    agree w k' a b := by
  have hd : 2 ^ (w - k) ∣ 2 ^ (w - k') := pow_dvd_pow 2 (by omega)
  obtain ⟨d, hd⟩ := hd
  unfold agree at *
  rcases Nat.eq_zero_or_pos d with h0 | h0
  · simp [hd, h0] at *
  · rw [hd, ← Nat.div_div_eq_div_mul, ← Nat.div_div_eq_div_mul, h]

theorem agree_zero {w a b : Nat} (ha : a < 2 ^ w) (hb : b < 2 ^ w) :
    agree w 0 a b := by
  unfold agree
  rw [Nat.sub_zero, Nat.div_eq_of_lt ha, Nat.div_eq_of_lt hb]

/-- `agree` in terms of individual bits. -/
theorem agree_iff_testBit {w k a b : Nat} :
    agree w k a b ↔ ∀ i, w - k ≤ i → a.testBit i = b.testBit i := by
  constructor
  · intro h i hi
    have : a.testBit ((w - k) + (i - (w - k))) = b.testBit ((w - k) + (i - (w - k))) := by
      rw [← Nat.testBit_shiftRight, ← Nat.testBit_shiftRight,
        Nat.shiftRight_eq_div_pow, Nat.shiftRight_eq_div_pow, h]
    simpa [Nat.add_sub_cancel' hi] using this
  · intro h
    unfold agree
    rw [← Nat.shiftRight_eq_div_pow, ← Nat.shiftRight_eq_div_pow]
    exact Nat.eq_of_testBit_eq fun i => by
      rw [Nat.testBit_shiftRight, Nat.testBit_shiftRight]
      exact h _ (Nat.le_add_right _ _)

/-- `agree` in terms of the xor of the two addresses. -/
theorem agree_iff_xor_lt {w k a b : Nat} :
    agree w k a b ↔ a ^^^ b < 2 ^ (w - k) := by
  rw [agree_iff_testBit]
  constructor
  · intro h
    refine Nat.lt_pow_two_of_testBit _ fun i hi => ?_
    rw [Nat.testBit_xor, h i hi]
    simp
  · intro h i hi
    have := Nat.testBit_lt_two_pow (lt_of_lt_of_le h (Nat.pow_le_pow_right (by omega) hi))
    rw [Nat.testBit_xor] at this
    exact bne_eq_false_iff_eq.mp this

/-- Bits at positions at least `w - (k + 1)` are pinned by `agree` at
`k + 1`; in particular so is the direction bit for index `k`. -/
theorem dirbit_eq_of_agree_succ {w k a b : Nat} (hk : k + 1 ≤ w)
    (h : agree w (k + 1) a b) : dirbit w a k = dirbit w b k := by
  rw [agree_iff_testBit] at h
  exact h _ (by omega)

/-- Agreement on `k` bits plus an equal direction bit extends the agreement
to `k + 1` bits. -/
theorem agree_succ_of_dirbit {w k a b : Nat} (hk : k < w)
    (h : agree w k a b) (hd : dirbit w a k = dirbit w b k) :
    agree w (k + 1) a b := by
  rw [agree_iff_testBit] at h ⊢
  intro i hi
  rcases Nat.lt_or_ge i (w - k) with hlt | hge
  · have : i = w - 1 - k := by omega
    subst this
    exact hd
  · exact h i hge

theorem bitLen_le_of_lt : ∀ fuel x m, x < 2 ^ m → m ≤ fuel → bitLen fuel x ≤ m := by
  intro fuel
  induction fuel with
  | zero => intro x m _ _; simp [bitLen]
  | succ fuel ih =>
    intro x m hx hm
    unfold bitLen
    split
    · omega
    · next hx0 =>
      have hm0 : m ≠ 0 := by
        rintro rfl
        omega
      obtain ⟨m', rfl⟩ := Nat.exists_eq_succ_of_ne_zero hm0
      have : x / 2 < 2 ^ m' := by
        rw [Nat.div_lt_iff_lt_mul (by omega)]
        rw [Nat.pow_succ] at hx
        omega
      have := ih (x / 2) m' this (by omega)
      omega

theorem lt_of_bitLen_le : ∀ fuel x m, x < 2 ^ fuel → bitLen fuel x ≤ m → x < 2 ^ m := by
  intro fuel
  induction fuel with
  | zero => intro x m hx _; exact lt_of_lt_of_le hx (Nat.pow_le_pow_right (by omega) (by omega))
  | succ fuel ih =>
    intro x m hx h
    unfold bitLen at h
    split at h
    · next h0 => subst h0; exact Nat.pos_pow_of_pos _ (by omega)
    · next hx0 =>
      obtain ⟨m', rfl⟩ : ∃ m', m = m' + 1 := ⟨m - 1, by omega⟩
      have hdiv : x / 2 < 2 ^ fuel := by
        rw [Nat.div_lt_iff_lt_mul (by omega)]
        rw [Nat.pow_succ] at hx
        omega
      have := ih (x / 2) m' hdiv (by omega)
      rw [Nat.pow_succ]
      omega

/-- Lower bound: a nonzero `x` reaches its bit length. -/
theorem two_pow_le_of_bitLen : ∀ fuel x s, x < 2 ^ fuel → bitLen fuel x = s + 1 →
    2 ^ s ≤ x := by
  intro fuel x s hx h
  by_contra hlt
  have := bitLen_le_of_lt fuel x s (by omega) (by
    have := bitLen_le_of_lt fuel x fuel hx (le_refl _)
    omega)
  omega

end PrefixSetRs

namespace PrefixSetRs

/-! ## Properties of `compare_with` and `branch_direction` -/

theorem commonBits_le_left {w : Nat} {p q : Pfx} : commonBits w p q ≤ p.length :=
  le_trans (Nat.min_le_left _ _) (Nat.min_le_left _ _)

theorem commonBits_le_right {w : Nat} {p q : Pfx} : commonBits w p q ≤ q.length :=
  le_trans (Nat.min_le_left _ _) (Nat.min_le_right _ _)

/-- The two addresses agree on the computed number of common bits. -/
theorem agree_commonBits {w : Nat} {p q : Pfx}
    (hp : p.bits < 2 ^ w) (hq : q.bits < 2 ^ w) :
    agree w (commonBits w p q) p.bits q.bits := by
  rw [agree_iff_xor_lt]
  have hle : commonBits w p q ≤ lzW w (p.bits ^^^ q.bits) := Nat.min_le_right _ _
  have hxlt : p.bits ^^^ q.bits < 2 ^ w := Nat.xor_lt_two_pow hp hq
  have hbl : bitLen w (p.bits ^^^ q.bits) ≤ w - commonBits w p q := by
    unfold lzW at hle
    have := bitLen_le_of_lt w (p.bits ^^^ q.bits) w hxlt (le_refl w)
    omega
  exact lt_of_bitLen_le w _ _ hxlt hbl

/-- A lower bound on `commonBits` from observed agreement. -/
theorem commonBits_ge {w k : Nat} {p q : Pfx}
    (hp : p.bits < 2 ^ w) (hq : q.bits < 2 ^ w)
    (hkp : k ≤ p.length) (hkq : k ≤ q.length) (hkw : k ≤ w)
    (h : agree w k p.bits q.bits) : k ≤ commonBits w p q := by
  rw [agree_iff_xor_lt] at h
  have hxlt : p.bits ^^^ q.bits < 2 ^ w := Nat.xor_lt_two_pow hp hq
  have hbl : bitLen w (p.bits ^^^ q.bits) ≤ w - k :=
    bitLen_le_of_lt w _ _ h (by omega)
  have hlz : k ≤ lzW w (p.bits ^^^ q.bits) := by
    unfold lzW
    omega
  unfold commonBits
  omega

/-- Inversion: the `Equal` arm. -/
theorem compareWith_equal {w : Nat} {p q : Pfx}
    (h : compareWith w p q = some .equal) :
    commonBits w p q = p.length ∧ commonBits w p q = q.length := by
  unfold compareWith at h
  split_ifs at h with h1 h2 h3 h4
  · exact h1
  all_goals simp_all

/-- Inversion: the `ChildOf` arm. -/
theorem compareWith_childOf {w c : Nat} {p q : Pfx}
    (h : compareWith w p q = some (.childOf c)) :
    c = commonBits w p q ∧ c = p.length ∧ c < q.length := by
  unfold compareWith at h
  split_ifs at h with h1 h2 h3 h4 <;> simp_all <;> omega

/-- Inversion: the `ParentOf` arm. -/
theorem compareWith_parentOf {w c : Nat} {p q : Pfx}
    (h : compareWith w p q = some (.parentOf c)) :
    c = commonBits w p q ∧ c < p.length ∧ c = q.length := by
  unfold compareWith at h
  split_ifs at h with h1 h2 h3 h4 <;> simp_all <;> omega

/-- Inversion: the `Divergent` arm. -/
theorem compareWith_divergent {w c : Nat} {p q : Pfx}
    (h : compareWith w p q = some (.divergent c)) :
    c = commonBits w p q ∧ c < p.length ∧ c < q.length := by
  unfold compareWith at h
  split_ifs at h with h1 h2 h3 h4 <;> simp_all <;> omega

/-- In the `Divergent` arm the two direction bits at the divergence point
differ (the leading-zero count of the xor is exactly `common`). -/
theorem divergent_dirbit_ne {w c : Nat} {p q : Pfx}
    (hp : p.bits < 2 ^ w) (hq : q.bits < 2 ^ w) (hpl : p.length ≤ w)
    (h : compareWith w p q = some (.divergent c)) :
    dirbit w p.bits c ≠ dirbit w q.bits c := by
  obtain ⟨hc, hcp, hcq⟩ := compareWith_divergent h
  have hcw : c < w := by omega
  have hlz : lzW w (p.bits ^^^ q.bits) = c := by
    have h1 : commonBits w p q ≤ lzW w (p.bits ^^^ q.bits) := Nat.min_le_right _ _
    have h2 : min p.length q.length ≤ w := by omega
    unfold commonBits at hc
    omega
  have hxlt : p.bits ^^^ q.bits < 2 ^ w := Nat.xor_lt_two_pow hp hq
  have hblen : bitLen w (p.bits ^^^ q.bits) = w - c := by
    unfold lzW at hlz
    have := bitLen_le_of_lt w (p.bits ^^^ q.bits) w hxlt (le_refl w)
    omega
  have hge : 2 ^ (w - c - 1) ≤ p.bits ^^^ q.bits :=
    two_pow_le_of_bitLen w _ _ hxlt (by omega)
  have hlt : p.bits ^^^ q.bits < 2 ^ (w - c) := lt_of_bitLen_le w _ _ hxlt (by omega)
  have h21 : (2 : Nat) ^ (w - c) = 2 ^ (w - c - 1) * 2 := by
    rw [← Nat.pow_succ]
    congr 1
    omega
  have htop : (p.bits ^^^ q.bits).testBit (w - c - 1) = true := by
    have hdiv : (p.bits ^^^ q.bits) / 2 ^ (w - c - 1) = 1 :=
      Nat.div_eq_of_lt_le (by omega) (by omega)
    rw [Nat.testBit_to_div_mod, hdiv]
    rfl
  intro hcon
  unfold dirbit at hcon
  rw [Nat.testBit_xor] at htop
  have : w - c - 1 = w - 1 - c := by omega
  rw [this, hcon] at htop
  simp at htop

/-- `branch_direction` examines exactly the direction bit. -/
theorem branchDir_eq {w bits k : Nat} (hk : k + 1 ≤ w) :
    branchDir w bits k = (if dirbit w bits k then Dir.right else Dir.left) := by
  unfold branchDir dirbit
  have hs : w - (k + 1) < w := by omega
  have hmask : (1 <<< (w - (k + 1))) % 2 ^ w = 2 ^ (w - (k + 1)) := by
    rw [Nat.one_shiftLeft]
    exact Nat.mod_eq_of_lt (Nat.pow_lt_pow_right (by omega) hs)
  rw [hmask]
  have hand : bits &&& 2 ^ (w - (k + 1)) = (bits.testBit (w - (k + 1))).toNat * 2 ^ (w - (k + 1)) :=
    Nat.and_two_pow _ _
  have hidx : w - (k + 1) = w - 1 - k := by omega
  rw [hand, hidx]
  cases h : bits.testBit (w - 1 - k) <;> simp [h, Nat.pos_pow_of_pos]

end PrefixSetRs

namespace PrefixSetRs

/-! ## Properties of `new_from`, canonical bits and sub-prefixes -/

theorem canonical_testBit {w : Nat} {p : Pfx} (h : canonical w p) :
    ∀ i, i < w - p.length → p.bits.testBit i = false := by
  intro i hi
  have := Nat.testBit_mod_two_pow p.bits (w - p.length) i
  rw [canonical] at h
  rw [h] at this
  simp only [Nat.zero_testBit] at this
  rw [eq_comm, decide_eq_true hi, Bool.true_and] at this
  exact this

theorem canonical_of_testBit {w : Nat} {p : Pfx}
    (h : ∀ i, i < w - p.length → p.bits.testBit i = false) : canonical w p := by
  rw [canonical]
  refine Nat.eq_of_testBit_eq fun i => ?_
  rw [Nat.testBit_mod_two_pow, Nat.zero_testBit]
  by_cases hi : i < w - p.length
  · simp [hi, h i hi]
  · simp [hi]

/-- The unfolded form of `new_from` for a feasible target length. -/
theorem newFrom_eq {w len : Nat} (p : Pfx) (hlen : len ≤ w) :
    newFrom w p len =
      .ok ⟨p.bits &&& (checkedShl w (ones w) (w - len)).getD 0, len⟩ := by
  unfold newFrom pfxNew
  split
  · omega
  · rfl

/-- The bits of the `new_from` mask: positions in `[w - len, w)`. -/
theorem newFrom_mask_testBit {w len : Nat} (hlen : len ≤ w) (i : Nat) :
    ((checkedShl w (ones w) (w - len)).getD 0).testBit i =
      decide (w - len ≤ i ∧ i < w) := by
  unfold checkedShl ones
  split
  · next hs =>
    simp only [Option.getD_some]
    rw [Nat.testBit_mod_two_pow, Nat.testBit_shiftLeft, Nat.testBit_two_pow_sub_one]
    simp only [← Bool.decide_and, ge_iff_le]
    exact decide_eq_decide.mpr (by omega)
  · next hs =>
    have : len = 0 := by omega
    subst this
    simp only [Option.getD_none, Nat.zero_testBit]
    rw [eq_comm, decide_eq_false_iff_not]
    omega

/-- The glue prefix built by `add`'s divergent arm: bounds, canonical bits,
and agreement with the original prefix on the first `len` bits. -/
theorem newFrom_props {w len : Nat} {p : Pfx} (hlen : len ≤ w) (hp : p.bits < 2 ^ w) :
    ∀ g, newFrom w p len = .ok g →
      g.length = len ∧ g.bits < 2 ^ w ∧ canonical w g ∧ agree w len p.bits g.bits := by
  intro g hg
  rw [newFrom_eq p hlen] at hg
  obtain ⟨rfl⟩ : g = ⟨p.bits &&& (checkedShl w (ones w) (w - len)).getD 0, len⟩ := by
    exact (Except.ok.injEq _ _).mp hg.symm ▸ rfl
  refine ⟨rfl, ?_, ?_, ?_⟩
  · refine Nat.lt_pow_two_of_testBit _ fun i hi => ?_
    rw [Nat.testBit_and, newFrom_mask_testBit hlen]
    simp only [Bool.and_eq_false_iff]
    right
    rw [decide_eq_false_iff_not]
    omega
  · refine canonical_of_testBit fun i hi => ?_
    rw [Nat.testBit_and, newFrom_mask_testBit hlen]
    simp only [Pfx.length] at hi ⊢
    simp only [Bool.and_eq_false_iff]
    right
    rw [decide_eq_false_iff_not]
    omega
  · rw [agree_iff_testBit]
    intro i hi
    rw [Nat.testBit_and, newFrom_mask_testBit hlen]
    by_cases h1 : i < w
    · rw [decide_eq_true (by omega : w - len ≤ i ∧ i < w)]
      simp
    · rw [Nat.testBit_lt_two_pow (lt_of_lt_of_le hp (Nat.pow_le_pow_right (by omega) (by omega)))]
      simp

/-- All-ones words shift down to all-ones words. -/
theorem ones_shr (n k : Nat) (hk : k ≤ n) : (2 ^ n - 1) >>> k = 2 ^ (n - k) - 1 := by
  rw [Nat.shiftRight_eq_div_pow]
  have hnk : 2 ^ (n - k) * 2 ^ k = 2 ^ n := by
    rw [← Nat.pow_add]
    congr 1
    omega
  have hk1 : (1 : Nat) ≤ 2 ^ k := Nat.one_le_two_pow
  have hp : (1 : Nat) ≤ 2 ^ (n - k) := Nat.one_le_two_pow
  have hkey : (2 ^ (n - k) - 1) * 2 ^ k = 2 ^ n - 2 ^ k := by
    rw [Nat.sub_mul, one_mul, hnk]
  have h1 : (2 ^ (n - k) - 1) * 2 ^ k ≤ 2 ^ n - 1 := by
    omega
  have h2 : 2 ^ n - 1 < (2 ^ (n - k) - 1 + 1) * 2 ^ k := by
    rw [Nat.sub_add_cancel hp, hnk]
    exact Nat.sub_lt (Nat.pos_pow_of_pos n (by omega)) Nat.one_pos
  exact Nat.div_eq_of_lt_le h1 h2

/-- Membership in the `subprefixes` list, explicitly. -/
theorem subprefixes_mem {w L : Nat} {base q : Pfx}
    (hmem : q ∈ subprefixes w base L) :
    ∃ i, i ≤ (checkedShr w (ones w) (w - L + base.length)).getD 0 ∧
      q = ⟨(base.bits + i * (checkedShl w 1 (w - L)).getD 0) % 2 ^ w, L⟩ ∧
      base.length ≤ L ∧ L ≤ w := by
  unfold subprefixes at hmem
  split at hmem
  · next hcond =>
    simp only [List.mem_map, List.mem_range] at hmem
    obtain ⟨i, hi, rfl⟩ := hmem
    exact ⟨i, by omega, rfl, hcond.1, hcond.2⟩
  · simp at hmem

/-- For a canonical, in-range base the sub-prefix step and index bound take
their arithmetic values. -/
theorem subprefixes_params {w L : Nat} {base : Pfx}
    (hbl : base.length ≤ L) (hLw : L ≤ w) (hblen : base.length ≤ w) :
    ((checkedShl w 1 (w - L)).getD 0 = if L = 0 then 0 else 2 ^ (w - L)) ∧
    ((checkedShr w (ones w) (w - L + base.length)).getD 0 =
      if base.length = L then 0 else 2 ^ (L - base.length) - 1) := by
  constructor
  · unfold checkedShl
    split
    · next hs =>
      rw [Nat.one_shiftLeft, if_neg (by omega),
        Nat.mod_eq_of_lt (Nat.pow_lt_pow_right (by omega) (by omega))]
      rfl
    · next hs =>
      rw [if_pos (by omega)]
      rfl
  · unfold checkedShr ones
    split
    · next hs =>
      rw [if_neg (by omega)]
      simp only [Option.getD_some]
      rw [ones_shr w (w - L + base.length) (by omega)]
      congr 2
      omega
    · next hs =>
      rw [if_pos (by omega)]
      rfl

end PrefixSetRs

namespace PrefixSetRs

/-- Every entry of `subprefixes w base L` of a canonical in-bounds base is a
canonical in-bounds prefix of length `L` agreeing with the base on its
leading `base.length` bits (the `u32` addition in the iterator cannot
carry into those bits). -/
theorem subprefixes_props {w L : Nat} {base q : Pfx}
    (hc : canonical w base) (hb : base.bits < 2 ^ w) (hlw : base.length ≤ w)
    (hmem : q ∈ subprefixes w base L) :
    q.length = L ∧ q.bits < 2 ^ w ∧ canonical w q ∧
    agree w base.length base.bits q.bits ∧ base.length ≤ L ∧ L ≤ w := by
  obtain ⟨i, hi, rfl, hbl, hLw⟩ := subprefixes_mem hmem
  obtain ⟨hstep, hmax⟩ := subprefixes_params hbl hLw hlw
  obtain ⟨m, hm⟩ : 2 ^ (w - base.length) ∣ base.bits := Nat.dvd_of_mod_eq_zero hc
  have hpow0 : (0 : Nat) < 2 ^ (w - base.length) := Nat.pos_pow_of_pos _ (by omega)
  have e1 : 2 ^ (w - base.length) * 2 ^ base.length = 2 ^ w := by
    rw [← Nat.pow_add]
    congr 1
    omega
  have hmlt : m < 2 ^ base.length := by
    by_contra hge
    have : 2 ^ (w - base.length) * 2 ^ base.length ≤ 2 ^ (w - base.length) * m :=
      Nat.mul_le_mul_left _ (by omega)
    omega
  by_cases heq : base.length = L
  · rw [hmax, if_pos heq] at hi
    have : i = 0 := by omega
    subst this
    simp only [Nat.zero_mul, Nat.add_zero, Nat.mod_eq_of_lt hb]
    refine ⟨by simp, hb, ?_, agree_refl, by omega, hLw⟩
    unfold canonical at hc ⊢
    simp only [Pfx.bits, Pfx.length]
    rw [← heq]
    exact hc
  · have hlt : base.length < L := by omega
    have hL0 : L ≠ 0 := by omega
    rw [hstep, if_neg hL0]
    rw [hmax, if_neg heq] at hi
    have e2 : 2 ^ (L - base.length) * 2 ^ (w - L) = 2 ^ (w - base.length) := by
      rw [← Nat.pow_add]
      congr 1
      omega
    have hpowL : (0 : Nat) < 2 ^ (w - L) := Nat.pos_pow_of_pos _ (by omega)
    have hdle : i * 2 ^ (w - L) ≤ (2 ^ (L - base.length) - 1) * 2 ^ (w - L) :=
      Nat.mul_le_mul_right _ hi
    have e3 : (2 ^ (L - base.length) - 1) * 2 ^ (w - L) =
        2 ^ (w - base.length) - 2 ^ (w - L) := by
      rw [Nat.sub_mul, one_mul, e2]
    have e4 : 2 ^ (w - base.length) * (2 ^ base.length - 1) =
        2 ^ w - 2 ^ (w - base.length) := by
      rw [Nat.mul_sub, Nat.mul_one, e1]
    have hbits_le : base.bits ≤ 2 ^ w - 2 ^ (w - base.length) := by
      rw [hm]
      calc 2 ^ (w - base.length) * m
          ≤ 2 ^ (w - base.length) * (2 ^ base.length - 1) :=
            Nat.mul_le_mul_left _ (by omega)
        _ = 2 ^ w - 2 ^ (w - base.length) := e4
    have hd_le : i * 2 ^ (w - L) ≤ 2 ^ (w - base.length) - 2 ^ (w - L) :=
      le_trans hdle (le_of_eq e3)
    have hadd : base.bits + i * 2 ^ (w - L) ≤
        (2 ^ w - 2 ^ (w - base.length)) + (2 ^ (w - base.length) - 2 ^ (w - L)) :=
      Nat.add_le_add hbits_le hd_le
    have hBA : 2 ^ (w - L) ≤ 2 ^ (w - base.length) :=
      Nat.pow_le_pow_right (by omega) (by omega)
    have hA2 : 2 ^ (w - base.length) ≤ 2 ^ w :=
      Nat.pow_le_pow_right (by omega) (by omega)
    have hsum : base.bits + i * 2 ^ (w - L) < 2 ^ w := by omega
    rw [Nat.mod_eq_of_lt hsum]
    have hdlt : i * 2 ^ (w - L) < 2 ^ (w - base.length) := by omega
    refine ⟨rfl, hsum, ?_, ?_, by omega, hLw⟩
    · unfold canonical
      simp only [Pfx.bits, Pfx.length]
      have : base.bits + i * 2 ^ (w - L) =
          2 ^ (w - L) * (2 ^ (L - base.length) * m + i) := by
        rw [Nat.mul_add, hm]
        rw [show 2 ^ (w - L) * (2 ^ (L - base.length) * m) =
          (2 ^ (L - base.length) * 2 ^ (w - L)) * m by ring, e2]
        ring
      rw [this, Nat.mul_mod_right]
    · unfold agree
      simp only [Pfx.bits]
      rw [hm, Nat.mul_add_div hpow0, Nat.div_eq_of_lt hdlt,
        Nat.mul_div_cancel_left m hpow0]
      omega

end PrefixSetRs

namespace PrefixSetRs

namespace GlueMap

/-! ### Pointwise reasoning about glue maps -/

theorem test_zero {w i : Nat} : test w zero i = false := by
  unfold test zero
  split <;> [exact Nat.zero_testBit i; split <;> rfl]

theorem test_and {w i : Nat} {a b : GlueMap} :
    test w (and a b) i = (test w a i && test w b i) := by
  unfold test and
  split
  · exact Nat.testBit_and _ _ _
  · split <;> simp

theorem test_or {w i : Nat} {a b : GlueMap} :
    test w (or a b) i = (test w a i || test w b i) := by
  unfold test or
  split
  · exact Nat.testBit_or _ _ _
  · split <;> simp

theorem test_not {w i : Nat} {a : GlueMap} (hi : i ≤ w) :
    test w (not w a) i = !test w a i := by
  unfold test not ones
  split
  · next h =>
    rw [Nat.testBit_xor, Nat.testBit_two_pow_sub_one, decide_eq_true h]
    cases a.bitmap.testBit i <;> rfl
  · next h =>
    have hiw : i = w := by omega
    subst hiw
    simp

theorem bnd_zero {w : Nat} : Bnd w zero := Nat.pos_pow_of_pos _ (by omega)

theorem bnd_and_left {w : Nat} {a b : GlueMap} (ha : Bnd w a) : Bnd w (and a b) := by
  unfold Bnd and at *
  refine Nat.lt_pow_two_of_testBit _ fun i hi => ?_
  rw [Nat.testBit_and, Nat.testBit_lt_two_pow (lt_of_lt_of_le ha (Nat.pow_le_pow_right (by omega) hi))]
  rfl

theorem bnd_and_right {w : Nat} {a b : GlueMap} (hb : Bnd w b) : Bnd w (and a b) := by
  unfold Bnd and at *
  refine Nat.lt_pow_two_of_testBit _ fun i hi => ?_
  rw [Nat.testBit_and, Nat.testBit_lt_two_pow (lt_of_lt_of_le hb (Nat.pow_le_pow_right (by omega) hi))]
  simp

theorem bnd_or {w : Nat} {a b : GlueMap} (ha : Bnd w a) (hb : Bnd w b) : Bnd w (or a b) := by
  unfold Bnd or at *
  refine Nat.lt_pow_two_of_testBit _ fun i hi => ?_
  have hha := Nat.testBit_lt_two_pow (lt_of_lt_of_le ha (Nat.pow_le_pow_right (by omega) hi))
  have hhb := Nat.testBit_lt_two_pow (lt_of_lt_of_le hb (Nat.pow_le_pow_right (by omega) hi))
  rw [Nat.testBit_or, hha, hhb]
  rfl

theorem bnd_not {w : Nat} {a : GlueMap} (ha : Bnd w a) : Bnd w (not w a) := by
  unfold Bnd not ones at *
  refine Nat.lt_pow_two_of_testBit _ fun i hi => ?_
  have hha := Nat.testBit_lt_two_pow (lt_of_lt_of_le ha (Nat.pow_le_pow_right (by omega) hi))
  rw [Nat.testBit_xor, hha, Nat.testBit_two_pow_sub_one, decide_eq_false (by omega)]
  rfl

/-- Bounded glue maps are determined by their observable bits. -/
theorem ext_test {w : Nat} {a b : GlueMap} (ha : Bnd w a) (hb : Bnd w b)
    (h : ∀ i, test w a i = test w b i) : a = b := by
  unfold Bnd at ha hb
  have hbm : a.bitmap = b.bitmap := by
    refine Nat.eq_of_testBit_eq fun i => ?_
    by_cases hi : i < w
    · have := h i
      unfold test at this
      rw [if_pos hi, if_pos hi] at this
      exact this
    · rw [Nat.testBit_lt_two_pow (lt_of_lt_of_le ha (Nat.pow_le_pow_right (by omega) (by omega))),
        Nat.testBit_lt_two_pow (lt_of_lt_of_le hb (Nat.pow_le_pow_right (by omega) (by omega)))]
  have hhb : a.hostbit = b.hostbit := by
    have := h w
    simp [test] at this
    exact this
  obtain ⟨abm, ahb⟩ := a
  obtain ⟨bbm, bhb⟩ := b
  simp_all

/-- A bounded map with no observable bit is `zero`. -/
theorem eq_zero_of_test {w : Nat} {a : GlueMap} (ha : Bnd w a)
    (h : ∀ i, test w a i = false) : a = zero :=
  ext_test ha bnd_zero fun i => by rw [h i, test_zero]

theorem test_ne_zero {w : Nat} {a : GlueMap} (ha : Bnd w a) (hne : a ≠ zero) :
    ∃ i, i ≤ w ∧ test w a i = true := by
  by_contra hcon
  push_neg at hcon
  refine hne (eq_zero_of_test ha fun i => ?_)
  by_cases hi : i ≤ w
  · have := hcon i hi
    cases htest : test w a i
    · rfl
    · exact absurd htest this
  · unfold test
    rw [if_neg (by omega), if_neg (by omega)]

/-- The floor property of a single map: every observable bit sits at or
above `ℓ`. -/
def Floor (w ℓ : Nat) (a : GlueMap) : Prop := ∀ i, test w a i = true → ℓ ≤ i

theorem floor_and_left {w ℓ : Nat} {a b : GlueMap} (ha : Floor w ℓ a) :
    Floor w ℓ (and a b) := fun i hi => by
  rw [test_and] at hi
  exact ha i (by cases h : test w a i <;> simp [h] at hi ⊢)

theorem floor_or {w ℓ : Nat} {a b : GlueMap} (ha : Floor w ℓ a) (hb : Floor w ℓ b) :
    Floor w ℓ (or a b) := fun i hi => by
  rw [test_or] at hi
  cases h1 : test w a i
  · cases h2 : test w b i
    · rw [h1, h2] at hi
      simp at hi
    · exact hb i h2
  · exact ha i h1

theorem floor_mono {w ℓ ℓ' : Nat} {a : GlueMap} (h : ℓ' ≤ ℓ) (ha : Floor w ℓ a) :
    Floor w ℓ' a := fun i hi => le_trans h (ha i hi)

theorem floor_zero {w ℓ : Nat} : Floor w ℓ zero := fun i hi => by
  rw [test_zero] at hi
  exact absurd hi (by simp)

/-- The (buggy, `ONES`-based) `singleton` still satisfies the floor: all of
its bits are at or above the requested length. -/
theorem singleton_floor {w ℓ : Nat} (hℓ : ℓ ≤ w) : Floor w ℓ (singleton w ℓ) := by
  intro i hi
  unfold singleton shl checkedShl at hi
  by_cases hlw : ℓ < w
  · rw [if_pos hlw] at hi
    unfold test at hi
    split at hi
    · next hiw =>
      simp only at hi
      rw [Nat.testBit_mod_two_pow, Nat.testBit_shiftLeft] at hi
      by_cases hge : i ≥ ℓ
      · exact hge
      · rw [decide_eq_false (show ¬ ℓ ≤ i by omega)] at hi
        simp at hi
    · split at hi <;> simp_all
  · rw [if_neg hlw] at hi
    unfold test at hi
    split at hi
    · next hiw => simp at hi
    · split at hi
      · omega
      · simp at hi

theorem bnd_singleton {w ℓ : Nat} : Bnd w (singleton w ℓ) := by
  by_cases hs : ℓ < w
  · simp only [Bnd, singleton, shl, checkedShl, if_pos hs]
    exact Nat.mod_lt _ (Nat.pos_pow_of_pos _ (by omega))
  · simp only [Bnd, singleton, shl, checkedShl, if_neg hs]
    exact Nat.pos_pow_of_pos _ (by omega)

theorem bnd_foldl_or {w : Nat} : ∀ (l : List GlueMap) (z : GlueMap), Bnd w z →
    (∀ g ∈ l, Bnd w g) → Bnd w (l.foldl or z)
  | [], z, hz, _ => hz
  | x :: xs, z, hz, hl =>
    bnd_foldl_or xs (or z x) (bnd_or hz (hl x (by simp)))
      (fun g hg => hl g (by simp [hg]))

theorem floor_foldl_or {w l0 : Nat} : ∀ (l : List GlueMap) (z : GlueMap), Floor w l0 z →
    (∀ g ∈ l, Floor w l0 g) → Floor w l0 (l.foldl or z)
  | [], z, hz, _ => hz
  | x :: xs, z, hz, hl =>
    floor_foldl_or xs (or z x) (floor_or hz (hl x (by simp)))
      (fun g hg => hl g (by simp [hg]))

theorem bnd_ofRange {w lo up : Nat} : Bnd w (ofRange w lo up) := by
  unfold ofRange
  refine bnd_foldl_or _ _ bnd_zero fun g hg => ?_
  simp only [List.mem_map] at hg
  obtain ⟨i, _, rfl⟩ := hg
  exact bnd_singleton

theorem ofRange_floor {w lo up : Nat} (hup : up ≤ w) : Floor w lo (ofRange w lo up) := by
  unfold ofRange
  refine floor_foldl_or _ _ floor_zero fun g hg => ?_
  simp only [List.mem_map, List.mem_range] at hg
  obtain ⟨i, hi, rfl⟩ := hg
  exact floor_mono (by omega) (singleton_floor (by omega))

end GlueMap

end PrefixSetRs

namespace PrefixSetRs

/-! ## Structural well-formedness of radix trees

`WFT` captures the invariants maintained by the tree operations on
canonical inputs: machine-word bounds, canonical base bits, and — for every
child edge — strictly growing prefix length, agreement with the parent on
the parent's leading bits, and the correct branching bit (spec §3.2,
invariants 1, 3, 4). -/

/-- One parent-child edge obligation: the child's base is longer, extends
the parent's base bits, and carries branching bit `d` at the parent's
length. -/
def edge (w : Nat) (p : Pfx) (d : Bool) (t : Tree) : Prop :=
  p.length < t.pfx.length ∧ agree w p.length p.bits t.pfx.bits ∧
    dirbit w t.pfx.bits p.length = d

/-- Well-formed radix tree. -/
def WFT (w : Nat) : Tree → Prop
  | .node p m l r =>
    GlueMap.Bnd w m ∧ p.bits < 2 ^ w ∧ p.length ≤ w ∧ canonical w p ∧
    (match l with
     | some c => edge w p false c ∧ WFT w c
     | none => True) ∧
    (match r with
     | some c => edge w p true c ∧ WFT w c
     | none => True)

/-- Well-formedness of an optional child together with its edge. -/
def optWF (w : Nat) (p : Pfx) (d : Bool) : Option Tree → Prop
  | some c => edge w p d c ∧ WFT w c
  | none => True

theorem WFT_node {w : Nat} {p : Pfx} {m : GlueMap} {l r : Option Tree} :
    WFT w (.node p m l r) ↔
      GlueMap.Bnd w m ∧ p.bits < 2 ^ w ∧ p.length ≤ w ∧ canonical w p ∧
      optWF w p false l ∧ optWF w p true r := by
  cases l <;> cases r <;> rfl

theorem WFT.bnd {w : Nat} {t : Tree} (h : WFT w t) : GlueMap.Bnd w t.map := by
  obtain ⟨p, m, l, r⟩ := t
  exact (WFT_node.mp h).1

theorem WFT.bits_lt {w : Nat} {t : Tree} (h : WFT w t) : t.pfx.bits < 2 ^ w := by
  obtain ⟨p, m, l, r⟩ := t
  exact (WFT_node.mp h).2.1

theorem WFT.len_le {w : Nat} {t : Tree} (h : WFT w t) : t.pfx.length ≤ w := by
  obtain ⟨p, m, l, r⟩ := t
  exact (WFT_node.mp h).2.2.1

theorem WFT.canon {w : Nat} {t : Tree} (h : WFT w t) : canonical w t.pfx := by
  obtain ⟨p, m, l, r⟩ := t
  exact (WFT_node.mp h).2.2.2.1

/-- `setMap` preserves well-formedness as long as the new map is bounded. -/
theorem WFT.setMap {w : Nat} {t : Tree} {m' : GlueMap} (h : WFT w t)
    (hm : GlueMap.Bnd w m') : WFT w (t.setMap m') := by
  obtain ⟨p, m, l, r⟩ := t
  rw [Tree.setMap, WFT_node] at *
  exact ⟨hm, h.2.1, h.2.2.1, h.2.2.2.1, h.2.2.2.2.1, h.2.2.2.2.2⟩

/-- Glue-map floor invariant over a whole tree (spec §3.2, invariant 2):
every observable glue-map bit of every node sits at or above the node's
base length. -/
def FloorT (w : Nat) : Tree → Prop
  | .node p m l r =>
    GlueMap.Floor w p.length m ∧
    (match l with
     | some c => FloorT w c
     | none => True) ∧
    (match r with
     | some c => FloorT w c
     | none => True)

/-- Floor invariant of an optional subtree. -/
def optFloor (w : Nat) : Option Tree → Prop
  | some c => FloorT w c
  | none => True

theorem FloorT_node {w : Nat} {p : Pfx} {m : GlueMap} {l r : Option Tree} :
    FloorT w (.node p m l r) ↔
      GlueMap.Floor w p.length m ∧ optFloor w l ∧ optFloor w r := by
  cases l <;> cases r <;> rfl

end PrefixSetRs

namespace PrefixSetRs

/-! ## Floor preservation by `Node::add` -/

/-- `Node::add` preserves the glue-map floor invariant, for every fuel
value: the `Equal` arm ORs maps of equal base lengths, the `ChildOf` /
`ParentOf` arms only clear bits, and the `Divergent` arm introduces a zero
map. -/
theorem addT_floor (w : Nat) : ∀ fuel t o, FloorT w t → FloorT w o →
    FloorT w (addT w fuel t o) := by
  intro fuel
  induction fuel with
  | zero =>
    intro t o ht _
    simpa [addT] using ht
  | succ fuel ih =>
    intro t o ht ho
    obtain ⟨p, m, l, r⟩ := t
    obtain ⟨q, n, ol, orr⟩ := o
    rw [FloorT_node] at ht ho
    obtain ⟨hm, hl, hr⟩ := ht
    obtain ⟨hn, hol, hor⟩ := ho
    unfold addT
    simp only [Tree.pfx, Tree.left, Tree.right, Tree.setMap, Tree.map]
    cases hcmp : compareWith w p q with
    | none =>
      dsimp only
      rw [FloorT_node]
      exact ⟨hm, hl, hr⟩
    | some cmp =>
      cases cmp with
      | equal =>
        obtain ⟨hc1, hc2⟩ := compareWith_equal hcmp
        have hql : q.length = p.length := by omega
        have hfl1 : FloorT w (.node p (GlueMap.or m n) l r) := by
          rw [FloorT_node]
          exact ⟨GlueMap.floor_or hm (hql ▸ hn), hl, hr⟩
        dsimp only
        cases ol with
        | none =>
          cases orr with
          | none => exact hfl1
          | some c2 => exact ih _ c2 hfl1 hor
        | some c1 =>
          have hfl2 := ih _ c1 hfl1 hol
          cases orr with
          | none => exact hfl2
          | some c2 => exact ih _ c2 hfl2 hor
      | childOf common =>
        have hfo : FloorT w (.node q (GlueMap.and n (GlueMap.not w m)) ol orr) := by
          rw [FloorT_node]
          exact ⟨GlueMap.floor_and_left hn, hol, hor⟩
        dsimp only
        cases branchDir w q.bits common with
        | left =>
          dsimp only
          cases l with
          | some child =>
            rw [FloorT_node]
            exact ⟨hm, ih child _ hl hfo, hr⟩
          | none =>
            rw [FloorT_node]
            exact ⟨hm, hfo, hr⟩
        | right =>
          dsimp only
          cases r with
          | some child =>
            rw [FloorT_node]
            exact ⟨hm, hl, ih child _ hr hfo⟩
          | none =>
            rw [FloorT_node]
            exact ⟨hm, hl, hfo⟩
      | parentOf common =>
        have hft : FloorT w (.node p (GlueMap.and m (GlueMap.not w n)) l r) := by
          rw [FloorT_node]
          exact ⟨GlueMap.floor_and_left hm, hl, hr⟩
        dsimp only
        cases branchDir w p.bits common with
        | left =>
          dsimp only
          cases ol with
          | some child =>
            rw [FloorT_node]
            exact ⟨hn, ih child _ hol hft, hor⟩
          | none =>
            rw [FloorT_node]
            exact ⟨hn, hft, hor⟩
        | right =>
          dsimp only
          cases orr with
          | some child =>
            rw [FloorT_node]
            exact ⟨hn, hol, ih child _ hor hft⟩
          | none =>
            rw [FloorT_node]
            exact ⟨hn, hol, hft⟩
      | divergent common =>
        dsimp only
        cases branchDir w p.bits common with
        | left =>
          rw [FloorT_node]
          refine ⟨GlueMap.floor_zero, ?_, ?_⟩ <;> rw [optFloor, FloorT_node]
          · exact ⟨hm, hl, hr⟩
          · exact ⟨hn, hol, hor⟩
        | right =>
          rw [FloorT_node]
          refine ⟨GlueMap.floor_zero, ?_, ?_⟩ <;> rw [optFloor, FloorT_node]
          · exact ⟨hn, hol, hor⟩
          · exact ⟨hm, hl, hr⟩

end PrefixSetRs


namespace PrefixSetRs

/-! ## Well-formedness preservation by `Node::add` -/

/-- A `Left` branch direction means the direction bit is clear. -/
theorem branchDir_left_dirbit {w bits k : Nat} (hk : k + 1 ≤ w)
    (h : branchDir w bits k = Dir.left) : dirbit w bits k = false := by
  rw [branchDir_eq hk] at h
  cases hd : dirbit w bits k
  · rfl
  · rw [hd] at h
    simp at h

/-- A `Right` branch direction means the direction bit is set. -/
theorem branchDir_right_dirbit {w bits k : Nat} (hk : k + 1 ≤ w)
    (h : branchDir w bits k = Dir.right) : dirbit w bits k = true := by
  rw [branchDir_eq hk] at h
  cases hd : dirbit w bits k
  · rw [hd] at h
    simp at h
  · rfl

/-- The master lemma for `Node::add`: for well-formed inputs and every fuel
value, the merged tree is well-formed, and its root prefix is at least as
long as the common bit count of the two input roots while agreeing with
the left input's root on that many leading bits.  The latter two facts are
exactly what re-installing a recursive `add` result into a parent's child
slot requires. -/
theorem addT_wf (w : Nat) : ∀ fuel t o, WFT w t → WFT w o →
    WFT w (addT w fuel t o) ∧
    commonBits w t.pfx o.pfx ≤ (addT w fuel t o).pfx.length ∧
    agree w (commonBits w t.pfx o.pfx) t.pfx.bits (addT w fuel t o).pfx.bits := by
  intro fuel
  induction fuel with
  | zero =>
    intro t o ht ho
    exact ⟨ht, commonBits_le_left, agree_refl⟩
  | succ fuel ih =>
    intro t o ht ho
    have hpw : t.pfx.length ≤ w := ht.len_le
    have hqw : o.pfx.length ≤ w := ho.len_le
    have hpb : t.pfx.bits < 2 ^ w := ht.bits_lt
    have hqb : o.pfx.bits < 2 ^ w := ho.bits_lt
    obtain ⟨p, m, l, r⟩ := t
    obtain ⟨q, n, ol, orr⟩ := o
    simp only [Tree.pfx] at hpw hqw hpb hqb
    rw [WFT_node] at ht ho
    obtain ⟨hmb, -, -, hpc, hl, hr⟩ := ht
    obtain ⟨hnb, -, -, hqc, hol, hor⟩ := ho
    unfold addT
    simp only [Tree.pfx, Tree.left, Tree.right, Tree.setMap, Tree.map]
    cases hcmp : compareWith w p q with
    | none =>
      dsimp only
      refine ⟨?_, commonBits_le_left, agree_refl⟩
      rw [WFT_node]
      exact ⟨hmb, hpb, hpw, hpc, hl, hr⟩
    | some cmp =>
      cases cmp with
      | equal =>
        obtain ⟨hc1, hc2⟩ := compareWith_equal hcmp
        have hql : q.length = p.length := by omega
        have hagpq : agree w p.length p.bits q.bits := by
          rw [← hc1]
          exact agree_commonBits hpb hqb
        have hw1 : WFT w (.node p (GlueMap.or m n) l r) := by
          rw [WFT_node]
          exact ⟨GlueMap.bnd_or hmb hnb, hpb, hpw, hpc, hl, hr⟩
        have step : ∀ t' c : Tree, WFT w t' →
            p.length ≤ t'.pfx.length → agree w p.length p.bits t'.pfx.bits →
            WFT w c → p.length < c.pfx.length → agree w p.length p.bits c.pfx.bits →
            WFT w (addT w fuel t' c) ∧ p.length ≤ (addT w fuel t' c).pfx.length ∧
              agree w p.length p.bits (addT w fuel t' c).pfx.bits := by
          intro t' c hwt hlent hagt hwc hlenc hagc
          obtain ⟨hwr, hler, hagr⟩ := ih t' c hwt hwc
          have hk : p.length ≤ commonBits w t'.pfx c.pfx :=
            commonBits_ge hwt.bits_lt hwc.bits_lt (by omega) (by omega) (by omega)
              (agree_trans (agree_symm hagt) hagc)
          refine ⟨hwr, by omega, ?_⟩
          exact agree_trans hagt (agree_mono hk hagr)
        dsimp only
        have base : WFT w (.node p (GlueMap.or m n) l r) ∧
            p.length ≤ (Tree.node p (GlueMap.or m n) l r).pfx.length ∧
            agree w p.length p.bits (Tree.node p (GlueMap.or m n) l r).pfx.bits :=
          ⟨hw1, le_refl _, agree_refl⟩
        have mid : ∀ t2 : Tree, (WFT w t2 ∧ p.length ≤ t2.pfx.length ∧
            agree w p.length p.bits t2.pfx.bits) →
            ∀ c : Option Tree, optWF w q true c ∨ optWF w q false c →
            (∀ hc : Tree, c = some hc →
              WFT w (addT w fuel t2 hc) ∧ p.length ≤ (addT w fuel t2 hc).pfx.length ∧
              agree w p.length p.bits (addT w fuel t2 hc).pfx.bits) := by
          intro t2 ht2 c hc hcc hceq
          subst hceq
          have hedge : q.length < hcc.pfx.length ∧ agree w q.length q.bits hcc.pfx.bits := by
            cases hc with
            | inl h => exact ⟨h.1.1, h.1.2.1⟩
            | inr h => exact ⟨h.1.1, h.1.2.1⟩
          have hwcc : WFT w hcc := by
            cases hc with
            | inl h => exact h.2
            | inr h => exact h.2
          refine step t2 hcc ht2.1 ht2.2.1 ht2.2.2 hwcc (by omega) ?_
          exact agree_trans hagpq (by rw [← hql]; exact hedge.2)
        cases ol with
        | none =>
          cases orr with
          | none =>
            exact ⟨hw1, commonBits_le_left, agree_refl⟩
          | some c2 =>
            obtain ⟨hw2, hle2, hag2⟩ := mid _ base (some c2) (Or.inl hor) c2 rfl
            exact ⟨hw2, hc1.trans_le hle2, by rw [hc1]; exact hag2⟩
        | some c1 =>
          obtain ⟨hw2, hle2, hag2⟩ := mid _ base (some c1) (Or.inr hol) c1 rfl
          cases orr with
          | none =>
            exact ⟨hw2, hc1.trans_le hle2, by rw [hc1]; exact hag2⟩
          | some c2 =>
            obtain ⟨hw3, hle3, hag3⟩ := mid _ ⟨hw2, hle2, hag2⟩ (some c2) (Or.inl hor) c2 rfl
            exact ⟨hw3, hc1.trans_le hle3, by rw [hc1]; exact hag3⟩
      | childOf common =>
        obtain ⟨hcc, hc1, hc2⟩ := compareWith_childOf hcmp
        have hagpq : agree w p.length p.bits q.bits := by
          rw [← hc1, hcc]
          exact agree_commonBits hpb hqb
        have hwo1 : WFT w (.node q (GlueMap.and n (GlueMap.not w m)) ol orr) := by
          rw [WFT_node]
          exact ⟨GlueMap.bnd_and_left hnb, hqb, hqw, hqc, hol, hor⟩
        dsimp only
        cases hbd : branchDir w q.bits common <;> dsimp only
        · -- direction Left
          have hdb : dirbit w q.bits common = false :=
            branchDir_left_dirbit (by omega) hbd
          cases l with
          | none =>
            refine ⟨?_, commonBits_le_left, agree_refl⟩
            rw [WFT_node]
            refine ⟨hmb, hpb, hpw, hpc, ⟨⟨?_, ?_, ?_⟩, hwo1⟩, hr⟩
            · exact (by omega : p.length < q.length)
            · exact hagpq
            · exact (by rw [← hc1]; exact hdb : dirbit w q.bits p.length = false)
          | some child =>
            obtain ⟨⟨hel, hea, hed⟩, hwc⟩ := hl
            have hagcq : agree w (p.length + 1) child.pfx.bits q.bits := by
              refine agree_succ_of_dirbit (by omega)
                (agree_trans (agree_symm hea) hagpq) ?_
              rw [hed, ← hc1]
              exact hdb.symm
            obtain ⟨hwr, hler, hagr⟩ :=
              ih child (.node q (GlueMap.and n (GlueMap.not w m)) ol orr) hwc hwo1
            have hler2 : commonBits w child.pfx q ≤
                (addT w fuel child (Tree.node q (GlueMap.and n (GlueMap.not w m)) ol orr)).pfx.length := hler
            have hagr2 : agree w (commonBits w child.pfx q) child.pfx.bits
                (addT w fuel child (Tree.node q (GlueMap.and n (GlueMap.not w m)) ol orr)).pfx.bits := hagr
            have hkc : p.length + 1 ≤ commonBits w child.pfx q :=
              commonBits_ge hwc.bits_lt hqb (by omega) (by omega) (by omega) hagcq
            refine ⟨?_, commonBits_le_left, agree_refl⟩
            rw [WFT_node]
            refine ⟨hmb, hpb, hpw, hpc, ⟨⟨?_, ?_, ?_⟩, hwr⟩, hr⟩
            · omega
            · exact agree_trans hea (agree_mono (by omega) hagr2)
            · rw [← hed]
              exact (dirbit_eq_of_agree_succ (by omega) (agree_mono hkc hagr2)).symm
        · -- direction Right
          have hdb : dirbit w q.bits common = true :=
            branchDir_right_dirbit (by omega) hbd
          cases r with
          | none =>
            refine ⟨?_, commonBits_le_left, agree_refl⟩
            rw [WFT_node]
            refine ⟨hmb, hpb, hpw, hpc, hl, ⟨⟨?_, ?_, ?_⟩, hwo1⟩⟩
            · exact (by omega : p.length < q.length)
            · exact hagpq
            · exact (by rw [← hc1]; exact hdb : dirbit w q.bits p.length = true)
          | some child =>
            obtain ⟨⟨hel, hea, hed⟩, hwc⟩ := hr
            have hagcq : agree w (p.length + 1) child.pfx.bits q.bits := by
              refine agree_succ_of_dirbit (by omega)
                (agree_trans (agree_symm hea) hagpq) ?_
              rw [hed, ← hc1]
              exact hdb.symm
            obtain ⟨hwr, hler, hagr⟩ :=
              ih child (.node q (GlueMap.and n (GlueMap.not w m)) ol orr) hwc hwo1
            have hler2 : commonBits w child.pfx q ≤
                (addT w fuel child (Tree.node q (GlueMap.and n (GlueMap.not w m)) ol orr)).pfx.length := hler
            have hagr2 : agree w (commonBits w child.pfx q) child.pfx.bits
                (addT w fuel child (Tree.node q (GlueMap.and n (GlueMap.not w m)) ol orr)).pfx.bits := hagr
            have hkc : p.length + 1 ≤ commonBits w child.pfx q :=
              commonBits_ge hwc.bits_lt hqb (by omega) (by omega) (by omega) hagcq
            refine ⟨?_, commonBits_le_left, agree_refl⟩
            rw [WFT_node]
            refine ⟨hmb, hpb, hpw, hpc, hl, ⟨⟨?_, ?_, ?_⟩, hwr⟩⟩
            · omega
            · exact agree_trans hea (agree_mono (by omega) hagr2)
            · rw [← hed]
              exact (dirbit_eq_of_agree_succ (by omega) (agree_mono hkc hagr2)).symm
      | parentOf common =>
        obtain ⟨hcc, hc1, hc2⟩ := compareWith_parentOf hcmp
        have hagqp : agree w q.length q.bits p.bits := by
          rw [← hc2, hcc]
          exact agree_symm (agree_commonBits hpb hqb)
        have hwt1 : WFT w (.node p (GlueMap.and m (GlueMap.not w n)) l r) := by
          rw [WFT_node]
          exact ⟨GlueMap.bnd_and_left hmb, hpb, hpw, hpc, hl, hr⟩
        dsimp only
        cases hbd : branchDir w p.bits common <;> dsimp only
        · -- direction Left
          have hdb : dirbit w p.bits common = false :=
            branchDir_left_dirbit (by omega) hbd
          cases ol with
          | none =>
            refine ⟨?_, commonBits_le_right, agree_commonBits hpb hqb⟩
            rw [WFT_node]
            refine ⟨hnb, hqb, hqw, hqc, ⟨⟨?_, ?_, ?_⟩, hwt1⟩, hor⟩
            · exact (by omega : q.length < p.length)
            · exact hagqp
            · exact (by rw [← hc2]; exact hdb : dirbit w p.bits q.length = false)
          | some child =>
            obtain ⟨⟨hel, hea, hed⟩, hwc⟩ := hol
            have hagcp : agree w (q.length + 1) child.pfx.bits p.bits := by
              refine agree_succ_of_dirbit (by omega)
                (agree_trans (agree_symm hea) hagqp) ?_
              rw [hed, ← hc2]
              exact hdb.symm
            obtain ⟨hwr, hler, hagr⟩ :=
              ih child (.node p (GlueMap.and m (GlueMap.not w n)) l r) hwc hwt1
            have hler2 : commonBits w child.pfx p ≤
                (addT w fuel child (Tree.node p (GlueMap.and m (GlueMap.not w n)) l r)).pfx.length := hler
            have hagr2 : agree w (commonBits w child.pfx p) child.pfx.bits
                (addT w fuel child (Tree.node p (GlueMap.and m (GlueMap.not w n)) l r)).pfx.bits := hagr
            have hkc : q.length + 1 ≤ commonBits w child.pfx p :=
              commonBits_ge hwc.bits_lt hpb (by omega) (by omega) (by omega) hagcp
            refine ⟨?_, commonBits_le_right, agree_commonBits hpb hqb⟩
            rw [WFT_node]
            refine ⟨hnb, hqb, hqw, hqc, ⟨⟨?_, ?_, ?_⟩, hwr⟩, hor⟩
            · omega
            · exact agree_trans hea (agree_mono (by omega) hagr2)
            · rw [← hed]
              exact (dirbit_eq_of_agree_succ (by omega) (agree_mono hkc hagr2)).symm
        · -- direction Right
          have hdb : dirbit w p.bits common = true :=
            branchDir_right_dirbit (by omega) hbd
          cases orr with
          | none =>
            refine ⟨?_, commonBits_le_right, agree_commonBits hpb hqb⟩
            rw [WFT_node]
            refine ⟨hnb, hqb, hqw, hqc, hol, ⟨⟨?_, ?_, ?_⟩, hwt1⟩⟩
            · exact (by omega : q.length < p.length)
            · exact hagqp
            · exact (by rw [← hc2]; exact hdb : dirbit w p.bits q.length = true)
          | some child =>
            obtain ⟨⟨hel, hea, hed⟩, hwc⟩ := hor
            have hagcp : agree w (q.length + 1) child.pfx.bits p.bits := by
              refine agree_succ_of_dirbit (by omega)
                (agree_trans (agree_symm hea) hagqp) ?_
              rw [hed, ← hc2]
              exact hdb.symm
            obtain ⟨hwr, hler, hagr⟩ :=
              ih child (.node p (GlueMap.and m (GlueMap.not w n)) l r) hwc hwt1
            have hler2 : commonBits w child.pfx p ≤
                (addT w fuel child (Tree.node p (GlueMap.and m (GlueMap.not w n)) l r)).pfx.length := hler
            have hagr2 : agree w (commonBits w child.pfx p) child.pfx.bits
                (addT w fuel child (Tree.node p (GlueMap.and m (GlueMap.not w n)) l r)).pfx.bits := hagr
            have hkc : q.length + 1 ≤ commonBits w child.pfx p :=
              commonBits_ge hwc.bits_lt hpb (by omega) (by omega) (by omega) hagcp
            refine ⟨?_, commonBits_le_right, agree_commonBits hpb hqb⟩
            rw [WFT_node]
            refine ⟨hnb, hqb, hqw, hqc, hol, ⟨⟨?_, ?_, ?_⟩, hwr⟩⟩
            · omega
            · exact agree_trans hea (agree_mono (by omega) hagr2)
            · rw [← hed]
              exact (dirbit_eq_of_agree_succ (by omega) (agree_mono hkc hagr2)).symm
      | divergent common =>
        obtain ⟨hcc, hc1, hc2⟩ := compareWith_divergent hcmp
        have hcw : common ≤ w := by omega
        have hnf := newFrom_eq (w := w) p hcw
        obtain ⟨hglen, hgb, hgc, hga⟩ := newFrom_props hcw hpb _ hnf
        have hagpq : agree w common p.bits q.bits := by
          rw [hcc]
          exact agree_commonBits hpb hqb
        have hdne := divergent_dirbit_ne hpb hqb hpw hcmp
        dsimp only
        rw [hnf]
        dsimp only
        cases hbd : branchDir w p.bits common <;> dsimp only
        · -- t goes Left, o goes Right
          have hdb : dirbit w p.bits common = false :=
            branchDir_left_dirbit (by omega) hbd
          have hdbq : dirbit w q.bits common = true := by
            cases hq : dirbit w q.bits common
            · exact absurd (hdb.trans hq.symm) hdne
            · rfl
          refine ⟨?_, le_of_eq hcc.symm, ?_⟩
          · rw [WFT_node]
            refine ⟨GlueMap.bnd_zero, hgb, hglen.trans_le hcw, hgc, ?_, ?_⟩
            · refine ⟨⟨lt_of_eq_of_lt hglen (by omega : common < p.length),
                agree_symm hga, hdb⟩, ?_⟩
              exact WFT_node.mpr ⟨hmb, hpb, hpw, hpc, hl, hr⟩
            · refine ⟨⟨lt_of_eq_of_lt hglen (by omega : common < q.length),
                agree_trans (agree_symm hga) hagpq, hdbq⟩, ?_⟩
              exact WFT_node.mpr ⟨hnb, hqb, hqw, hqc, hol, hor⟩
          · rw [← hcc]
            exact hga
        · -- t goes Right, o goes Left
          have hdb : dirbit w p.bits common = true :=
            branchDir_right_dirbit (by omega) hbd
          have hdbq : dirbit w q.bits common = false := by
            cases hq : dirbit w q.bits common
            · rfl
            · exact absurd (hdb.trans hq.symm) hdne
          refine ⟨?_, le_of_eq hcc.symm, ?_⟩
          · rw [WFT_node]
            refine ⟨GlueMap.bnd_zero, hgb, hglen.trans_le hcw, hgc, ?_, ?_⟩
            · refine ⟨⟨lt_of_eq_of_lt hglen (by omega : common < q.length),
                agree_trans (agree_symm hga) hagpq, hdbq⟩, ?_⟩
              exact WFT_node.mpr ⟨hnb, hqb, hqw, hqc, hol, hor⟩
            · refine ⟨⟨lt_of_eq_of_lt hglen (by omega : common < p.length),
                agree_symm hga, hdb⟩, ?_⟩
              exact WFT_node.mpr ⟨hmb, hpb, hpw, hpc, hl, hr⟩
          · rw [← hcc]
            exact hga

end PrefixSetRs

namespace PrefixSetRs

/-! ## The aggregation pipeline: structure-preserving facts -/

/-- Structural induction over the nested `Tree` inductive. -/
theorem tree_ind {P : Tree → Prop}
    (h : ∀ p m l r, (∀ c, l = some c → P c) → (∀ c, r = some c → P c) →
      P (.node p m l r)) : ∀ t, P t
  | .node p m none none =>
    h p m none none (fun c hc => by cases hc) (fun c hc => by cases hc)
  | .node p m (some a) none =>
    h p m (some a) none
      (fun c hc => by injection hc with h'; exact h' ▸ tree_ind h a)
      (fun c hc => by cases hc)
  | .node p m none (some b) =>
    h p m none (some b) (fun c hc => by cases hc)
      (fun c hc => by injection hc with h'; exact h' ▸ tree_ind h b)
  | .node p m (some a) (some b) =>
    h p m (some a) (some b)
      (fun c hc => by injection hc with h'; exact h' ▸ tree_ind h a)
      (fun c hc => by injection hc with h'; exact h' ▸ tree_ind h b)

theorem setMap_self (t : Tree) : t.setMap t.map = t := by
  obtain ⟨p, m, l, r⟩ := t
  rfl

/-- `deduplicate` keeps every node's base prefix; in particular the root. -/
theorem deduplicateT_pfx (w : Nat) (t : Tree) (mask : GlueMap) :
    (deduplicateT w t mask).pfx = t.pfx := by
  obtain ⟨p, m, l, r⟩ := t
  cases l <;> cases r <;> rfl

/-- `aggregate` keeps every node's base prefix; in particular the root. -/
theorem aggregateT_pfx (w : Nat) (t : Tree) : (aggregateT w t).pfx = t.pfx := by
  obtain ⟨p, m, l, r⟩ := t
  unfold aggregateT
  dsimp only
  cases l with
  | none =>
    cases r with
    | none => rfl
    | some rc => rfl
  | some lc =>
    cases r with
    | none => rfl
    | some rc =>
      dsimp only
      split
      · rfl
      · rfl

end PrefixSetRs

namespace PrefixSetRs.GlueMap

theorem floor_and_right {w ℓ : Nat} {a b : GlueMap} (hb : Floor w ℓ b) :
    Floor w ℓ (and a b) := by
  intro i hi
  rw [test_and, Bool.and_eq_true] at hi
  exact hb i hi.2

end PrefixSetRs.GlueMap

namespace PrefixSetRs

/-- Unfolding equation for `deduplicate` at a node with `Option.map`ped
children. -/
theorem deduplicateT_eq (w : Nat) (p : Pfx) (m : GlueMap) (l r : Option Tree)
    (mask : GlueMap) :
    deduplicateT w (.node p m l r) mask =
      .node p (GlueMap.and m (GlueMap.not w mask))
        (l.map (fun c => deduplicateT w c
          (GlueMap.or mask (GlueMap.and m (GlueMap.not w mask)))))
        (r.map (fun c => deduplicateT w c
          (GlueMap.or mask (GlueMap.and m (GlueMap.not w mask))))) := by
  cases l <;> cases r <;> rfl

theorem setMap_pfx (t : Tree) (m' : GlueMap) : (t.setMap m').pfx = t.pfx := by
  obtain ⟨p, m, l, r⟩ := t
  rfl

theorem setMap_map (t : Tree) (m' : GlueMap) : (t.setMap m').map = m' := by
  obtain ⟨p, m, l, r⟩ := t
  rfl

/-- An edge only looks at the child's root prefix. -/
theorem edge_of_pfx_eq {w : Nat} {p : Pfx} {d : Bool} {c c' : Tree}
    (h : c'.pfx = c.pfx) (he : edge w p d c) : edge w p d c' := by
  unfold edge at *
  rw [h]
  exact he

/-- The floor invariant survives a map replacement with a floored map. -/
theorem FloorT_setMap {w : Nat} {t : Tree} {m' : GlueMap} (h : FloorT w t)
    (hm : GlueMap.Floor w t.pfx.length m') : FloorT w (t.setMap m') := by
  obtain ⟨p, m, l, r⟩ := t
  rw [Tree.setMap, FloorT_node] at *
  exact ⟨hm, h.2.1, h.2.2⟩

/-- The root's own floor fact, extracted from `FloorT`. -/
theorem FloorT_root_floor {w : Nat} {t : Tree} (h : FloorT w t) :
    GlueMap.Floor w t.pfx.length t.map := by
  obtain ⟨p, m, l, r⟩ := t
  exact (FloorT_node.mp h).1

/-- `deduplicate` preserves well-formedness (it only intersects glue maps
and keeps the tree structure). -/
theorem deduplicateT_wf (w : Nat) :
    ∀ t, ∀ mask, WFT w t → WFT w (deduplicateT w t mask) := by
  refine tree_ind ?_
  intro p m l r ihl ihr mask hw
  rw [WFT_node] at hw
  obtain ⟨hmb, hpb, hpw, hpc, hl, hr⟩ := hw
  rw [deduplicateT_eq, WFT_node]
  refine ⟨GlueMap.bnd_and_left hmb, hpb, hpw, hpc, ?_, ?_⟩
  · cases l with
    | none => trivial
    | some c =>
      exact ⟨edge_of_pfx_eq (deduplicateT_pfx w c _) hl.1, ihl c rfl _ hl.2⟩
  · cases r with
    | none => trivial
    | some c =>
      exact ⟨edge_of_pfx_eq (deduplicateT_pfx w c _) hr.1, ihr c rfl _ hr.2⟩

/-- `deduplicate` preserves the glue-map floor invariant. -/
theorem deduplicateT_floor (w : Nat) :
    ∀ t, ∀ mask, FloorT w t → FloorT w (deduplicateT w t mask) := by
  refine tree_ind ?_
  intro p m l r ihl ihr mask hf
  rw [FloorT_node] at hf
  obtain ⟨hm, hl, hr⟩ := hf
  rw [deduplicateT_eq, FloorT_node]
  refine ⟨GlueMap.floor_and_left hm, ?_, ?_⟩
  · cases l with
    | none => trivial
    | some c => exact ihl c rfl _ hl
  · cases r with
    | none => trivial
    | some c => exact ihr c rfl _ hr

/-- `aggregate` preserves well-formedness: the pulled-up bits sit in a
bounded map and no prefix moves. -/
theorem aggregateT_wf (w : Nat) : ∀ t, WFT w t → WFT w (aggregateT w t) := by
  refine tree_ind ?_
  intro p m l r ihl ihr hw
  rw [WFT_node] at hw
  obtain ⟨hmb, hpb, hpw, hpc, hl, hr⟩ := hw
  unfold aggregateT
  dsimp only
  cases l with
  | none =>
    cases r with
    | none =>
      rw [WFT_node]
      exact ⟨hmb, hpb, hpw, hpc, trivial, trivial⟩
    | some rc =>
      dsimp only
      rw [WFT_node]
      exact ⟨hmb, hpb, hpw, hpc, trivial,
        ⟨edge_of_pfx_eq (aggregateT_pfx w rc) hr.1, ihr rc rfl hr.2⟩⟩
  | some lc =>
    cases r with
    | none =>
      dsimp only
      rw [WFT_node]
      exact ⟨hmb, hpb, hpw, hpc,
        ⟨edge_of_pfx_eq (aggregateT_pfx w lc) hl.1, ihl lc rfl hl.2⟩, trivial⟩
    | some rc =>
      dsimp only
      have hwl : WFT w (aggregateT w lc) := ihl lc rfl hl.2
      have hwr : WFT w (aggregateT w rc) := ihr rc rfl hr.2
      have hel : edge w p false (aggregateT w lc) :=
        edge_of_pfx_eq (aggregateT_pfx w lc) hl.1
      have her : edge w p true (aggregateT w rc) :=
        edge_of_pfx_eq (aggregateT_pfx w rc) hr.1
      split
      · rw [WFT_node]
        refine ⟨GlueMap.bnd_or hmb (GlueMap.bnd_and_left hwl.bnd), hpb, hpw, hpc, ?_, ?_⟩
        · exact ⟨edge_of_pfx_eq (setMap_pfx _ _) hel,
            hwl.setMap (GlueMap.bnd_and_left hwl.bnd)⟩
        · exact ⟨edge_of_pfx_eq (setMap_pfx _ _) her,
            hwr.setMap (GlueMap.bnd_and_left hwr.bnd)⟩
      · rw [WFT_node]
        exact ⟨hmb, hpb, hpw, hpc, ⟨hel, hwl⟩, ⟨her, hwr⟩⟩

/-- `aggregate` preserves the glue-map floor invariant: bits pulled up come
from children one level below the receiving node. -/
theorem aggregateT_floor (w : Nat) : ∀ t, FloorT w t → FloorT w (aggregateT w t) := by
  refine tree_ind ?_
  intro p m l r ihl ihr hf
  rw [FloorT_node] at hf
  obtain ⟨hm, hl, hr⟩ := hf
  unfold aggregateT
  dsimp only
  cases l with
  | none =>
    cases r with
    | none =>
      rw [FloorT_node]
      exact ⟨hm, trivial, trivial⟩
    | some rc =>
      dsimp only
      rw [FloorT_node]
      exact ⟨hm, trivial, ihr rc rfl hr⟩
  | some lc =>
    cases r with
    | none =>
      dsimp only
      rw [FloorT_node]
      exact ⟨hm, ihl lc rfl hl, trivial⟩
    | some rc =>
      dsimp only
      have hfl : FloorT w (aggregateT w lc) := ihl lc rfl hl
      have hfr : FloorT w (aggregateT w rc) := ihr rc rfl hr
      have hfl' : GlueMap.Floor w (aggregateT w lc).pfx.length (aggregateT w lc).map :=
        FloorT_root_floor hfl
      have hfr' : GlueMap.Floor w (aggregateT w rc).pfx.length (aggregateT w rc).map :=
        FloorT_root_floor hfr
      split
      · next hcond =>
        rw [FloorT_node]
        refine ⟨GlueMap.floor_or hm ?_, ?_, ?_⟩
        · have h1 : GlueMap.Floor w (p.length + 1)
              (GlueMap.and (aggregateT w lc).map (aggregateT w rc).map) :=
            GlueMap.floor_and_left (hcond.1 ▸ hfl')
          exact GlueMap.floor_mono (by omega) h1
        · exact FloorT_setMap hfl (GlueMap.floor_and_left hfl')
        · exact FloorT_setMap hfr (GlueMap.floor_and_left hfr')
      · rw [FloorT_node]
        exact ⟨hm, hfl, hfr⟩

end PrefixSetRs

namespace PrefixSetRs

/-- Rebuilding an edge across `compress`: the compressed child either kept
its root (same edge) or promoted a strict descendant, whose prefix still
extends the original child's. -/
theorem edge_compress {w : Nat} {p : Pfx} {d : Bool} {c c' : Tree}
    (he : edge w p d c) (hwc : WFT w c)
    (hlen : c.pfx.length ≤ c'.pfx.length)
    (hagr : agree w c.pfx.length c.pfx.bits c'.pfx.bits)
    (heq : c'.pfx.length = c.pfx.length → c'.pfx = c.pfx ∧ c'.map = c.map) :
    edge w p d c' := by
  obtain ⟨h1, h2, h3⟩ := he
  by_cases hlen2 : c'.pfx.length = c.pfx.length
  · obtain ⟨hpfx, -⟩ := heq hlen2
    unfold edge
    rw [hpfx]
    exact ⟨h1, h2, h3⟩
  · have hcw : c.pfx.length ≤ w := hwc.len_le
    refine ⟨by omega, agree_trans h2 (agree_mono (by omega) hagr), ?_⟩
    have hd : dirbit w c.pfx.bits p.length = dirbit w c'.pfx.bits p.length :=
      dirbit_eq_of_agree_succ (by omega) (agree_mono (by omega) hagr)
    rw [← hd]
    exact h3

/-- The master lemma for `Node::compress`: a compressed well-formed tree is
well-formed, its root prefix only ever gets longer while staying inside the
original root's range, and a root kept at the same length is the original
root (same prefix, same glue map). -/
theorem compressT_wf (w : Nat) : ∀ t, WFT w t → ∀ u, compressT t = some u →
    WFT w u ∧ t.pfx.length ≤ u.pfx.length ∧
    agree w t.pfx.length t.pfx.bits u.pfx.bits ∧
    (u.pfx.length = t.pfx.length → u.pfx = t.pfx ∧ u.map = t.map) := by
  refine tree_ind ?_
  intro p m l r ihl ihr hw u hu
  rw [WFT_node] at hw
  obtain ⟨hmb, hpb, hpw, hpc, hl, hr⟩ := hw
  unfold compressT at hu
  dsimp only at hu
  cases l with
  | none =>
    cases r with
    | none =>
      dsimp only at hu
      split at hu
      · cases hu
      · injection hu with hu
        subst hu
        refine ⟨?_, le_refl _, agree_refl, fun _ => ⟨rfl, rfl⟩⟩
        rw [WFT_node]
        exact ⟨hmb, hpb, hpw, hpc, trivial, trivial⟩
    | some rc =>
      dsimp only at hu
      split at hu
      · -- empty glue, only a right child: promote its compression
        cases hrc : compressT rc with
        | none =>
          rw [hrc] at hu
          cases hu
        | some c' =>
          rw [hrc] at hu
          dsimp only at hu
          injection hu with hu
          subst hu
          obtain ⟨hwc, hlen, hagr, -⟩ := ihr rc rfl hr.2 c' hrc
          obtain ⟨he1, he2, -⟩ := hr.1
          refine ⟨hwc, ?_, ?_, ?_⟩
          · show p.length ≤ c'.pfx.length
            omega
          · show agree w p.length p.bits c'.pfx.bits
            exact agree_trans he2 (agree_mono (by omega) hagr)
          · intro h
            exact absurd (show c'.pfx.length = p.length from h) (by omega)
      · injection hu with hu
        subst hu
        refine ⟨?_, le_refl _, agree_refl, fun _ => ⟨rfl, rfl⟩⟩
        rw [WFT_node]
        refine ⟨hmb, hpb, hpw, hpc, trivial, ?_⟩
        cases hrc : compressT rc with
        | none => trivial
        | some c' =>
          obtain ⟨hwc, hlen, hagr, heq⟩ := ihr rc rfl hr.2 c' hrc
          exact ⟨edge_compress hr.1 hr.2 hlen hagr heq, hwc⟩
  | some lc =>
    cases r with
    | none =>
      dsimp only at hu
      split at hu
      · cases hlc : compressT lc with
        | none =>
          rw [hlc] at hu
          cases hu
        | some c' =>
          rw [hlc] at hu
          dsimp only at hu
          injection hu with hu
          subst hu
          obtain ⟨hwc, hlen, hagr, -⟩ := ihl lc rfl hl.2 c' hlc
          obtain ⟨he1, he2, -⟩ := hl.1
          refine ⟨hwc, ?_, ?_, ?_⟩
          · show p.length ≤ c'.pfx.length
            omega
          · show agree w p.length p.bits c'.pfx.bits
            exact agree_trans he2 (agree_mono (by omega) hagr)
          · intro h
            exact absurd (show c'.pfx.length = p.length from h) (by omega)
      · injection hu with hu
        subst hu
        refine ⟨?_, le_refl _, agree_refl, fun _ => ⟨rfl, rfl⟩⟩
        rw [WFT_node]
        refine ⟨hmb, hpb, hpw, hpc, ?_, trivial⟩
        cases hlc : compressT lc with
        | none => trivial
        | some c' =>
          obtain ⟨hwc, hlen, hagr, heq⟩ := ihl lc rfl hl.2 c' hlc
          exact ⟨edge_compress hl.1 hl.2 hlen hagr heq, hwc⟩
    | some rc =>
      dsimp only at hu
      split at hu
      · cases hlc : compressT lc with
        | none =>
          cases hrc : compressT rc with
          | none =>
            rw [hlc, hrc] at hu
            cases hu
          | some c' =>
            rw [hlc, hrc] at hu
            dsimp only at hu
            injection hu with hu
            subst hu
            obtain ⟨hwc, hlen, hagr, -⟩ := ihr rc rfl hr.2 c' hrc
            obtain ⟨he1, he2, -⟩ := hr.1
            refine ⟨hwc, ?_, ?_, ?_⟩
            · show p.length ≤ c'.pfx.length
              omega
            · show agree w p.length p.bits c'.pfx.bits
              exact agree_trans he2 (agree_mono (by omega) hagr)
            · intro h
              exact absurd (show c'.pfx.length = p.length from h) (by omega)
        | some cl' =>
          cases hrc : compressT rc with
          | none =>
            rw [hlc, hrc] at hu
            dsimp only at hu
            injection hu with hu
            subst hu
            obtain ⟨hwc, hlen, hagr, -⟩ := ihl lc rfl hl.2 cl' hlc
            obtain ⟨he1, he2, -⟩ := hl.1
            refine ⟨hwc, ?_, ?_, ?_⟩
            · show p.length ≤ cl'.pfx.length
              omega
            · show agree w p.length p.bits cl'.pfx.bits
              exact agree_trans he2 (agree_mono (by omega) hagr)
            · intro h
              exact absurd (show cl'.pfx.length = p.length from h) (by omega)
          | some cr' =>
            rw [hlc, hrc] at hu
            dsimp only at hu
            injection hu with hu
            subst hu
            obtain ⟨hwcl, hlenl, hagrl, heql⟩ := ihl lc rfl hl.2 cl' hlc
            obtain ⟨hwcr, hlenr, hagrr, heqr⟩ := ihr rc rfl hr.2 cr' hrc
            refine ⟨?_, le_refl _, agree_refl, fun _ => ⟨rfl, rfl⟩⟩
            rw [WFT_node]
            exact ⟨hmb, hpb, hpw, hpc,
              ⟨edge_compress hl.1 hl.2 hlenl hagrl heql, hwcl⟩,
              ⟨edge_compress hr.1 hr.2 hlenr hagrr heqr, hwcr⟩⟩
      · injection hu with hu
        subst hu
        refine ⟨?_, le_refl _, agree_refl, fun _ => ⟨rfl, rfl⟩⟩
        rw [WFT_node]
        refine ⟨hmb, hpb, hpw, hpc, ?_, ?_⟩
        · cases hlc : compressT lc with
          | none => trivial
          | some c' =>
            obtain ⟨hwc, hlen, hagr, heq⟩ := ihl lc rfl hl.2 c' hlc
            exact ⟨edge_compress hl.1 hl.2 hlen hagr heq, hwc⟩
        · cases hrc : compressT rc with
          | none => trivial
          | some c' =>
            obtain ⟨hwc, hlen, hagr, heq⟩ := ihr rc rfl hr.2 c' hrc
            exact ⟨edge_compress hr.1 hr.2 hlen hagr heq, hwc⟩

/-- `compress` preserves the glue-map floor invariant (maps are never
changed, nodes only dropped or bypassed). -/
theorem compressT_floor (w : Nat) : ∀ t, FloorT w t → ∀ u, compressT t = some u →
    FloorT w u := by
  refine tree_ind ?_
  intro p m l r ihl ihr hf u hu
  rw [FloorT_node] at hf
  obtain ⟨hm, hfl, hfr⟩ := hf
  unfold compressT at hu
  dsimp only at hu
  cases l with
  | none =>
    cases r with
    | none =>
      dsimp only at hu
      split at hu
      · cases hu
      · injection hu with hu
        subst hu
        rw [FloorT_node]
        exact ⟨hm, trivial, trivial⟩
    | some rc =>
      dsimp only at hu
      split at hu
      · cases hrc : compressT rc with
        | none =>
          rw [hrc] at hu
          cases hu
        | some c' =>
          rw [hrc] at hu
          dsimp only at hu
          injection hu with hu
          subst hu
          exact ihr rc rfl hfr c' hrc
      · injection hu with hu
        subst hu
        rw [FloorT_node]
        refine ⟨hm, trivial, ?_⟩
        cases hrc : compressT rc with
        | none => trivial
        | some c' => exact ihr rc rfl hfr c' hrc
  | some lc =>
    cases r with
    | none =>
      dsimp only at hu
      split at hu
      · cases hlc : compressT lc with
        | none =>
          rw [hlc] at hu
          cases hu
        | some c' =>
          rw [hlc] at hu
          dsimp only at hu
          injection hu with hu
          subst hu
          exact ihl lc rfl hfl c' hlc
      · injection hu with hu
        subst hu
        rw [FloorT_node]
        refine ⟨hm, ?_, trivial⟩
        cases hlc : compressT lc with
        | none => trivial
        | some c' => exact ihl lc rfl hfl c' hlc
    | some rc =>
      dsimp only at hu
      split at hu
      · cases hlc : compressT lc with
        | none =>
          cases hrc : compressT rc with
          | none =>
            rw [hlc, hrc] at hu
            cases hu
          | some c' =>
            rw [hlc, hrc] at hu
            dsimp only at hu
            injection hu with hu
            subst hu
            exact ihr rc rfl hfr c' hrc
        | some cl' =>
          cases hrc : compressT rc with
          | none =>
            rw [hlc, hrc] at hu
            dsimp only at hu
            injection hu with hu
            subst hu
            exact ihl lc rfl hfl cl' hlc
          | some cr' =>
            rw [hlc, hrc] at hu
            dsimp only at hu
            injection hu with hu
            subst hu
            rw [FloorT_node]
            exact ⟨hm, ihl lc rfl hfl cl' hlc, ihr rc rfl hfr cr' hrc⟩
      · injection hu with hu
        subst hu
        rw [FloorT_node]
        refine ⟨hm, ?_, ?_⟩
        · cases hlc : compressT lc with
          | none => trivial
          | some c' => exact ihl lc rfl hfl c' hlc
        · cases hrc : compressT rc with
          | none => trivial
          | some c' => exact ihr rc rfl hfr c' hrc

end PrefixSetRs

namespace PrefixSetRs

/-- Forward direction of the comparison classification: a strictly longer
other prefix agreeing up to `self`'s full length lands in the `ChildOf`
arm. -/
theorem compareWith_childOf_intro {w : Nat} {p q : Pfx}
    (h1 : commonBits w p q = p.length) (h2 : p.length < q.length) :
    compareWith w p q = some (.childOf (commonBits w p q)) := by
  unfold compareWith
  rw [if_neg (by omega), if_pos ⟨h1, by omega⟩]

/-- `Node::add` keeps the root's base prefix whenever the incoming node is
at or below the root (the `Equal` and `ChildOf` arms): its recursive merges
graft strictly longer prefixes into child slots. -/
theorem addT_root_pfx (w : Nat) : ∀ fuel t o, WFT w t → WFT w o →
    commonBits w t.pfx o.pfx = t.pfx.length → (addT w fuel t o).pfx = t.pfx := by
  intro fuel
  induction fuel with
  | zero => exact fun t o _ _ _ => rfl
  | succ fuel ih =>
    intro t o ht ho hcb
    have hpw : t.pfx.length ≤ w := ht.len_le
    have hqw : o.pfx.length ≤ w := ho.len_le
    have hpb : t.pfx.bits < 2 ^ w := ht.bits_lt
    have hqb : o.pfx.bits < 2 ^ w := ho.bits_lt
    obtain ⟨p, m, l, r⟩ := t
    obtain ⟨q, n, ol, orr⟩ := o
    simp only [Tree.pfx] at hpw hqw hpb hqb hcb ⊢
    rw [WFT_node] at ht ho
    obtain ⟨hmb, -, -, hpc, hl, hr⟩ := ht
    obtain ⟨hnb, -, -, hqc, hol, hor⟩ := ho
    unfold addT
    simp only [Tree.pfx, Tree.left, Tree.right, Tree.setMap, Tree.map]
    cases hcmp : compareWith w p q with
    | none => rfl
    | some cmp =>
      cases cmp with
      | equal =>
        obtain ⟨hc1, hc2⟩ := compareWith_equal hcmp
        have hagpq : agree w p.length p.bits q.bits := hc1 ▸ agree_commonBits hpb hqb
        have hw1 : WFT w (.node p (GlueMap.or m n) l r) := by
          rw [WFT_node]
          exact ⟨GlueMap.bnd_or hmb hnb, hpb, hpw, hpc, hl, hr⟩
        have step : ∀ t' c : Tree, WFT w t' → t'.pfx = p →
            WFT w c → p.length < c.pfx.length → agree w p.length p.bits c.pfx.bits →
            (addT w fuel t' c).pfx = p ∧ WFT w (addT w fuel t' c) := by
          intro t' c hwt hpt hwc hlenc hagc
          have hcb' : commonBits w t'.pfx c.pfx = t'.pfx.length := by
            rw [hpt]
            refine le_antisymm commonBits_le_left ?_
            exact commonBits_ge hpb hwc.bits_lt (le_refl _) (by omega) (by omega) hagc
          refine ⟨by rw [ih t' c hwt hwc hcb', hpt], (addT_wf w fuel t' c hwt hwc).1⟩
        have hagc : ∀ c : Tree, (edge w q true c ∧ WFT w c) ∨ (edge w q false c ∧ WFT w c) →
            WFT w c ∧ p.length < c.pfx.length ∧ agree w p.length p.bits c.pfx.bits := by
          intro c hc
          have he : q.length < c.pfx.length ∧ agree w q.length q.bits c.pfx.bits ∧ WFT w c := by
            cases hc with
            | inl h => exact ⟨h.1.1, h.1.2.1, h.2⟩
            | inr h => exact ⟨h.1.1, h.1.2.1, h.2⟩
          refine ⟨he.2.2, by omega, ?_⟩
          have hql : q.length = p.length := by omega
          exact agree_trans hagpq (by rw [← hql]; exact he.2.1)
        dsimp only
        cases ol with
        | none =>
          cases orr with
          | none => rfl
          | some c2 =>
            obtain ⟨hwc2, hlen2, hag2⟩ := hagc c2 (Or.inl hor)
            exact (step _ c2 hw1 rfl hwc2 hlen2 hag2).1
        | some c1 =>
          obtain ⟨hwc1, hlen1, hag1⟩ := hagc c1 (Or.inr hol)
          obtain ⟨hp1, hw2⟩ := step _ c1 hw1 rfl hwc1 hlen1 hag1
          cases orr with
          | none => exact hp1
          | some c2 =>
            obtain ⟨hwc2, hlen2, hag2⟩ := hagc c2 (Or.inl hor)
            exact (step _ c2 hw2 hp1 hwc2 hlen2 hag2).1
      | childOf common =>
        dsimp only
        cases branchDir w q.bits common <;> dsimp only
        · cases l with
          | none => rfl
          | some child => rfl
        · cases r with
          | none => rfl
          | some child => rfl
      | parentOf common =>
        obtain ⟨hcc, hc1, hc2⟩ := compareWith_parentOf hcmp
        exact absurd hcb (by omega)
      | divergent common =>
        obtain ⟨hcc, hc1, hc2⟩ := compareWith_divergent hcmp
        exact absurd hcb (by omega)

end PrefixSetRs

namespace PrefixSetRs

/-- The deaggregation fold of `Node::remove`'s `ChildOf` arm: adding a
sequence of canonical sub-prefix nodes carrying one fixed glue map into a
tree rooted at their common ancestor preserves well-formedness, the floor
invariant, and the root prefix. -/
theorem foldl_deagg (w : Nat) (dm : GlueMap) (hdm : GlueMap.Bnd w dm)
    (L : Nat) (hLw : L ≤ w) (hdf : GlueMap.Floor w L dm) (base : Pfx)
    (hbb : base.bits < 2 ^ w) (hblw : base.length ≤ w) (hbl : base.length < L) :
    ∀ ps : List Pfx,
      (∀ q ∈ ps, q.length = L ∧ q.bits < 2 ^ w ∧ canonical w q ∧
        agree w base.length base.bits q.bits) →
      ∀ acc : Tree, WFT w acc → FloorT w acc → acc.pfx = base →
      WFT w (ps.foldl (fun acc q => addFull w acc (.node q dm none none)) acc) ∧
      FloorT w (ps.foldl (fun acc q => addFull w acc (.node q dm none none)) acc) ∧
      (ps.foldl (fun acc q => addFull w acc (.node q dm none none)) acc).pfx = base := by
  intro ps
  induction ps with
  | nil => exact fun _ acc hw hf hp => ⟨hw, hf, hp⟩
  | cons q ps ihp =>
    intro hmem acc hw hf hp
    obtain ⟨hqL, hqb, hqcan, hqag⟩ := hmem q (List.mem_cons_self q ps)
    simp only [List.foldl_cons]
    have hwn : WFT w (.node q dm none none) := by
      rw [WFT_node]
      exact ⟨hdm, hqb, by omega, hqcan, trivial, trivial⟩
    have hfn : FloorT w (.node q dm none none) := by
      rw [FloorT_node]
      refine ⟨?_, trivial, trivial⟩
      show GlueMap.Floor w q.length dm
      rw [hqL]
      exact hdf
    have hcb : commonBits w acc.pfx (Tree.node q dm none none).pfx = acc.pfx.length := by
      show commonBits w acc.pfx q = acc.pfx.length
      rw [hp]
      refine le_antisymm commonBits_le_left
        (commonBits_ge hbb hqb (le_refl _) (by omega) hblw hqag)
    refine ihp (fun q' hq' => hmem q' (List.mem_cons_of_mem _ hq')) _
      (addT_wf w _ acc _ hw hwn).1 (addT_floor w _ acc _ hf hfn) ?_
    unfold addFull
    rw [addT_root_pfx w _ acc _ hw hwn hcb, hp]

end PrefixSetRs

namespace PrefixSetRs

/-- The master lemma for the node-local part of `Node::remove`: removing a
bounded, floored (prefix, glue map) payload from a well-formed floored tree
keeps it well-formed and floored, and never moves the root prefix — the
`Equal` / `ParentOf` arms only clear glue bits, and the `ChildOf` arm's
deaggregation grafts strictly longer sub-prefixes below the root. -/
theorem removeHere_wf_floor (w : Nat) (opfx : Pfx) (omap : GlueMap)
    (hob : opfx.bits < 2 ^ w) (how : opfx.length ≤ w)
    (hof : GlueMap.Floor w opfx.length omap) :
    ∀ fuel t, WFT w t → FloorT w t →
      WFT w (removeHere w fuel t opfx omap) ∧
      FloorT w (removeHere w fuel t opfx omap) ∧
      (removeHere w fuel t opfx omap).pfx = t.pfx := by
  intro fuel
  induction fuel with
  | zero => exact fun t hw hf => ⟨hw, hf, rfl⟩
  | succ fuel ih =>
    intro t hw hf
    have hpw : t.pfx.length ≤ w := hw.len_le
    have hpb : t.pfx.bits < 2 ^ w := hw.bits_lt
    have hpcan : canonical w t.pfx := hw.canon
    obtain ⟨p, m, l, r⟩ := t
    simp only [Tree.pfx] at hpw hpb hpcan
    rw [WFT_node] at hw
    rw [FloorT_node] at hf
    obtain ⟨hmb, -, -, -, hl, hr⟩ := hw
    obtain ⟨hfm, hfl, hfr⟩ := hf
    unfold removeHere
    simp only [Tree.pfx, Tree.map, Tree.setMap]
    cases hcmp : compareWith w p opfx with
    | none =>
      dsimp only
      refine ⟨?_, ?_, rfl⟩
      · rw [WFT_node]
        exact ⟨hmb, hpb, hpw, hpcan, hl, hr⟩
      · rw [FloorT_node]
        exact ⟨hfm, hfl, hfr⟩
    | some cmp =>
      cases cmp with
      | equal =>
        dsimp only
        refine ⟨?_, ?_, rfl⟩
        · rw [WFT_node]
          refine ⟨GlueMap.bnd_and_left hmb, hpb, hpw, hpcan, ?_, ?_⟩
          · cases l with
            | none => trivial
            | some c =>
              obtain ⟨hwc, hfc, hpc⟩ := ih c hl.2 hfl
              exact ⟨edge_of_pfx_eq hpc hl.1, hwc⟩
          · cases r with
            | none => trivial
            | some c =>
              obtain ⟨hwc, hfc, hpc⟩ := ih c hr.2 hfr
              exact ⟨edge_of_pfx_eq hpc hr.1, hwc⟩
        · rw [FloorT_node]
          refine ⟨GlueMap.floor_and_left hfm, ?_, ?_⟩
          · cases l with
            | none => trivial
            | some c => exact (ih c hl.2 hfl).2.1
          · cases r with
            | none => trivial
            | some c => exact (ih c hr.2 hfr).2.1
      | parentOf common =>
        dsimp only
        refine ⟨?_, ?_, rfl⟩
        · rw [WFT_node]
          refine ⟨GlueMap.bnd_and_left hmb, hpb, hpw, hpcan, ?_, ?_⟩
          · cases l with
            | none => trivial
            | some c =>
              obtain ⟨hwc, hfc, hpc⟩ := ih c hl.2 hfl
              exact ⟨edge_of_pfx_eq hpc hl.1, hwc⟩
          · cases r with
            | none => trivial
            | some c =>
              obtain ⟨hwc, hfc, hpc⟩ := ih c hr.2 hfr
              exact ⟨edge_of_pfx_eq hpc hr.1, hwc⟩
        · rw [FloorT_node]
          refine ⟨GlueMap.floor_and_left hfm, ?_, ?_⟩
          · cases l with
            | none => trivial
            | some c => exact (ih c hl.2 hfl).2.1
          · cases r with
            | none => trivial
            | some c => exact (ih c hr.2 hfr).2.1
      | divergent common =>
        dsimp only
        refine ⟨?_, ?_, rfl⟩
        · rw [WFT_node]
          exact ⟨hmb, hpb, hpw, hpcan, hl, hr⟩
        · rw [FloorT_node]
          exact ⟨hfm, hfl, hfr⟩
      | childOf common =>
        obtain ⟨hcc, hc1, hc2⟩ := compareWith_childOf hcmp
        dsimp only
        have hwt0 : WFT w (Tree.node p
            (GlueMap.and m (GlueMap.not w (GlueMap.and m omap))) l r) := by
          rw [WFT_node]
          exact ⟨GlueMap.bnd_and_left hmb, hpb, hpw, hpcan, hl, hr⟩
        have hft0 : FloorT w (Tree.node p
            (GlueMap.and m (GlueMap.not w (GlueMap.and m omap))) l r) := by
          rw [FloorT_node]
          exact ⟨GlueMap.floor_and_left hfm, hfl, hfr⟩
        have hT1 : ∀ t1 : Tree,
            (if (GlueMap.and m omap) ≠ GlueMap.zero then
              (subprefixes w p opfx.length).foldl
                (fun acc q => addFull w acc (.node q (GlueMap.and m omap) none none))
                (Tree.node p (GlueMap.and m (GlueMap.not w (GlueMap.and m omap))) l r)
            else Tree.node p m l r) = t1 →
            WFT w t1 ∧ FloorT w t1 ∧ t1.pfx = p := by
          intro t1 ht1
          split at ht1
          · subst ht1
            refine foldl_deagg w (GlueMap.and m omap) (GlueMap.bnd_and_left hmb)
              opfx.length how (GlueMap.floor_and_right hof) p hpb hpw (by omega)
              _ ?_ _ hwt0 hft0 rfl
            intro q hq
            obtain ⟨h1, h2, h3, h4, -, -⟩ := subprefixes_props hpcan hpb hpw hq
            exact ⟨h1, h2, h3, h4⟩
          · subst ht1
            refine ⟨?_, ?_, rfl⟩
            · rw [WFT_node]
              exact ⟨hmb, hpb, hpw, hpcan, hl, hr⟩
            · rw [FloorT_node]
              exact ⟨hfm, hfl, hfr⟩
        cases hbd : branchDir w opfx.bits common <;> dsimp only
        · split
          next p1 m1 l1 r1 hT =>
            obtain ⟨hw1, hf1, hp1⟩ := hT1 _ hT
            rw [WFT_node] at hw1
            rw [FloorT_node] at hf1
            obtain ⟨hmb1, hpb1, hpw1, hpc1, hl1, hr1⟩ := hw1
            obtain ⟨hfm1, hfl1, hfr1⟩ := hf1
            simp only [Tree.pfx] at hp1
            refine ⟨?_, ?_, hp1⟩
            · rw [WFT_node]
              refine ⟨hmb1, hpb1, hpw1, hpc1, ?_, hr1⟩
              cases l1 with
              | none => trivial
              | some c =>
                obtain ⟨hwc, hfc, hpc⟩ := ih c hl1.2 hfl1
                exact ⟨edge_of_pfx_eq hpc hl1.1, hwc⟩
            · rw [FloorT_node]
              refine ⟨hfm1, ?_, hfr1⟩
              cases l1 with
              | none => trivial
              | some c => exact (ih c hl1.2 hfl1).2.1
        · split
          next p1 m1 l1 r1 hT =>
            obtain ⟨hw1, hf1, hp1⟩ := hT1 _ hT
            rw [WFT_node] at hw1
            rw [FloorT_node] at hf1
            obtain ⟨hmb1, hpb1, hpw1, hpc1, hl1, hr1⟩ := hw1
            obtain ⟨hfm1, hfl1, hfr1⟩ := hf1
            simp only [Tree.pfx] at hp1
            refine ⟨?_, ?_, hp1⟩
            · rw [WFT_node]
              refine ⟨hmb1, hpb1, hpw1, hpc1, hl1, ?_⟩
              cases r1 with
              | none => trivial
              | some c =>
                obtain ⟨hwc, hfc, hpc⟩ := ih c hr1.2 hfr1
                exact ⟨edge_of_pfx_eq hpc hr1.1, hwc⟩
            · rw [FloorT_node]
              refine ⟨hfm1, hfl1, ?_⟩
              cases r1 with
              | none => trivial
              | some c => exact (ih c hr1.2 hfr1).2.1

end PrefixSetRs

namespace PrefixSetRs

/-- `Node::remove` preserves well-formedness, the floor invariant, and the
root prefix, for well-formed floored operands and every fuel value. -/
theorem removeT_wf_floor (w : Nat) : ∀ fuel t o, WFT w t → FloorT w t →
    WFT w o → FloorT w o →
    WFT w (removeT w fuel t o) ∧ FloorT w (removeT w fuel t o) ∧
    (removeT w fuel t o).pfx = t.pfx := by
  intro fuel
  induction fuel with
  | zero => exact fun t o hw hf _ _ => ⟨hw, hf, rfl⟩
  | succ fuel ih =>
    intro t o hw hf hwo hfo
    obtain ⟨q, n, ol, orr⟩ := o
    rw [WFT_node] at hwo
    rw [FloorT_node] at hfo
    obtain ⟨hnb, hqb, hqw, hqc, holw, horw⟩ := hwo
    obtain ⟨hnf, holf, horf⟩ := hfo
    unfold removeT
    simp only [Tree.left, Tree.right, Tree.pfx, Tree.map]
    cases ol with
    | none =>
      cases orr with
      | none =>
        exact removeHere_wf_floor w q n hqb hqw hnf (fuel + 1) t hw hf
      | some c2 =>
        obtain ⟨hw1, hf1, hp1⟩ := ih t c2 hw hf horw.2 horf
        obtain ⟨ha, hb, hc⟩ := removeHere_wf_floor w q n hqb hqw hnf (fuel + 1) _ hw1 hf1
        exact ⟨ha, hb, hc.trans hp1⟩
    | some c1 =>
      obtain ⟨hw1, hf1, hp1⟩ := ih t c1 hw hf holw.2 holf
      cases orr with
      | none =>
        obtain ⟨ha, hb, hc⟩ := removeHere_wf_floor w q n hqb hqw hnf (fuel + 1) _ hw1 hf1
        exact ⟨ha, hb, hc.trans hp1⟩
      | some c2 =>
        obtain ⟨hw2, hf2, hp2⟩ := ih _ c2 hw1 hf1 horw.2 horf
        obtain ⟨ha, hb, hc⟩ := removeHere_wf_floor w q n hqb hqw hnf (fuel + 1) _ hw2 hf2
        exact ⟨ha, hb, hc.trans (hp2.trans hp1)⟩

end PrefixSetRs

namespace PrefixSetRs

/-- `Node::intersect_nodes` yields a well-formed, floored tree from a
well-formed floored tree and a bounded canonical query payload: every
produced node carries an intersected (hence floored) glue map, and the
recursive results are merged with `add`. -/
theorem intersectT_wf_floor (w : Nat) (qp : Pfx) (qm : GlueMap)
    (hqb : qp.bits < 2 ^ w) (hqw : qp.length ≤ w) (hqc : canonical w qp)
    (hqf : GlueMap.Floor w qp.length qm) :
    ∀ t, WFT w t → FloorT w t → ∀ u, intersectT w t qp qm = some u →
      WFT w u ∧ FloorT w u := by
  refine tree_ind ?_
  intro p m l r ihl ihr hw hf u hu
  have hstep : ∀ a b : Tree, WFT w a → FloorT w a → WFT w b → FloorT w b →
      WFT w (addFull w a b) ∧ FloorT w (addFull w a b) :=
    fun a b hwa hfa hwb hfb =>
      ⟨(addT_wf w _ a b hwa hwb).1, addT_floor w _ a b hfa hfb⟩
  rw [WFT_node] at hw
  rw [FloorT_node] at hf
  obtain ⟨hmb, hpb, hpw, hpcan, hl, hr⟩ := hw
  obtain ⟨hfm, hfl, hfr⟩ := hf
  unfold intersectT at hu
  cases hcmp : compareWith w p qp with
  | none =>
    rw [hcmp] at hu
    cases hu
  | some cmp =>
    rw [hcmp] at hu
    cases cmp with
    | divergent common => cases hu
    | equal =>
      dsimp only at hu
      injection hu with hu
      subst hu
      have h0 : WFT w (Tree.node p (GlueMap.and m qm) none none) ∧
          FloorT w (Tree.node p (GlueMap.and m qm) none none) := by
        constructor
        · rw [WFT_node]
          exact ⟨GlueMap.bnd_and_left hmb, hpb, hpw, hpcan, trivial, trivial⟩
        · rw [FloorT_node]
          exact ⟨GlueMap.floor_and_left hfm, trivial, trivial⟩
      cases l with
      | none =>
        cases r with
        | none => exact h0
        | some rc =>
          dsimp only
          cases hric : intersectT w rc qp qm with
          | none => exact h0
          | some ic =>
            obtain ⟨hwi, hfi⟩ := ihr rc rfl hr.2 hfr ic hric
            exact hstep _ _ h0.1 h0.2 hwi hfi
      | some lc =>
        dsimp only
        cases hlic : intersectT w lc qp qm with
        | none =>
          cases r with
          | none => exact h0
          | some rc =>
            dsimp only
            cases hric : intersectT w rc qp qm with
            | none => exact h0
            | some ic =>
              obtain ⟨hwi, hfi⟩ := ihr rc rfl hr.2 hfr ic hric
              exact hstep _ _ h0.1 h0.2 hwi hfi
        | some ic1 =>
          obtain ⟨hwi1, hfi1⟩ := ihl lc rfl hl.2 hfl ic1 hlic
          have h1 := hstep _ _ h0.1 h0.2 hwi1 hfi1
          cases r with
          | none => exact h1
          | some rc =>
            dsimp only
            cases hric : intersectT w rc qp qm with
            | none => exact h1
            | some ic2 =>
              obtain ⟨hwi2, hfi2⟩ := ihr rc rfl hr.2 hfr ic2 hric
              exact hstep _ _ h1.1 h1.2 hwi2 hfi2
    | parentOf common =>
      dsimp only at hu
      injection hu with hu
      subst hu
      have h0 : WFT w (Tree.node p (GlueMap.and m qm) none none) ∧
          FloorT w (Tree.node p (GlueMap.and m qm) none none) := by
        constructor
        · rw [WFT_node]
          exact ⟨GlueMap.bnd_and_left hmb, hpb, hpw, hpcan, trivial, trivial⟩
        · rw [FloorT_node]
          exact ⟨GlueMap.floor_and_left hfm, trivial, trivial⟩
      cases l with
      | none =>
        cases r with
        | none => exact h0
        | some rc =>
          dsimp only
          cases hric : intersectT w rc qp qm with
          | none => exact h0
          | some ic =>
            obtain ⟨hwi, hfi⟩ := ihr rc rfl hr.2 hfr ic hric
            exact hstep _ _ h0.1 h0.2 hwi hfi
      | some lc =>
        dsimp only
        cases hlic : intersectT w lc qp qm with
        | none =>
          cases r with
          | none => exact h0
          | some rc =>
            dsimp only
            cases hric : intersectT w rc qp qm with
            | none => exact h0
            | some ic =>
              obtain ⟨hwi, hfi⟩ := ihr rc rfl hr.2 hfr ic hric
              exact hstep _ _ h0.1 h0.2 hwi hfi
        | some ic1 =>
          obtain ⟨hwi1, hfi1⟩ := ihl lc rfl hl.2 hfl ic1 hlic
          have h1 := hstep _ _ h0.1 h0.2 hwi1 hfi1
          cases r with
          | none => exact h1
          | some rc =>
            dsimp only
            cases hric : intersectT w rc qp qm with
            | none => exact h1
            | some ic2 =>
              obtain ⟨hwi2, hfi2⟩ := ihr rc rfl hr.2 hfr ic2 hric
              exact hstep _ _ h1.1 h1.2 hwi2 hfi2
    | childOf common =>
      dsimp only at hu
      injection hu with hu
      subst hu
      have h0 : WFT w (Tree.node qp (GlueMap.and m qm) none none) ∧
          FloorT w (Tree.node qp (GlueMap.and m qm) none none) := by
        constructor
        · rw [WFT_node]
          exact ⟨GlueMap.bnd_and_left hmb, hqb, hqw, hqc, trivial, trivial⟩
        · rw [FloorT_node]
          exact ⟨GlueMap.floor_and_right hqf, trivial, trivial⟩
      cases l with
      | none =>
        cases r with
        | none => exact h0
        | some rc =>
          dsimp only
          cases hric : intersectT w rc qp qm with
          | none => exact h0
          | some ic =>
            obtain ⟨hwi, hfi⟩ := ihr rc rfl hr.2 hfr ic hric
            exact hstep _ _ h0.1 h0.2 hwi hfi
      | some lc =>
        dsimp only
        cases hlic : intersectT w lc qp qm with
        | none =>
          cases r with
          | none => exact h0
          | some rc =>
            dsimp only
            cases hric : intersectT w rc qp qm with
            | none => exact h0
            | some ic =>
              obtain ⟨hwi, hfi⟩ := ihr rc rfl hr.2 hfr ic hric
              exact hstep _ _ h0.1 h0.2 hwi hfi
        | some ic1 =>
          obtain ⟨hwi1, hfi1⟩ := ihl lc rfl hl.2 hfl ic1 hlic
          have h1 := hstep _ _ h0.1 h0.2 hwi1 hfi1
          cases r with
          | none => exact h1
          | some rc =>
            dsimp only
            cases hric : intersectT w rc qp qm with
            | none => exact h1
            | some ic2 =>
              obtain ⟨hwi2, hfi2⟩ := ihr rc rfl hr.2 hfr ic2 hric
              exact hstep _ _ h1.1 h1.2 hwi2 hfi2

end PrefixSetRs

namespace PrefixSetRs

/-- Every node visited by the pre-order walk is a well-formed floored
subtree of a well-formed floored tree. -/
theorem preorder_wf_floor (w : Nat) : ∀ t, WFT w t → FloorT w t →
    ∀ n ∈ preorderT t, WFT w n ∧ FloorT w n := by
  refine tree_ind ?_
  intro p m l r ihl ihr hw hf n hn
  have hw' := hw
  have hf' := hf
  rw [WFT_node] at hw'
  rw [FloorT_node] at hf'
  obtain ⟨-, -, -, -, hl, hr⟩ := hw'
  obtain ⟨-, hfl, hfr⟩ := hf'
  unfold preorderT at hn
  rcases List.mem_cons.mp hn with rfl | hn2
  · exact ⟨hw, hf⟩
  rcases List.mem_append.mp hn2 with hnr | hnl
  · cases r with
    | none => simp at hnr
    | some rc => exact ihr rc rfl hr.2 hfr n hnr
  · cases l with
    | none => simp at hnl
    | some lc => exact ihl lc rfl hl.2 hfl n hnl

/-- `BitAnd for Box<Node>`: the fold of node-by-node intersections of two
well-formed floored trees is well-formed and floored when non-empty. -/
theorem andRoots_wf_floor (w : Nat) (ra rb : Tree)
    (hwa : WFT w ra) (hfa : FloorT w ra) (hwb : WFT w rb) (hfb : FloorT w rb) :
    ∀ u, andRoots w ra rb = some u → WFT w u ∧ FloorT w u := by
  have key : ∀ ns : List Tree, (∀ n ∈ ns, WFT w n ∧ FloorT w n) →
      ∀ racc : Option Tree, (∀ u, racc = some u → WFT w u ∧ FloorT w u) →
      ∀ u, (ns.foldl
        (fun root n =>
          match intersectT w rb n.pfx n.map with
          | some new =>
            match root with
            | some root => some (addFull w root new)
            | none => some new
          | none => root) racc) = some u → WFT w u ∧ FloorT w u := by
    intro ns
    induction ns with
    | nil => exact fun _ racc hacc => hacc
    | cons n ns ihn =>
      intro hns racc hacc
      obtain ⟨hwn, hfn⟩ := hns n (List.mem_cons_self n ns)
      simp only [List.foldl_cons]
      refine ihn (fun n' hn' => hns n' (List.mem_cons_of_mem _ hn')) _ ?_
      intro u hu
      revert hu
      cases hin : intersectT w rb n.pfx n.map with
      | none => exact fun hu => hacc u hu
      | some new =>
        have hnew : WFT w new ∧ FloorT w new :=
          intersectT_wf_floor w n.pfx n.map hwn.bits_lt hwn.len_le hwn.canon
            (FloorT_root_floor hfn) rb hwb hfb new hin
        cases racc with
        | none =>
          intro hu
          injection hu with hu
          subst hu
          exact hnew
        | some root =>
          intro hu
          injection hu with hu
          subst hu
          obtain ⟨hwr, hfr⟩ := hacc root rfl
          exact ⟨(addT_wf w _ root new hwr hnew.1).1,
            addT_floor w _ root new hfr hnew.2⟩
  intro u hu
  refine key (preorderT ra) (preorder_wf_floor w ra hwa hfa) none ?_ u hu
  intro u' hu'
  cases hu'

/-- The invariant carried by every reachable set root: well-formed radix
structure plus the glue-map floor. -/
def InvRoot (w : Nat) : Option Tree → Prop
  | some t => WFT w t ∧ FloorT w t
  | none => True

/-- A canonical, in-range public input item: either a prefix node or a
prefix-range node, as accepted by `insert` / `remove` (spec §3.1: parsed
prefixes are canonical). -/
def Inp (w : Nat) (n : Tree) : Prop :=
  (∃ p : Pfx, canonical w p ∧ p.bits < 2 ^ w ∧ p.length ≤ w ∧
    n = nodeOfPrefix w p) ∨
  (∃ (base : Pfx) (lo up : Nat) (rg : Range), canonical w base ∧
    base.bits < 2 ^ w ∧ rangeNew w base lo up = some rg ∧ n = nodeOfRange w rg)

theorem Inp_wf_floor {w : Nat} {n : Tree} (h : Inp w n) : WFT w n ∧ FloorT w n := by
  rcases h with ⟨p, hc, hb, hw, rfl⟩ | ⟨base, lo, up, rg, hc, hb, hrg, rfl⟩
  · constructor
    · rw [nodeOfPrefix, WFT_node]
      exact ⟨GlueMap.bnd_singleton, hb, hw, hc, trivial, trivial⟩
    · rw [nodeOfPrefix, FloorT_node]
      exact ⟨GlueMap.singleton_floor hw, trivial, trivial⟩
  · unfold rangeNew at hrg
    split at hrg
    · next hcond =>
      injection hrg with hrg
      subst hrg
      constructor
      · rw [nodeOfRange, WFT_node]
        exact ⟨GlueMap.bnd_ofRange, hb, (show base.length ≤ w by omega), hc,
          trivial, trivial⟩
      · rw [nodeOfRange, FloorT_node]
        refine ⟨?_, trivial, trivial⟩
        exact GlueMap.floor_mono (show base.length ≤ lo by omega)
          (GlueMap.ofRange_floor (show up ≤ w by omega))
    · cases hrg

/-- The aggregation pass keeps the invariant. -/
theorem aggPass_inv {w : Nat} {t : Tree} (hw : WFT w t) (hf : FloorT w t) :
    InvRoot w (aggPass w t) := by
  unfold aggPass
  have hw1 := aggregateT_wf w _ (deduplicateT_wf w t GlueMap.zero hw)
  have hf1 := aggregateT_floor w _ (deduplicateT_floor w t GlueMap.zero hf)
  cases hu : compressT (aggregateT w (deduplicateT w t GlueMap.zero)) with
  | none => trivial
  | some u =>
    exact ⟨(compressT_wf w _ hw1 u hu).1, compressT_floor w _ hf1 u hu⟩

theorem aggSet_inv {w : Nat} {r : Option Tree} (h : InvRoot w r) : InvRoot w (aggSet w r) := by
  cases r with
  | none => trivial
  | some t => exact aggPass_inv h.1 h.2

theorem insertNode_inv {w : Nat} {r : Option Tree} {n : Tree} (h : InvRoot w r)
    (hn : WFT w n ∧ FloorT w n) : InvRoot w (insertNode w r n) := by
  cases r with
  | none => exact hn
  | some root =>
    exact ⟨(addT_wf w (root.size + n.size) root n h.1 hn.1).1,
      addT_floor w (root.size + n.size) root n h.2 hn.2⟩

theorem removeNode_inv {w : Nat} {r : Option Tree} {n : Tree} (h : InvRoot w r)
    (hn : WFT w n ∧ FloorT w n) : InvRoot w (removeNode w r n) := by
  cases r with
  | none => trivial
  | some root =>
    obtain ⟨ha, hb, -⟩ := removeT_wf_floor w ((root.size + n.size + 2) * (w + 2))
      root n h.1 h.2 hn.1 hn.2
    exact ⟨ha, hb⟩

theorem insertSet_inv {w : Nat} {r : Option Tree} {n : Tree} (h : InvRoot w r)
    (hn : WFT w n ∧ FloorT w n) : InvRoot w (insertSet w r n) :=
  aggSet_inv (insertNode_inv h hn)

theorem removeSet_inv {w : Nat} {r : Option Tree} {n : Tree} (h : InvRoot w r)
    (hn : WFT w n ∧ FloorT w n) : InvRoot w (removeSet w r n) :=
  aggSet_inv (removeNode_inv h hn)

theorem foldl_insertNode_inv {w : Nat} : ∀ (ns : List Tree) (r : Option Tree),
    InvRoot w r → (∀ n ∈ ns, WFT w n ∧ FloorT w n) →
    InvRoot w (ns.foldl (insertNode w) r) := by
  intro ns
  induction ns with
  | nil => exact fun r h _ => h
  | cons n ns ihn =>
    intro r h hns
    simp only [List.foldl_cons]
    exact ihn _ (insertNode_inv h (hns n (List.mem_cons_self n ns)))
      (fun n' hn' => hns n' (List.mem_cons_of_mem _ hn'))

theorem foldl_removeNode_inv {w : Nat} : ∀ (ns : List Tree) (r : Option Tree),
    InvRoot w r → (∀ n ∈ ns, WFT w n ∧ FloorT w n) →
    InvRoot w (ns.foldl (removeNode w) r) := by
  intro ns
  induction ns with
  | nil => exact fun r h _ => h
  | cons n ns ihn =>
    intro r h hns
    simp only [List.foldl_cons]
    exact ihn _ (removeNode_inv h (hns n (List.mem_cons_self n ns)))
      (fun n' hn' => hns n' (List.mem_cons_of_mem _ hn'))

theorem insertFrom_inv {w : Nat} {r : Option Tree} {ns : List Tree} (h : InvRoot w r)
    (hns : ∀ n ∈ ns, WFT w n ∧ FloorT w n) : InvRoot w (insertFrom w r ns) :=
  aggSet_inv (foldl_insertNode_inv ns r h hns)

theorem removeFrom_inv {w : Nat} {r : Option Tree} {ns : List Tree} (h : InvRoot w r)
    (hns : ∀ n ∈ ns, WFT w n ∧ FloorT w n) : InvRoot w (removeFrom w r ns) :=
  aggSet_inv (foldl_removeNode_inv ns r h hns)

theorem orSet_inv {w : Nat} {a b : Option Tree} (ha : InvRoot w a) (hb : InvRoot w b) :
    InvRoot w (orSet w a b) := by
  cases a with
  | none =>
    cases b with
    | none => trivial
    | some rb => exact hb
  | some ra =>
    cases b with
    | none => exact ha
    | some rb =>
      exact aggSet_inv (show InvRoot w (some (addFull w ra rb)) from
        ⟨(addT_wf w (ra.size + rb.size) ra rb ha.1 hb.1).1,
          addT_floor w (ra.size + rb.size) ra rb ha.2 hb.2⟩)

theorem andSet_inv {w : Nat} {a b : Option Tree} (ha : InvRoot w a) (hb : InvRoot w b) :
    InvRoot w (andSet w a b) := by
  cases a with
  | none => trivial
  | some ra =>
    cases b with
    | none => trivial
    | some rb =>
      refine aggSet_inv ?_
      cases hu : andRoots w ra rb with
      | none => trivial
      | some u => exact andRoots_wf_floor w ra rb ha.1 ha.2 hb.1 hb.2 u hu

theorem subSet_inv {w : Nat} {a b : Option Tree} (ha : InvRoot w a) (hb : InvRoot w b) :
    InvRoot w (subSet w a b) := by
  cases a with
  | none => trivial
  | some ra =>
    cases b with
    | none => exact ha
    | some rb =>
      refine aggSet_inv ?_
      obtain ⟨h1, h2, -⟩ := removeT_wf_floor w ((ra.size + rb.size + 2) * (w + 2))
        ra rb ha.1 ha.2 hb.1 hb.2
      exact ⟨h1, h2⟩

theorem oneSet_inv {w : Nat} : InvRoot w (oneSet w) := by
  refine insertSet_inv trivial ?_
  constructor
  · rw [nodeOfRange, WFT_node]
    refine ⟨GlueMap.bnd_ofRange,
      (show (0 : Nat) < 2 ^ w from Nat.pos_pow_of_pos _ (by omega)),
      (show (0 : Nat) ≤ w by omega), ?_, trivial, trivial⟩
    unfold canonical
    simp
  · rw [nodeOfRange, FloorT_node]
    exact ⟨GlueMap.floor_mono (show (0 : Nat) ≤ 0 by omega)
      (GlueMap.ofRange_floor (show w ≤ w by omega)), trivial, trivial⟩

theorem notSet_inv {w : Nat} {a : Option Tree} (ha : InvRoot w a) : InvRoot w (notSet w a) :=
  subSet_inv oneSet_inv ha

theorem xorSet_inv {w : Nat} {a b : Option Tree} (ha : InvRoot w a) (hb : InvRoot w b) :
    InvRoot w (xorSet w a b) :=
  subSet_inv (orSet_inv ha hb) (andSet_inv ha hb)

/-- The roots reachable through the public `PrefixSet` API from the empty
set, with canonical in-range inputs (spec §3.1). -/
inductive Reachable (w : Nat) : Option PrefixSetRs.Tree → Prop where
  | empty : Reachable w none
  | insertOne (r : Option PrefixSetRs.Tree) (n : PrefixSetRs.Tree) :
      Reachable w r → PrefixSetRs.Inp w n → Reachable w (insertSet w r n)
  | insertMany (r : Option PrefixSetRs.Tree) (ns : List PrefixSetRs.Tree) :
      Reachable w r → (∀ n ∈ ns, PrefixSetRs.Inp w n) →
      Reachable w (insertFrom w r ns)
  | removeOne (r : Option PrefixSetRs.Tree) (n : PrefixSetRs.Tree) :
      Reachable w r → PrefixSetRs.Inp w n → Reachable w (removeSet w r n)
  | removeMany (r : Option PrefixSetRs.Tree) (ns : List PrefixSetRs.Tree) :
      Reachable w r → (∀ n ∈ ns, PrefixSetRs.Inp w n) →
      Reachable w (removeFrom w r ns)
  | union (a b : Option PrefixSetRs.Tree) :
      Reachable w a → Reachable w b → Reachable w (orSet w a b)
  | inter (a b : Option PrefixSetRs.Tree) :
      Reachable w a → Reachable w b → Reachable w (andSet w a b)
  | diff (a b : Option PrefixSetRs.Tree) :
      Reachable w a → Reachable w b → Reachable w (subSet w a b)
  | compl (a : Option PrefixSetRs.Tree) : Reachable w a → Reachable w (notSet w a)
  | symmDiff (a b : Option PrefixSetRs.Tree) :
      Reachable w a → Reachable w b → Reachable w (xorSet w a b)
  | aggr (r : Option Tree) : Reachable w r → Reachable w (aggSet w r)

/-- Every reachable root is well-formed and floored. -/
theorem reachable_inv {w : Nat} {r : Option Tree} (h : Reachable w r) : InvRoot w r := by
  induction h with
  | empty => trivial
  | insertOne r n _ hn ih => exact insertSet_inv ih (Inp_wf_floor hn)
  | insertMany r ns _ hns ih =>
      exact insertFrom_inv ih (fun n hn => Inp_wf_floor (hns n hn))
  | removeOne r n _ hn ih => exact removeSet_inv ih (Inp_wf_floor hn)
  | removeMany r ns _ hns ih =>
      exact removeFrom_inv ih (fun n hn => Inp_wf_floor (hns n hn))
  | union a b _ _ iha ihb => exact orSet_inv iha ihb
  | inter a b _ _ iha ihb => exact andSet_inv iha ihb
  | diff a b _ _ iha ihb => exact subSet_inv iha ihb
  | compl a _ iha => exact notSet_inv iha
  | symmDiff a b _ _ iha ihb => exact xorSet_inv iha ihb
  | aggr r _ ih => exact aggSet_inv ih

end PrefixSetRs

namespace PrefixSetRs

/-- **C5**: after every public `PrefixSet` operation (insert, insert_from,
remove, remove_from, and the binary and unary set operators, in any
combination starting from the empty set, with canonical in-range inputs),
every node of the resulting tree has no bit set in its glue map at an index
below its base prefix length; in particular the deaggregation step of
`remove` and the pull-up step of `aggregate` preserve the floor. -/
theorem glue_map_floor_after_public_ops (w : Nat) (r : Option Tree)
    (h : Reachable w r) : optFloor w r := by
  have hinv := reachable_inv h
  cases r with
  | none => trivial
  | some t => exact hinv.2

/-- The floor invariant at a concrete reachable set: the two-prefix
`insert_from` scenario at `W = 32`. -/
theorem glue_map_floor_after_public_ops_witness : optFloor 32 scenario2 :=
  glue_map_floor_after_public_ops 32 scenario2
    (Reachable.insertMany none
      [nodeOfPrefix 32 ⟨0xC0000200, 25⟩, nodeOfPrefix 32 ⟨0xC0000280, 25⟩]
      Reachable.empty
      (by
        intro n hn
        rcases List.mem_cons.mp hn with rfl | hn2
        · exact Or.inl ⟨⟨0xC0000200, 25⟩, by decide, by decide, by decide, rfl⟩
        rcases List.mem_cons.mp hn2 with rfl | hn3
        · exact Or.inl ⟨⟨0xC0000280, 25⟩, by decide, by decide, by decide, rfl⟩
        · simp at hn3))

end PrefixSetRs

namespace PrefixSetRs.GlueMap

theorem test_of_gt {w i : Nat} {a : GlueMap} (h : w < i) : test w a i = false := by
  unfold test
  rw [if_neg (by omega), if_neg (by omega)]

theorem or_zero_right {w : Nat} {a : GlueMap} (ha : Bnd w a) : or a zero = a := by
  refine ext_test (bnd_or ha bnd_zero) ha fun i => ?_
  rw [test_or, test_zero, Bool.or_false]

theorem and_not_zero {w : Nat} {a : GlueMap} (ha : Bnd w a) :
    and a (not w zero) = a := by
  refine ext_test (bnd_and_left ha) ha fun i => ?_
  rw [test_and]
  by_cases hi : i ≤ w
  · rw [test_not hi, test_zero]
    simp
  · rw [test_of_gt (by omega), test_of_gt (by omega)]
    rfl

end PrefixSetRs.GlueMap

namespace PrefixSetRs

/-- The state `deduplicate` leaves behind, relative to the set `f` of glue
indices already claimed by ancestors: no node repeats a claimed index, and
each node adds its own bits to the claim for its subtree. -/
def DedupedT (w : Nat) : Tree → (Nat → Bool) → Prop
  | .node _ m l r, f =>
    (∀ i, i ≤ w → GlueMap.test w m i = true → f i = false) ∧
    (match l with
     | some c => DedupedT w c (fun i => f i || GlueMap.test w m i)
     | none => True) ∧
    (match r with
     | some c => DedupedT w c (fun i => f i || GlueMap.test w m i)
     | none => True)

/-- The state `aggregate` leaves behind: wherever both children sit exactly
one level below their parent, their glue maps are disjoint (nothing is left
to pull up). -/
def NoAggrT (w : Nat) : Tree → Prop
  | .node p _ l r =>
    (match l, r with
     | some lc, some rc =>
       lc.pfx.length = p.length + 1 → rc.pfx.length = p.length + 1 →
       ∀ i, GlueMap.test w lc.map i = false ∨ GlueMap.test w rc.map i = false
     | _, _ => True) ∧
    (match l with | some c => NoAggrT w c | none => True) ∧
    (match r with | some c => NoAggrT w c | none => True)

/-- The state `compress` leaves behind: every surviving node either carries
glue or has both children. -/
def CompressedT : Tree → Prop
  | .node _ m l r =>
    (m ≠ GlueMap.zero ∨ (l.isSome ∧ r.isSome)) ∧
    (match l with | some c => CompressedT c | none => True) ∧
    (match r with | some c => CompressedT c | none => True)

theorem DedupedT_node {w : Nat} {p : Pfx} {m : GlueMap} {l r : Option Tree}
    {f : Nat → Bool} :
    DedupedT w (.node p m l r) f ↔
      (∀ i, i ≤ w → GlueMap.test w m i = true → f i = false) ∧
      (match l with
       | some c => DedupedT w c (fun i => f i || GlueMap.test w m i)
       | none => True) ∧
      (match r with
       | some c => DedupedT w c (fun i => f i || GlueMap.test w m i)
       | none => True) := by
  cases l <;> cases r <;> rfl

theorem NoAggrT_node {w : Nat} {p : Pfx} {m : GlueMap} {l r : Option Tree} :
    NoAggrT w (.node p m l r) ↔
      (match l, r with
       | some lc, some rc =>
         lc.pfx.length = p.length + 1 → rc.pfx.length = p.length + 1 →
         ∀ i, GlueMap.test w lc.map i = false ∨ GlueMap.test w rc.map i = false
       | _, _ => True) ∧
      (match l with | some c => NoAggrT w c | none => True) ∧
      (match r with | some c => NoAggrT w c | none => True) := by
  cases l <;> cases r <;> rfl

theorem CompressedT_node {p : Pfx} {m : GlueMap} {l r : Option Tree} :
    CompressedT (.node p m l r) ↔
      (m ≠ GlueMap.zero ∨ (l.isSome ∧ r.isSome)) ∧
      (match l with | some c => CompressedT c | none => True) ∧
      (match r with | some c => CompressedT c | none => True) := by
  cases l <;> cases r <;> rfl

/-- `DedupedT` only looks at the claim function on observable indices. -/
theorem DedupedT_congr {w : Nat} : ∀ t {f g : Nat → Bool},
    (∀ i, i ≤ w → f i = g i) → DedupedT w t f → DedupedT w t g := by
  refine tree_ind ?_
  intro p m l r ihl ihr f g hfg hd
  rw [DedupedT_node] at hd ⊢
  obtain ⟨h1, h2, h3⟩ := hd
  refine ⟨fun i hi ht => by rw [← hfg i hi]; exact h1 i hi ht, ?_, ?_⟩
  · cases l with
    | none => trivial
    | some c =>
      exact ihl c rfl (fun i hi => by rw [hfg i hi]) h2
  · cases r with
    | none => trivial
    | some c =>
      exact ihr c rfl (fun i hi => by rw [hfg i hi]) h3

end PrefixSetRs

namespace PrefixSetRs

/-- A node's own claim, extracted from `DedupedT`. -/
theorem DedupedT_root {w : Nat} {t : Tree} {f : Nat → Bool} (h : DedupedT w t f) :
    ∀ i, i ≤ w → GlueMap.test w t.map i = true → f i = false := by
  obtain ⟨p, m, l, r⟩ := t
  exact (DedupedT_node.mp h).1

/-- `deduplicate` establishes its own invariant relative to the incoming
mask. -/
theorem deduplicateT_deduped (w : Nat) : ∀ t mask,
    DedupedT w (deduplicateT w t mask) (fun i => GlueMap.test w mask i) := by
  refine tree_ind ?_
  intro p m l r ihl ihr mask
  rw [deduplicateT_eq, DedupedT_node]
  refine ⟨?_, ?_, ?_⟩
  · intro i hi ht
    rw [GlueMap.test_and, GlueMap.test_not hi, Bool.and_eq_true] at ht
    simpa using ht.2
  · cases l with
    | none => trivial
    | some c =>
      refine DedupedT_congr _ ?_ (ihl c rfl
        (GlueMap.or mask (GlueMap.and m (GlueMap.not w mask))))
      intro i hi
      rw [GlueMap.test_or]
  · cases r with
    | none => trivial
    | some c =>
      refine DedupedT_congr _ ?_ (ihr c rfl
        (GlueMap.or mask (GlueMap.and m (GlueMap.not w mask))))
      intro i hi
      rw [GlueMap.test_or]

/-- On a tree already deduplicated against the incoming mask, `deduplicate`
is the identity. -/
theorem deduplicateT_identity (w : Nat) : ∀ t mask, WFT w t → GlueMap.Bnd w mask →
    DedupedT w t (fun i => GlueMap.test w mask i) → deduplicateT w t mask = t := by
  refine tree_ind ?_
  intro p m l r ihl ihr mask hw hb hd
  rw [WFT_node] at hw
  rw [DedupedT_node] at hd
  obtain ⟨hmb, -, -, -, hl, hr⟩ := hw
  obtain ⟨h1, h2, h3⟩ := hd
  have hm : GlueMap.and m (GlueMap.not w mask) = m := by
    refine GlueMap.ext_test (GlueMap.bnd_and_left hmb) hmb fun i => ?_
    by_cases hi : i ≤ w
    · rw [GlueMap.test_and, GlueMap.test_not hi]
      cases hmi : GlueMap.test w m i
      · rfl
      · rw [h1 i hi hmi]
        rfl
    · rw [GlueMap.test_of_gt (by omega), GlueMap.test_of_gt (by omega)]
  rw [deduplicateT_eq, hm]
  simp only [Option.map]
  have hchild : ∀ c : Tree, WFT w c →
      DedupedT w c (fun i => GlueMap.test w mask i || GlueMap.test w m i) →
      (∀ c', c = c' → deduplicateT w c' (GlueMap.or mask m) = c') →
      deduplicateT w c (GlueMap.or mask m) = c := by
    intro c hwc hdc hih
    exact hih c rfl
  cases l with
  | none =>
    cases r with
    | none => rfl
    | some rc =>
      dsimp only
      rw [ihr rc rfl (GlueMap.or mask m) hr.2 (GlueMap.bnd_or hb hmb)
        (DedupedT_congr _ (fun i hi => (GlueMap.test_or).symm) h3)]
  | some lc =>
    have hlc := ihl lc rfl (GlueMap.or mask m) hl.2 (GlueMap.bnd_or hb hmb)
      (DedupedT_congr _ (fun i hi => (GlueMap.test_or).symm) h2)
    cases r with
    | none =>
      dsimp only
      rw [hlc]
    | some rc =>
      dsimp only
      rw [hlc, ihr rc rfl (GlueMap.or mask m) hr.2 (GlueMap.bnd_or hb hmb)
        (DedupedT_congr _ (fun i hi => (GlueMap.test_or).symm) h3)]

end PrefixSetRs

namespace PrefixSetRs

/-- Replacing a node's own glue map does not affect the sibling-disjointness
state, which only constrains children. -/
theorem noAggr_setMap {w : Nat} {t : Tree} {x : GlueMap} (h : NoAggrT w t) :
    NoAggrT w (t.setMap x) := by
  obtain ⟨p, m, l, r⟩ := t
  rw [Tree.setMap, NoAggrT_node] at *
  exact h

/-- `aggregate` establishes sibling disjointness: after a pull-up the two
children have had their common bits removed. -/
theorem aggregateT_noaggr (w : Nat) : ∀ t, NoAggrT w (aggregateT w t) := by
  refine tree_ind ?_
  intro p m l r ihl ihr
  unfold aggregateT
  dsimp only
  cases l with
  | none =>
    cases r with
    | none =>
      rw [NoAggrT_node]
      exact ⟨trivial, trivial, trivial⟩
    | some rc =>
      dsimp only
      rw [NoAggrT_node]
      exact ⟨trivial, trivial, ihr rc rfl⟩
  | some lc =>
    cases r with
    | none =>
      dsimp only
      rw [NoAggrT_node]
      exact ⟨trivial, ihl lc rfl, trivial⟩
    | some rc =>
      dsimp only
      split
      · next hcond =>
        rw [NoAggrT_node]
        refine ⟨?_, noAggr_setMap (ihl lc rfl), noAggr_setMap (ihr rc rfl)⟩
        intro h1 h2 i
        rw [setMap_map, setMap_map, GlueMap.test_and, GlueMap.test_and]
        by_cases hi : i ≤ w
        · rw [GlueMap.test_not hi, GlueMap.test_and]
          cases ha : GlueMap.test w (aggregateT w lc).map i <;>
            cases hb : GlueMap.test w (aggregateT w rc).map i <;> simp
        · rw [GlueMap.test_of_gt (by omega), GlueMap.test_of_gt (by omega)]
          simp
      · next hcond =>
        rw [NoAggrT_node]
        refine ⟨?_, ihl lc rfl, ihr rc rfl⟩
        intro h1 h2
        exact absurd ⟨h1, h2⟩ hcond

/-- On a tree with disjoint one-level siblings, `aggregate` is the
identity. -/
theorem aggregateT_identity (w : Nat) : ∀ t, WFT w t → NoAggrT w t →
    aggregateT w t = t := by
  refine tree_ind ?_
  intro p m l r ihl ihr hw hn
  rw [WFT_node] at hw
  rw [NoAggrT_node] at hn
  obtain ⟨hmb, -, -, -, hl, hr⟩ := hw
  obtain ⟨h1, h2, h3⟩ := hn
  unfold aggregateT
  dsimp only
  cases l with
  | none =>
    cases r with
    | none => rfl
    | some rc =>
      dsimp only
      rw [ihr rc rfl hr.2 h3]
  | some lc =>
    have hlc : aggregateT w lc = lc := ihl lc rfl hl.2 h2
    cases r with
    | none =>
      dsimp only
      rw [hlc]
    | some rc =>
      have hrc : aggregateT w rc = rc := ihr rc rfl hr.2 h3
      dsimp only
      rw [hlc, hrc]
      split
      · next hcond =>
        have haggr : GlueMap.and lc.map rc.map = GlueMap.zero := by
          refine GlueMap.ext_test (GlueMap.bnd_and_left hl.2.bnd) GlueMap.bnd_zero
            fun i => ?_
          rw [GlueMap.test_and, GlueMap.test_zero]
          rcases h1 hcond.1 hcond.2 i with hc | hc <;> rw [hc] <;> simp
        rw [haggr, GlueMap.or_zero_right hmb, GlueMap.and_not_zero hl.2.bnd,
          GlueMap.and_not_zero hr.2.bnd, setMap_self, setMap_self]
      · rfl

end PrefixSetRs

namespace PrefixSetRs

/-- `aggregate` preserves the deduplication state: pulled-up bits came from
a child, which had already been checked against every ancestor claim, and
the masked children keep claims equivalent to the original ones. -/
theorem aggregateT_deduped (w : Nat) : ∀ t, ∀ f : Nat → Bool,
    DedupedT w t f → DedupedT w (aggregateT w t) f := by
  refine tree_ind ?_
  intro p m l r ihl ihr f hd
  rw [DedupedT_node] at hd
  obtain ⟨h1, h2, h3⟩ := hd
  have key : ∀ (c : Tree) (ag : GlueMap),
      (∀ i, i ≤ w → GlueMap.test w ag i = true → GlueMap.test w c.map i = true) →
      DedupedT w c (fun i => f i || GlueMap.test w m i) →
      DedupedT w (c.setMap (GlueMap.and c.map (GlueMap.not w ag)))
        (fun i => f i || GlueMap.test w (GlueMap.or m ag) i) := by
    intro c ag hsub hdc
    obtain ⟨pc, mc, cl, cr⟩ := c
    simp only [Tree.map] at hsub
    rw [Tree.setMap]
    simp only [Tree.map]
    rw [DedupedT_node] at hdc ⊢
    obtain ⟨hc1, hc2, hc3⟩ := hdc
    have hmask : ∀ i, i ≤ w →
        ((f i || GlueMap.test w (GlueMap.or m ag) i) ||
          GlueMap.test w (GlueMap.and mc (GlueMap.not w ag)) i) =
        ((f i || GlueMap.test w m i) || GlueMap.test w mc i) := by
      intro i hi
      rw [GlueMap.test_or, GlueMap.test_and, GlueMap.test_not hi]
      cases hag : GlueMap.test w ag i
      · simp
      · rw [hsub i hi hag]
        simp
    refine ⟨?_, ?_, ?_⟩
    · intro i hi ht
      rw [GlueMap.test_and, GlueMap.test_not hi, Bool.and_eq_true] at ht
      have hfm := hc1 i hi ht.1
      rw [GlueMap.test_or]
      simp only [Bool.or_eq_false_iff] at hfm ⊢
      refine ⟨hfm.1, hfm.2, ?_⟩
      simpa using ht.2
    · cases cl with
      | none => trivial
      | some c0 => exact DedupedT_congr c0 (fun i hi => (hmask i hi).symm) hc2
    · cases cr with
      | none => trivial
      | some c0 => exact DedupedT_congr c0 (fun i hi => (hmask i hi).symm) hc3
  unfold aggregateT
  dsimp only
  cases l with
  | none =>
    cases r with
    | none =>
      rw [DedupedT_node]
      exact ⟨h1, trivial, trivial⟩
    | some rc =>
      dsimp only
      rw [DedupedT_node]
      exact ⟨h1, trivial, ihr rc rfl _ h3⟩
  | some lc =>
    cases r with
    | none =>
      dsimp only
      rw [DedupedT_node]
      exact ⟨h1, ihl lc rfl _ h2, trivial⟩
    | some rc =>
      dsimp only
      have hdl := ihl lc rfl _ h2
      have hdr := ihr rc rfl _ h3
      split
      · next hcond =>
        rw [DedupedT_node]
        refine ⟨?_, ?_, ?_⟩
        · intro i hi ht
          rw [GlueMap.test_or] at ht
          cases hmt : GlueMap.test w m i
          · rw [hmt, Bool.false_or] at ht
            rw [GlueMap.test_and, Bool.and_eq_true] at ht
            have hfm := DedupedT_root hdl i hi ht.1
            simp only [Bool.or_eq_false_iff] at hfm
            exact hfm.1
          · exact h1 i hi hmt
        · exact key (aggregateT w lc) _
            (fun i hi h => by
              rw [GlueMap.test_and, Bool.and_eq_true] at h
              exact h.1) hdl
        · exact key (aggregateT w rc) _
            (fun i hi h => by
              rw [GlueMap.test_and, Bool.and_eq_true] at h
              exact h.2) hdr
      · rw [DedupedT_node]
        exact ⟨h1, hdl, hdr⟩

end PrefixSetRs

namespace PrefixSetRs

/-- `compress` establishes its own invariant: every surviving node carries
glue or both children. -/
theorem compressT_compressed : ∀ t u, compressT t = some u → CompressedT u := by
  refine tree_ind ?_
  intro p m l r ihl ihr u hu
  unfold compressT at hu
  dsimp only at hu
  cases l with
  | none =>
    cases r with
    | none =>
      dsimp only at hu
      split at hu
      · cases hu
      · injection hu with hu
        subst hu
        rw [CompressedT_node]
        next hm => exact ⟨Or.inl hm, trivial, trivial⟩
    | some rc =>
      dsimp only at hu
      split at hu
      · cases hrc : compressT rc with
        | none =>
          rw [hrc] at hu
          cases hu
        | some c' =>
          rw [hrc] at hu
          dsimp only at hu
          injection hu with hu
          subst hu
          exact ihr rc rfl c' hrc
      · injection hu with hu
        subst hu
        rw [CompressedT_node]
        next hm =>
        refine ⟨Or.inl hm, trivial, ?_⟩
        cases hrc : compressT rc with
        | none => trivial
        | some c' => exact ihr rc rfl c' hrc
  | some lc =>
    cases r with
    | none =>
      dsimp only at hu
      split at hu
      · cases hlc : compressT lc with
        | none =>
          rw [hlc] at hu
          cases hu
        | some c' =>
          rw [hlc] at hu
          dsimp only at hu
          injection hu with hu
          subst hu
          exact ihl lc rfl c' hlc
      · injection hu with hu
        subst hu
        rw [CompressedT_node]
        next hm =>
        refine ⟨Or.inl hm, ?_, trivial⟩
        cases hlc : compressT lc with
        | none => trivial
        | some c' => exact ihl lc rfl c' hlc
    | some rc =>
      dsimp only at hu
      split at hu
      · cases hlc : compressT lc with
        | none =>
          cases hrc : compressT rc with
          | none =>
            rw [hlc, hrc] at hu
            cases hu
          | some c' =>
            rw [hlc, hrc] at hu
            dsimp only at hu
            injection hu with hu
            subst hu
            exact ihr rc rfl c' hrc
        | some cl' =>
          cases hrc : compressT rc with
          | none =>
            rw [hlc, hrc] at hu
            dsimp only at hu
            injection hu with hu
            subst hu
            exact ihl lc rfl cl' hlc
          | some cr' =>
            rw [hlc, hrc] at hu
            dsimp only at hu
            injection hu with hu
            subst hu
            rw [CompressedT_node]
            refine ⟨Or.inr (by simp), ihl lc rfl cl' hlc, ihr rc rfl cr' hrc⟩
      · injection hu with hu
        subst hu
        rw [CompressedT_node]
        next hm =>
        refine ⟨Or.inl hm, ?_, ?_⟩
        · cases hlc : compressT lc with
          | none => trivial
          | some c' => exact ihl lc rfl c' hlc
        · cases hrc : compressT rc with
          | none => trivial
          | some c' => exact ihr rc rfl c' hrc

/-- On an already compressed tree, `compress` is the identity. -/
theorem compressT_identity : ∀ t, CompressedT t → compressT t = some t := by
  refine tree_ind ?_
  intro p m l r ihl ihr hc
  rw [CompressedT_node] at hc
  obtain ⟨hc1, hc2, hc3⟩ := hc
  unfold compressT
  dsimp only
  cases l with
  | none =>
    cases r with
    | none =>
      rw [if_neg ?_]
      rcases hc1 with hm | ⟨hs, -⟩
      · exact hm
      · simp at hs
    | some rc =>
      dsimp only
      rw [ihr rc rfl hc3]
      dsimp only
      rw [if_neg ?_]
      rcases hc1 with hm | ⟨hs, -⟩
      · exact hm
      · simp at hs
  | some lc =>
    cases r with
    | none =>
      dsimp only
      rw [ihl lc rfl hc2]
      dsimp only
      rw [if_neg ?_]
      rcases hc1 with hm | ⟨-, hs⟩
      · exact hm
      · simp at hs
    | some rc =>
      dsimp only
      rw [ihl lc rfl hc2, ihr rc rfl hc3]
      dsimp only
      by_cases hm : m = GlueMap.zero
      · rw [if_pos hm]
      · rw [if_neg hm]

end PrefixSetRs

namespace PrefixSetRs

/-- `compress` preserves the deduplication state: dropped and bypassed
nodes carry empty glue maps and so contribute nothing to any claim. -/
theorem compressT_deduped (w : Nat) : ∀ t, ∀ (f : Nat → Bool) (u : Tree),
    DedupedT w t f → compressT t = some u → DedupedT w u f := by
  refine tree_ind ?_
  intro p m l r ihl ihr f u hd hu
  rw [DedupedT_node] at hd
  obtain ⟨hd1, hd2, hd3⟩ := hd
  have hskip : ∀ i, i ≤ w → (f i || GlueMap.test w GlueMap.zero i) = f i := by
    intro i hi
    rw [GlueMap.test_zero]
    simp
  unfold compressT at hu
  dsimp only at hu
  cases l with
  | none =>
    cases r with
    | none =>
      dsimp only at hu
      split at hu
      · cases hu
      · injection hu with hu
        subst hu
        rw [DedupedT_node]
        exact ⟨hd1, trivial, trivial⟩
    | some rc =>
      dsimp only at hu
      split at hu
      · next hm =>
        subst hm
        cases hrc : compressT rc with
        | none =>
          rw [hrc] at hu
          cases hu
        | some c' =>
          rw [hrc] at hu
          dsimp only at hu
          injection hu with hu
          subst hu
          exact DedupedT_congr c' hskip (ihr rc rfl _ c' hd3 hrc)
      · injection hu with hu
        subst hu
        rw [DedupedT_node]
        refine ⟨hd1, trivial, ?_⟩
        cases hrc : compressT rc with
        | none => trivial
        | some c' => exact ihr rc rfl _ c' hd3 hrc
  | some lc =>
    cases r with
    | none =>
      dsimp only at hu
      split at hu
      · next hm =>
        subst hm
        cases hlc : compressT lc with
        | none =>
          rw [hlc] at hu
          cases hu
        | some c' =>
          rw [hlc] at hu
          dsimp only at hu
          injection hu with hu
          subst hu
          exact DedupedT_congr c' hskip (ihl lc rfl _ c' hd2 hlc)
      · injection hu with hu
        subst hu
        rw [DedupedT_node]
        refine ⟨hd1, ?_, trivial⟩
        cases hlc : compressT lc with
        | none => trivial
        | some c' => exact ihl lc rfl _ c' hd2 hlc
    | some rc =>
      dsimp only at hu
      split at hu
      · next hm =>
        subst hm
        cases hlc : compressT lc with
        | none =>
          cases hrc : compressT rc with
          | none =>
            rw [hlc, hrc] at hu
            cases hu
          | some c' =>
            rw [hlc, hrc] at hu
            dsimp only at hu
            injection hu with hu
            subst hu
            exact DedupedT_congr c' hskip (ihr rc rfl _ c' hd3 hrc)
        | some cl' =>
          cases hrc : compressT rc with
          | none =>
            rw [hlc, hrc] at hu
            dsimp only at hu
            injection hu with hu
            subst hu
            exact DedupedT_congr cl' hskip (ihl lc rfl _ cl' hd2 hlc)
          | some cr' =>
            rw [hlc, hrc] at hu
            dsimp only at hu
            injection hu with hu
            subst hu
            rw [DedupedT_node]
            refine ⟨?_, ?_, ?_⟩
            · intro i hi ht
              rw [GlueMap.test_zero] at ht
              cases ht
            · exact ihl lc rfl _ cl' hd2 hlc
            · exact ihr rc rfl _ cr' hd3 hrc
      · injection hu with hu
        subst hu
        rw [DedupedT_node]
        refine ⟨hd1, ?_, ?_⟩
        · cases hlc : compressT lc with
          | none => trivial
          | some c' => exact ihl lc rfl _ c' hd2 hlc
        · cases hrc : compressT rc with
          | none => trivial
          | some c' => exact ihr rc rfl _ c' hd3 hrc

/-- `compress` preserves sibling disjointness: a compressed child that
still sits exactly one level below the parent kept its prefix and glue
map. -/
theorem compressT_noaggr (w : Nat) : ∀ t, WFT w t → NoAggrT w t → ∀ u,
    compressT t = some u → NoAggrT w u := by
  refine tree_ind ?_
  intro p m l r ihl ihr hw hn u hu
  rw [WFT_node] at hw
  rw [NoAggrT_node] at hn
  obtain ⟨-, -, -, -, hl, hr⟩ := hw
  obtain ⟨h1, h2, h3⟩ := hn
  unfold compressT at hu
  dsimp only at hu
  cases l with
  | none =>
    cases r with
    | none =>
      dsimp only at hu
      split at hu
      · cases hu
      · injection hu with hu
        subst hu
        rw [NoAggrT_node]
        exact ⟨trivial, trivial, trivial⟩
    | some rc =>
      dsimp only at hu
      split at hu
      · cases hrc : compressT rc with
        | none =>
          rw [hrc] at hu
          cases hu
        | some c' =>
          rw [hrc] at hu
          dsimp only at hu
          injection hu with hu
          subst hu
          exact ihr rc rfl hr.2 h3 c' hrc
      · injection hu with hu
        subst hu
        rw [NoAggrT_node]
        refine ⟨?_, trivial, ?_⟩
        · cases hrc : compressT rc with
          | none => trivial
          | some c' => trivial
        · cases hrc : compressT rc with
          | none => trivial
          | some c' => exact ihr rc rfl hr.2 h3 c' hrc
  | some lc =>
    cases r with
    | none =>
      dsimp only at hu
      split at hu
      · cases hlc : compressT lc with
        | none =>
          rw [hlc] at hu
          cases hu
        | some c' =>
          rw [hlc] at hu
          dsimp only at hu
          injection hu with hu
          subst hu
          exact ihl lc rfl hl.2 h2 c' hlc
      · injection hu with hu
        subst hu
        rw [NoAggrT_node]
        refine ⟨?_, ?_, trivial⟩
        · cases hlc : compressT lc with
          | none => trivial
          | some c' => trivial
        · cases hlc : compressT lc with
          | none => trivial
          | some c' => exact ihl lc rfl hl.2 h2 c' hlc
    | some rc =>
      have hpair : ∀ cl' cr', compressT lc = some cl' → compressT rc = some cr' →
          cl'.pfx.length = p.length + 1 → cr'.pfx.length = p.length + 1 →
          ∀ i, GlueMap.test w cl'.map i = false ∨ GlueMap.test w cr'.map i = false := by
        intro cl' cr' hlc hrc hL1 hL2 i
        obtain ⟨-, hlenl, -, heql⟩ := compressT_wf w lc hl.2 cl' hlc
        obtain ⟨-, hlenr, -, heqr⟩ := compressT_wf w rc hr.2 cr' hrc
        have hel : p.length < lc.pfx.length := hl.1.1
        have her : p.length < rc.pfx.length := hr.1.1
        obtain ⟨-, hmapl⟩ := heql (by omega)
        obtain ⟨-, hmapr⟩ := heqr (by omega)
        rw [hmapl, hmapr]
        exact h1 (by omega) (by omega) i
      dsimp only at hu
      split at hu
      · cases hlc : compressT lc with
        | none =>
          cases hrc : compressT rc with
          | none =>
            rw [hlc, hrc] at hu
            cases hu
          | some c' =>
            rw [hlc, hrc] at hu
            dsimp only at hu
            injection hu with hu
            subst hu
            exact ihr rc rfl hr.2 h3 c' hrc
        | some cl' =>
          cases hrc : compressT rc with
          | none =>
            rw [hlc, hrc] at hu
            dsimp only at hu
            injection hu with hu
            subst hu
            exact ihl lc rfl hl.2 h2 cl' hlc
          | some cr' =>
            rw [hlc, hrc] at hu
            dsimp only at hu
            injection hu with hu
            subst hu
            rw [NoAggrT_node]
            exact ⟨hpair cl' cr' hlc hrc, ihl lc rfl hl.2 h2 cl' hlc,
              ihr rc rfl hr.2 h3 cr' hrc⟩
      · injection hu with hu
        subst hu
        rw [NoAggrT_node]
        refine ⟨?_, ?_, ?_⟩
        · cases hlc : compressT lc with
          | none =>
            cases hrc : compressT rc with
            | none => trivial
            | some cr' => trivial
          | some cl' =>
            cases hrc : compressT rc with
            | none => trivial
            | some cr' => exact hpair cl' cr' hlc hrc
        · cases hlc : compressT lc with
          | none => trivial
          | some c' => exact ihl lc rfl hl.2 h2 c' hlc
        · cases hrc : compressT rc with
          | none => trivial
          | some c' => exact ihr rc rfl hr.2 h3 c' hrc

end PrefixSetRs

namespace PrefixSetRs

/-- One aggregation pass leaves a tree on which a second pass is the
identity: the output is deduplicated, has no pull-up left, and is
compressed, and each stage is the identity on such trees. -/
theorem aggPass_idem (w : Nat) (t : Tree) (hw : WFT w t) :
    ∀ u, aggPass w t = some u → aggPass w u = some u := by
  intro u hu
  unfold aggPass at hu
  have hwd : WFT w (deduplicateT w t GlueMap.zero) :=
    deduplicateT_wf w t GlueMap.zero hw
  have hwv : WFT w (aggregateT w (deduplicateT w t GlueMap.zero)) :=
    aggregateT_wf w _ hwd
  have hDd : DedupedT w (deduplicateT w t GlueMap.zero)
      (fun i => GlueMap.test w GlueMap.zero i) :=
    deduplicateT_deduped w t GlueMap.zero
  have hDv := aggregateT_deduped w _ _ hDd
  have hNv := aggregateT_noaggr w (deduplicateT w t GlueMap.zero)
  have hwu := (compressT_wf w _ hwv u hu).1
  have hCu := compressT_compressed _ u hu
  have hDu := compressT_deduped w _ _ u hDv hu
  have hNu := compressT_noaggr w _ hwv hNv u hu
  unfold aggPass
  rw [deduplicateT_identity w u GlueMap.zero hwu GlueMap.bnd_zero hDu,
    aggregateT_identity w u hwu hNu, compressT_identity u hCu]

/-- **C3**: the aggregation pass (`deduplicate`, then the sibling pull-up
`aggregate`, then the glue cleaning `compress`) is idempotent on every tree
reachable through the public `PrefixSet` operations: running
`PrefixSet::aggregate` a second time returns the very same root (hence the
same pre-order traversal byte for byte). -/
theorem aggregation_pass_idempotent_on_reachable (w : Nat) (r : Option Tree)
    (h : Reachable w r) : aggSet w (aggSet w r) = aggSet w r := by
  have hinv := reachable_inv h
  cases r with
  | none => rfl
  | some t =>
    show aggSet w (aggPass w t) = aggPass w t
    cases hu : aggPass w t with
    | none => rfl
    | some u =>
      show aggPass w u = some u
      exact aggPass_idem w t hinv.1 u hu

/-- Idempotence at a concrete reachable set: the two-prefix `insert_from`
scenario at `W = 32`. -/
theorem aggregation_pass_idempotent_on_reachable_witness :
    aggSet 32 (aggSet 32 scenario2) = aggSet 32 scenario2 :=
  aggregation_pass_idempotent_on_reachable 32 scenario2
    (Reachable.insertMany none
      [nodeOfPrefix 32 ⟨0xC0000200, 25⟩, nodeOfPrefix 32 ⟨0xC0000280, 25⟩]
      Reachable.empty
      (by
        intro n hn
        rcases List.mem_cons.mp hn with rfl | hn2
        · exact Or.inl ⟨⟨0xC0000200, 25⟩, by decide, by decide, by decide, rfl⟩
        rcases List.mem_cons.mp hn2 with rfl | hn3
        · exact Or.inl ⟨⟨0xC0000280, 25⟩, by decide, by decide, by decide, rfl⟩
        · simp at hn3))

end PrefixSetRs

namespace PrefixSetRs

/-! ## C6 groundwork: trailing-zero counts and weighted bit sums -/

theorem findBit_ge {x : Nat} : ∀ fuel i, i ≤ findBit x fuel i := by
  intro fuel
  induction fuel with
  | zero => exact fun i => le_refl i
  | succ fuel ih =>
    intro i
    unfold findBit
    split
    · exact le_refl i
    · exact le_trans (by omega) (ih (i + 1))

theorem findBit_le {x : Nat} : ∀ fuel i, findBit x fuel i ≤ i + fuel := by
  intro fuel
  induction fuel with
  | zero => exact fun i => le_refl i
  | succ fuel ih =>
    intro i
    unfold findBit
    split
    · omega
    · have := ih (i + 1)
      omega

theorem findBit_not {x : Nat} : ∀ fuel i j, i ≤ j → j < findBit x fuel i →
    x.testBit j = false := by
  intro fuel
  induction fuel with
  | zero =>
    intro i j hij hj
    unfold findBit at hj
    omega
  | succ fuel ih =>
    intro i j hij hj
    unfold findBit at hj
    split at hj
    · omega
    · next hx =>
      rcases Nat.eq_or_lt_of_le hij with rfl | hlt
      · simpa using hx
      · exact ih (i + 1) j (by omega) hj

theorem findBit_hit {x : Nat} : ∀ fuel i, findBit x fuel i < i + fuel →
    x.testBit (findBit x fuel i) = true := by
  intro fuel
  induction fuel with
  | zero =>
    intro i h
    unfold findBit at h
    omega
  | succ fuel ih =>
    intro i h
    unfold findBit at h ⊢
    split at h
    · next hx =>
      rw [if_pos hx]
      exact hx
    · next hx =>
      rw [if_neg hx]
      exact ih (i + 1) (by omega)

/-- For a nonzero `w`-bit word, `trailing_zeros` is the position of the
least set bit. -/
theorem tzW_spec {w b : Nat} (hb : b < 2 ^ w) (hb0 : b ≠ 0) :
    tzW w b < w ∧ b.testBit (tzW w b) = true ∧
      ∀ j, j < tzW w b → b.testBit j = false := by
  have hle : tzW w b ≤ w := by
    have := findBit_le (x := b) w 0
    unfold tzW
    omega
  have hlt : tzW w b < w := by
    rcases Nat.eq_or_lt_of_le hle with heq | hlt
    · exfalso
      apply hb0
      refine Nat.eq_of_testBit_eq fun j => ?_
      rw [Nat.zero_testBit]
      by_cases hj : j < w
      · refine findBit_not w 0 j (by omega) ?_
        unfold tzW at heq
        omega
      · exact Nat.testBit_lt_two_pow (lt_of_lt_of_le hb
          (Nat.pow_le_pow_right (by omega) (by omega)))
    · exact hlt
  refine ⟨hlt, ?_, ?_⟩
  · refine findBit_hit w 0 ?_
    unfold tzW at hlt
    omega
  · intro j hj
    exact findBit_not w 0 j (by omega) hj

/-- Weighted sum of the set bits of `b` below `k`. -/
def bitSum (f : Nat → Nat) (b k : Nat) : Nat :=
  ((List.range k).map (fun i => if b.testBit i then f i else 0)).sum

theorem bitSum_zero_bits {f : Nat → Nat} {b k : Nat}
    (h : ∀ j, j < k → b.testBit j = false) : bitSum f b k = 0 := by
  unfold bitSum
  refine List.sum_eq_zero fun x hx => ?_
  rw [List.mem_map] at hx
  obtain ⟨i, hi, rfl⟩ := hx
  rw [List.mem_range] at hi
  rw [h i hi]
  rfl

theorem bitSum_one_bits {f : Nat → Nat} {b k : Nat}
    (h : ∀ j, j < k → b.testBit j = true) :
    bitSum f b k = ((List.range k).map f).sum := by
  unfold bitSum
  congr 1
  refine List.map_congr_left fun i hi => ?_
  rw [List.mem_range] at hi
  rw [h i hi]
  simp

theorem bitSum_split (f : Nat → Nat) (b k s : Nat) (hs : s ≤ k) :
    bitSum f b k = bitSum f b s + bitSum (fun i => f (s + i)) (b >>> s) (k - s) := by
  obtain ⟨t, rfl⟩ : ∃ t, k = s + t := ⟨k - s, by omega⟩
  simp only [Nat.add_sub_cancel_left]
  unfold bitSum
  rw [List.range_add, List.map_append, List.sum_append]
  congr 1
  rw [List.map_map]
  congr 1
  refine List.map_congr_left fun i hi => ?_
  simp only [Function.comp]
  rw [Nat.testBit_shiftRight]

end PrefixSetRs

namespace PrefixSetRs

theorem shiftRight_lt_pow {b k s : Nat} (hb : b < 2 ^ k) : b >>> s < 2 ^ (k - s) := by
  rw [Nat.shiftRight_eq_div_pow]
  by_cases hs : s ≤ k
  · refine Nat.div_lt_of_lt_mul ?_
    calc b < 2 ^ k := hb
    _ = 2 ^ s * 2 ^ (k - s) := by rw [← Nat.pow_add]; congr 1; omega
  · have : b / 2 ^ s = 0 := Nat.div_eq_of_lt (lt_of_lt_of_le hb
      (Nat.pow_le_pow_right (by omega) (by omega)))
    rw [this]
    exact Nat.pos_pow_of_pos _ (by omega)

/-- The number of sub-prefixes of `base` at length `L`. -/
theorem subprefixes_length {w L : Nat} {base : Pfx}
    (hbl : base.length ≤ L) (hLw : L ≤ w) :
    (subprefixes w base L).length = 2 ^ (L - base.length) := by
  unfold subprefixes
  rw [if_pos ⟨hbl, hLw⟩]
  rw [List.length_map, List.length_range]
  obtain ⟨-, hmax⟩ := subprefixes_params hbl hLw (by omega)
  rw [hmax]
  by_cases heq : base.length = L
  · rw [if_pos heq]
    simp [heq]
  · rw [if_neg heq]
    have : (0 : Nat) < 2 ^ (L - base.length) := Nat.pos_pow_of_pos _ (by omega)
    omega

/-- The number of member prefixes of a prefix range: one term
`2 ^ (length − base length)` per covered length. -/
theorem rangePrefixes_length {w : Nat} {rg : Range}
    (h1 : rg.base.length ≤ rg.lower) (h3 : rg.upper ≤ w) :
    (rangePrefixes w rg).length =
      ((List.range (rg.upper + 1 - rg.lower)).map
        (fun i => 2 ^ (rg.lower + i - rg.base.length))).sum := by
  unfold rangePrefixes
  rw [List.length_flatMap]
  congr 1
  refine List.map_congr_left fun i hi => ?_
  rw [List.mem_range] at hi
  exact subprefixes_length (by omega) (by omega)

end PrefixSetRs

namespace PrefixSetRs

theorem bitSum_congr {f g : Nat → Nat} {b k k' : Nat} (hk : k = k')
    (h : ∀ i, f i = g i) : bitSum f b k = bitSum g b k' := by
  subst hk
  unfold bitSum
  congr 1
  exact List.map_congr_left fun i _ => by rw [h i]

/-- `GlueMap::trailing_zeros` on a nonzero hostbit-free map is the bitmap's
trailing-zero count. -/
theorem trailingZeros_false {w b : Nat} (hb : b < 2 ^ w) (hb0 : b ≠ 0) :
    GlueMap.trailingZeros w ⟨b, false⟩ = tzW w b := by
  have hlt := (tzW_spec hb hb0).1
  unfold GlueMap.trailingZeros
  have hne : ¬ (tzW w b = w) := by omega
  simp [hne]

/-- `GlueMap::trailing_zeros` on a hostbit-carrying map never takes the
`+1` branch. -/
theorem trailingZeros_hostbit {w b : Nat} :
    GlueMap.trailingZeros w ⟨b, true⟩ = tzW w b := by
  unfold GlueMap.trailingZeros
  simp

/-- `GlueMap::shr` on a hostbit-free bounded map is a plain bitmap shift. -/
theorem shr_false {w b s : Nat} (hb : b < 2 ^ w) :
    GlueMap.shr w ⟨b, false⟩ s = ⟨b >>> s, false⟩ := by
  unfold GlueMap.shr checkedShr
  simp only [Bool.false_and, if_false]
  by_cases hs : s < w
  · simp [hs]
  · simp only [hs, if_false, if_neg hs]
    have : b >>> s = 0 := by
      rw [Nat.shiftRight_eq_div_pow]
      exact Nat.div_eq_of_lt (lt_of_lt_of_le hb
        (Nat.pow_le_pow_right (by omega) (by omega)))
    simp [this]

theorem not_false_map {w b : Nat} :
    GlueMap.not w ⟨b, false⟩ = ⟨b ^^^ ones w, true⟩ := rfl

end PrefixSetRs

namespace PrefixSetRs

/-- Correctness of `NodeRangesIter` on hostbit-free maps: with enough fuel
the emitted entries are all successful ranges over the node's base prefix,
and their total member count is the weighted sum of the set glue bits —
`2 ^ (length − base length)` per set bit. -/
theorem nodeRangesAux_spec (w : Nat) (pfx : Pfx) :
    ∀ fuel (b last : Nat),
      w + 1 ≤ fuel + last →
      b < 2 ^ (w - last) →
      (∀ i, b.testBit i = true → pfx.length ≤ last + i) →
      ∃ rs : List Range,
        nodeRangesAux w pfx fuel ⟨b, false⟩ last = rs.map some ∧
        (∀ rg ∈ rs, rg.base = pfx ∧ pfx.length ≤ rg.lower ∧ rg.lower ≤ rg.upper ∧
          rg.upper ≤ w) ∧
        ((rs.map (fun rg => ((List.range (rg.upper + 1 - rg.lower)).map
            (fun i => 2 ^ (rg.lower + i - pfx.length))).sum)).sum =
          bitSum (fun i => 2 ^ (last + i - pfx.length)) b (w - last)) := by
  intro fuel
  induction fuel with
  | zero =>
    intro b last hfl hb hfloor
    refine ⟨[], rfl, by simp, ?_⟩
    have hwl : w - last = 0 := by omega
    rw [hwl]
    simp [bitSum]
  | succ fuel ih =>
    intro b last hfl hb hfloor
    by_cases hb0 : b = 0
    · subst hb0
      unfold nodeRangesAux
      rw [if_pos (show (⟨0, false⟩ : GlueMap) = GlueMap.zero from rfl)]
      refine ⟨[], rfl, by simp, ?_⟩
      rw [bitSum_zero_bits (fun j _ => Nat.zero_testBit j)]
      simp
    · have hbw : b < 2 ^ w :=
        lt_of_lt_of_le hb (Nat.pow_le_pow_right (by omega) (by omega))
      obtain ⟨rz, hrz⟩ : ∃ rz, tzW w b = rz := ⟨_, rfl⟩
      obtain ⟨b1, hb1e⟩ : ∃ b1, b >>> rz = b1 := ⟨_, rfl⟩
      obtain ⟨ro, hro⟩ : ∃ ro, tzW w (b1 ^^^ ones w) = ro := ⟨_, rfl⟩
      obtain ⟨b2, hb2e⟩ : ∃ b2, b1 >>> ro = b2 := ⟨_, rfl⟩
      obtain ⟨htzlt, htzbit, htzlow⟩ := tzW_spec hbw hb0
      rw [hrz] at htzlt htzbit htzlow
      have hw1 : 1 ≤ w := by
        by_contra hcon
        have hw0 : w = 0 := by omega
        subst hw0
        simp [Nat.lt_one_iff] at hb
        exact hb0 hb
      have hrzk : rz < w - last := by
        by_contra hcon
        have hf : b.testBit rz = false :=
          Nat.testBit_lt_two_pow (lt_of_lt_of_le hb
            (Nat.pow_le_pow_right (by omega) (by omega)))
        rw [htzbit] at hf
        cases hf
      have hb1 : b1 < 2 ^ (w - last - rz) := hb1e ▸ shiftRight_lt_pow hb
      have hb1w : b1 < 2 ^ w :=
        lt_of_lt_of_le hb1 (Nat.pow_le_pow_right (by omega) (by omega))
      have hb1bit : ∀ j, b1.testBit j = b.testBit (rz + j) := by
        intro j
        rw [← hb1e, Nat.testBit_shiftRight]
      have hb1bit0 : b1.testBit 0 = true := by
        rw [hb1bit]
        simpa using htzbit
      have hxbit : ∀ j, j < w → (b1 ^^^ ones w).testBit j = !(b1.testBit j) := by
        intro j hj
        rw [Nat.testBit_xor]
        unfold ones
        rw [Nat.testBit_two_pow_sub_one, decide_eq_true hj, Bool.xor_true]
      have hro1 : 1 ≤ ro := by
        by_contra hcon
        have h0 : ro = 0 := by omega
        have hhit := findBit_hit (x := b1 ^^^ ones w) w 0
          (show findBit (b1 ^^^ ones w) w 0 < 0 + w by
            have : tzW w (b1 ^^^ ones w) = ro := hro
            unfold tzW at this
            omega)
        have : tzW w (b1 ^^^ ones w) = ro := hro
        unfold tzW at this
        rw [this, h0] at hhit
        rw [hxbit 0 (by omega), hb1bit0] at hhit
        cases hhit
      have hrole : ro ≤ w := by
        have := findBit_le (x := b1 ^^^ ones w) w 0
        have h2 : tzW w (b1 ^^^ ones w) = ro := hro
        unfold tzW at h2
        omega
      have hones : ∀ j, j < ro → b1.testBit j = true := by
        intro j hj
        have hjw : j < w := by omega
        have hxj : (b1 ^^^ ones w).testBit j = false := by
          refine findBit_not w 0 j (by omega) ?_
          have h2 : tzW w (b1 ^^^ ones w) = ro := hro
          unfold tzW at h2
          omega
        rw [hxbit j hjw] at hxj
        cases hbit : b1.testBit j
        · rw [hbit] at hxj
          cases hxj
        · rfl
      have hrotop : b1.testBit (ro - 1) = true := hones _ (by omega)
      have hrok : ro - 1 < w - last - rz := by
        by_contra hcon
        have hf : b1.testBit (ro - 1) = false :=
          Nat.testBit_lt_two_pow (lt_of_lt_of_le hb1
            (Nat.pow_le_pow_right (by omega) (by omega)))
        rw [hrotop] at hf
        cases hf
      have hb2bit : ∀ j, b2.testBit j = b.testBit (rz + ro + j) := by
        intro j
        rw [← hb2e, Nat.testBit_shiftRight, hb1bit]
        congr 1
        omega
      obtain ⟨rs', heq', hfacts', hsum'⟩ := ih b2 (last + rz + ro)
        (by omega)
        (by
          rw [← hb2e]
          refine lt_of_lt_of_le (shiftRight_lt_pow hb1) ?_
          exact Nat.pow_le_pow_right (by omega) (by omega))
        (by
          intro i hbit
          rw [hb2bit] at hbit
          have := hfloor _ hbit
          omega)
      refine ⟨⟨pfx, last + rz, last + rz + ro - 1⟩ :: rs', ?_, ?_, ?_⟩
      · -- the computation step
        unfold nodeRangesAux
        rw [if_neg (fun hcon => hb0 (congrArg GlueMap.bitmap hcon))]
        dsimp only
        rw [trailingZeros_false hbw hb0, hrz]
        rw [shr_false hbw, hb1e]
        rw [not_false_map]
        rw [trailingZeros_hostbit, hro]
        rw [shr_false hb1w, hb2e]
        rw [List.map_cons, ← heq']
        congr 2
        · unfold rangeNew
          rw [if_pos ⟨hfloor _ htzbit, by omega, by omega⟩]
        · omega
      · intro rg hrg
        rcases List.mem_cons.mp hrg with rfl | hrg2
        · exact ⟨rfl, hfloor _ htzbit, by simp; omega, by simp; omega⟩
        · exact hfacts' rg hrg2
      · rw [List.map_cons, List.sum_cons]
        rw [bitSum_split _ b (w - last) rz (by omega)]
        rw [bitSum_zero_bits htzlow]
        rw [show b >>> rz = b1 from hb1e]
        rw [bitSum_split _ b1 (w - last - rz) ro (by omega)]
        rw [bitSum_one_bits hones]
        rw [show b1 >>> ro = b2 from hb2e]
        rw [Nat.zero_add]
        congr 1
        · have hru : last + rz + ro - 1 + 1 - (last + rz) = ro := by omega
          rw [hru]
          refine congrArg List.sum (List.map_congr_left fun i hi => ?_)
          dsimp only
          congr 1
          omega
        · refine hsum'.trans ?_
          refine bitSum_congr (by omega) fun i => ?_
          congr 1
          omega

end PrefixSetRs

namespace PrefixSetRs

theorem bitSum_of_lt {f : Nat → Nat} {b k k' : Nat} (hb : b < 2 ^ k)
    (hk : k ≤ k') : bitSum f b k' = bitSum f b k := by
  rw [bitSum_split f b k' k hk]
  have hz : b >>> k = 0 := by
    rw [Nat.shiftRight_eq_div_pow]
    exact Nat.div_eq_of_lt hb
  rw [hz, bitSum_zero_bits (fun j _ => Nat.zero_testBit j)]
  omega

theorem bitSum_testBit_congr {f : Nat → Nat} {a b k : Nat}
    (h : ∀ i, i < k → a.testBit i = b.testBit i) :
    bitSum f a k = bitSum f b k := by
  unfold bitSum
  refine congrArg List.sum (List.map_congr_left fun i hi => ?_)
  rw [List.mem_range] at hi
  rw [h i hi]

theorem bitSum_one {f : Nat → Nat} {b : Nat} :
    bitSum f b 1 = if b.testBit 0 then f 0 else 0 := by
  unfold bitSum
  simp [List.range_succ]

/-- The bits of the materialised hostbit block `ONES << t` after the `w`-bit
wrap: exactly the positions from `t` up to `w - 1`. -/
theorem ones_shl_mod_testBit (w t j : Nat) :
    ((ones w <<< t) % 2 ^ w).testBit j = (decide (t ≤ j) && decide (j < w)) := by
  rw [Nat.testBit_mod_two_pow, Nat.testBit_shiftLeft]
  unfold ones
  rw [Nat.testBit_two_pow_sub_one]
  by_cases htj : t ≤ j <;> by_cases hjw : j < w
  · have hjt : j - t < w := by omega
    simp [htj, hjw, hjt, ge_iff_le]
  · simp [htj, hjw]
  · simp [htj, hjw, ge_iff_le]
  · simp [htj, hjw]

theorem findBit_zero : ∀ fuel i, findBit 0 fuel i = i + fuel := by
  intro fuel
  induction fuel with
  | zero => intro i; rfl
  | succ fuel ih =>
    intro i
    unfold findBit
    rw [Nat.zero_testBit]
    rw [if_neg (by simp), ih]
    omega

theorem tzW_zero (w : Nat) : tzW w 0 = w := by
  unfold tzW
  rw [findBit_zero]
  omega

theorem tzW_zero_of_bit0 {w x : Nat} (hw : 1 ≤ w) (h : x.testBit 0 = true) :
    tzW w x = 0 := by
  obtain ⟨w', rfl⟩ : ∃ w', w = w' + 1 := ⟨w - 1, by omega⟩
  unfold tzW findBit
  simp [h]

theorem trailingZeros_zero_false (w : Nat) :
    GlueMap.trailingZeros w ⟨0, false⟩ = w + 1 := by
  unfold GlueMap.trailingZeros
  rw [tzW_zero]
  simp

/-- `GlueMap::shr` on a hostbit map by `0 < s < w`: the hostbit is
materialised as the top `s` bits of the bitmap (the `TODO: BUG!` line). -/
theorem shr_host_lt {w b s : Nat} (h1 : 0 < s) (h2 : s < w) :
    GlueMap.shr w ⟨b, true⟩ s =
      ⟨(b >>> s) ||| ((ones w <<< (w - s)) % 2 ^ w), false⟩ := by
  have hns : ¬ (w < s) := by omega
  simp [GlueMap.shr, checkedShr, h1, h2, hns]

/-- `GlueMap::shr` on a hostbit map by exactly `w` materialises all `w`
bitmap bits. -/
theorem shr_host_top {w b : Nat} (hw : 0 < w) :
    GlueMap.shr w ⟨b, true⟩ w = ⟨ones w, false⟩ := by
  have hone : ones w < 2 ^ w := by
    have : 0 < 2 ^ w := Nat.pos_pow_of_pos w (by omega)
    unfold ones
    omega
  simp [GlueMap.shr, checkedShr, hw, lt_irrefl, Nat.sub_self, Nat.shiftLeft_zero,
    Nat.mod_eq_of_lt hone]

/-- `GlueMap::shr` on a hostbit map by more than `w` drops everything. -/
theorem shr_host_over {w b s : Nat} (h : w < s) :
    GlueMap.shr w ⟨b, true⟩ s = GlueMap.zero := by
  have h0 : 0 < s := by omega
  have hns : ¬ (s < w) := by omega
  simp [GlueMap.shr, checkedShr, GlueMap.zero, h, h0, hns]

/-- `GlueMap::shr` by zero (with a positive width) is the identity. -/
theorem shr_zero_shift {w : Nat} (a : GlueMap) (hw : 0 < w) :
    GlueMap.shr w a 0 = a := by
  simp [GlueMap.shr, checkedShr, hw]

theorem nodeRangesAux_zero_map (w : Nat) (pfx : Pfx) :
    ∀ fuel last, nodeRangesAux w pfx fuel GlueMap.zero last = [] := by
  intro fuel last
  cases fuel with
  | zero => rfl
  | succ f =>
    unfold nodeRangesAux
    rw [if_pos rfl]

end PrefixSetRs

namespace PrefixSetRs

/-- Disjunctive correctness of the hostbit-free range loop without a width
bound on the running state: either some emitted entry is a failed (`none`)
range, or every entry succeeds, the member counts add up to the weighted bit
sum, and every set bit then sits at an absolute length of at most `w`. -/
theorem nodeRangesAux_disj (w : Nat) (pfx : Pfx) :
    ∀ fuel (b last : Nat),
      b < 2 ^ fuel →
      b < 2 ^ w →
      (∀ i, b.testBit i = true → pfx.length ≤ last + i) →
      none ∈ nodeRangesAux w pfx fuel ⟨b, false⟩ last ∨
      ∃ rs : List Range,
        nodeRangesAux w pfx fuel ⟨b, false⟩ last = rs.map some ∧
        (∀ rg ∈ rs, rg.base = pfx ∧ pfx.length ≤ rg.lower ∧ rg.lower ≤ rg.upper ∧
          rg.upper ≤ w) ∧
        ((rs.map (fun rg => ((List.range (rg.upper + 1 - rg.lower)).map
            (fun i => 2 ^ (rg.lower + i - pfx.length))).sum)).sum =
          bitSum (fun i => 2 ^ (last + i - pfx.length)) b w) ∧
        (∀ i, b.testBit i = true → last + i ≤ w) := by
  intro fuel
  induction fuel with
  | zero =>
    intro b last hbf hb hfloor
    right
    have hb0 : b = 0 := by omega
    subst hb0
    refine ⟨[], rfl, by simp, ?_, ?_⟩
    · rw [bitSum_zero_bits (fun j _ => Nat.zero_testBit j)]
      rfl
    · intro i hbit
      rw [Nat.zero_testBit] at hbit
      cases hbit
  | succ fuel ih =>
    intro b last hbf hb hfloor
    by_cases hb0 : b = 0
    · right
      subst hb0
      unfold nodeRangesAux
      rw [if_pos (show (⟨0, false⟩ : GlueMap) = GlueMap.zero from rfl)]
      refine ⟨[], rfl, by simp, ?_, ?_⟩
      · rw [bitSum_zero_bits (fun j _ => Nat.zero_testBit j)]
        rfl
      · intro i hbit
        rw [Nat.zero_testBit] at hbit
        cases hbit
    · obtain ⟨rz, hrz⟩ : ∃ rz, tzW w b = rz := ⟨_, rfl⟩
      obtain ⟨b1, hb1e⟩ : ∃ b1, b >>> rz = b1 := ⟨_, rfl⟩
      obtain ⟨ro, hro⟩ : ∃ ro, tzW w (b1 ^^^ ones w) = ro := ⟨_, rfl⟩
      obtain ⟨b2, hb2e⟩ : ∃ b2, b1 >>> ro = b2 := ⟨_, rfl⟩
      obtain ⟨htzlt, htzbit, htzlow⟩ := tzW_spec hb hb0
      rw [hrz] at htzlt htzbit htzlow
      have hw1 : 1 ≤ w := by
        by_contra hcon
        have hw0 : w = 0 := by omega
        subst hw0
        simp [Nat.lt_one_iff] at hb
        exact hb0 hb
      have hb1 : b1 < 2 ^ (w - rz) := hb1e ▸ shiftRight_lt_pow hb
      have hb1w : b1 < 2 ^ w :=
        lt_of_lt_of_le hb1 (Nat.pow_le_pow_right (by omega) (by omega))
      have hb1bit : ∀ j, b1.testBit j = b.testBit (rz + j) := by
        intro j
        rw [← hb1e, Nat.testBit_shiftRight]
      have hb1bit0 : b1.testBit 0 = true := by
        rw [hb1bit]
        simpa using htzbit
      have hxbit : ∀ j, j < w → (b1 ^^^ ones w).testBit j = !(b1.testBit j) := by
        intro j hj
        rw [Nat.testBit_xor]
        unfold ones
        rw [Nat.testBit_two_pow_sub_one, decide_eq_true hj, Bool.xor_true]
      have hro1 : 1 ≤ ro := by
        by_contra hcon
        have h0 : ro = 0 := by omega
        have hhit := findBit_hit (x := b1 ^^^ ones w) w 0
          (show findBit (b1 ^^^ ones w) w 0 < 0 + w by
            have : tzW w (b1 ^^^ ones w) = ro := hro
            unfold tzW at this
            omega)
        have : tzW w (b1 ^^^ ones w) = ro := hro
        unfold tzW at this
        rw [this, h0] at hhit
        rw [hxbit 0 (by omega), hb1bit0] at hhit
        cases hhit
      have hrole : ro ≤ w := by
        have := findBit_le (x := b1 ^^^ ones w) w 0
        have h2 : tzW w (b1 ^^^ ones w) = ro := hro
        unfold tzW at h2
        omega
      have hones : ∀ j, j < ro → b1.testBit j = true := by
        intro j hj
        have hjw : j < w := by omega
        have hxj : (b1 ^^^ ones w).testBit j = false := by
          refine findBit_not w 0 j (by omega) ?_
          have h2 : tzW w (b1 ^^^ ones w) = ro := hro
          unfold tzW at h2
          omega
        rw [hxbit j hjw] at hxj
        cases hbit : b1.testBit j
        · rw [hbit] at hxj
          cases hxj
        · rfl
      have hrotop : b1.testBit (ro - 1) = true := hones _ (by omega)
      have hrok : ro - 1 < w - rz := by
        by_contra hcon
        have hf : b1.testBit (ro - 1) = false :=
          Nat.testBit_lt_two_pow (lt_of_lt_of_le hb1
            (Nat.pow_le_pow_right (by omega) (by omega)))
        rw [hrotop] at hf
        cases hf
      have hb2f : b2 < 2 ^ fuel := by
        rw [← hb2e, ← hb1e, ← Nat.shiftRight_add]
        refine lt_of_lt_of_le (shiftRight_lt_pow hbf) ?_
        exact Nat.pow_le_pow_right (by omega) (by omega)
      have hb2w : b2 < 2 ^ w := by
        rw [← hb2e]
        exact lt_of_lt_of_le (shiftRight_lt_pow hb1w)
          (Nat.pow_le_pow_right (by omega) (by omega))
      have hb2s : b2 < 2 ^ (w - rz - ro) := by
        rw [← hb2e]
        exact shiftRight_lt_pow hb1
      have hb2bit : ∀ j, b2.testBit j = b.testBit (rz + ro + j) := by
        intro j
        rw [← hb2e, Nat.testBit_shiftRight, hb1bit]
        congr 1
        omega
      have hstep : nodeRangesAux w pfx (fuel + 1) ⟨b, false⟩ last =
          rangeNew w pfx (last + rz) (last + rz + ro - 1) ::
            nodeRangesAux w pfx fuel ⟨b2, false⟩ (last + rz + ro - 1 + 1) := by
        conv_lhs => unfold nodeRangesAux
        rw [if_neg (fun hcon => hb0 (congrArg GlueMap.bitmap hcon))]
        dsimp only
        rw [trailingZeros_false hb hb0, hrz]
        rw [shr_false hb, hb1e]
        rw [not_false_map]
        rw [trailingZeros_hostbit, hro]
        rw [shr_false hb1w, hb2e]
      have hidx : last + rz + ro - 1 + 1 = last + rz + ro := by omega
      by_cases hup : last + rz + ro - 1 ≤ w
      · have hhead : rangeNew w pfx (last + rz) (last + rz + ro - 1) =
            some ⟨pfx, last + rz, last + rz + ro - 1⟩ := by
          unfold rangeNew
          rw [if_pos ⟨hfloor _ htzbit, by omega, hup⟩]
        rcases ih b2 (last + rz + ro) hb2f hb2w
            (fun i hbit => by
              rw [hb2bit] at hbit
              have := hfloor _ hbit
              omega) with hnone | ⟨rs', heq', hfacts', hsum', hbnd'⟩
        · left
          rw [hstep, hidx]
          exact List.mem_cons_of_mem _ hnone
        · right
          refine ⟨⟨pfx, last + rz, last + rz + ro - 1⟩ :: rs', ?_, ?_, ?_, ?_⟩
          · rw [hstep, hidx, hhead, List.map_cons, heq']
          · intro rg hrg
            rcases List.mem_cons.mp hrg with rfl | hrg2
            · exact ⟨rfl, hfloor _ htzbit, by simp; omega, by simp; omega⟩
            · exact hfacts' rg hrg2
          · rw [List.map_cons, List.sum_cons]
            rw [bitSum_split _ b w rz (by omega)]
            rw [bitSum_zero_bits htzlow]
            rw [show b >>> rz = b1 from hb1e]
            rw [bitSum_split _ b1 (w - rz) ro (by omega)]
            rw [bitSum_one_bits hones]
            rw [show b1 >>> ro = b2 from hb2e]
            rw [Nat.zero_add]
            congr 1
            · have hru : last + rz + ro - 1 + 1 - (last + rz) = ro := by omega
              rw [hru]
              refine congrArg List.sum (List.map_congr_left fun i hi => ?_)
              dsimp only
              congr 1
              omega
            · refine hsum'.trans ?_
              rw [bitSum_of_lt hb2s (show w - rz - ro ≤ w by omega)]
              refine bitSum_congr rfl fun i => ?_
              congr 1
              omega
          · intro i hbit
            by_cases hiz : i < rz
            · rw [htzlow i hiz] at hbit
              cases hbit
            · by_cases hiro : i < rz + ro
              · omega
              · have hb2i : b2.testBit (i - rz - ro) = true := by
                  rw [hb2bit]
                  have hieq : rz + ro + (i - rz - ro) = i := by omega
                  rw [hieq]
                  exact hbit
                have := hbnd' _ hb2i
                omega
      · left
        rw [hstep]
        have hhead : rangeNew w pfx (last + rz) (last + rz + ro - 1) = none := by
          unfold rangeNew
          rw [if_neg (fun hcon => hup hcon.2.2)]
        rw [hhead]
        exact List.mem_cons_self _ _

end PrefixSetRs

namespace PrefixSetRs

/-- With the lowest set bit at index 1, shifting the hostbit map down by one
materialises exactly bit `w − 1`, so the iteration coincides with the one on
the hostbit-free map with that bit folded in, started one length later. -/
theorem nodeRangesAux_host_one (w : Nat) (pfx : Pfx) (fuel b : Nat)
    (hb : b < 2 ^ w) (hb0 : b ≠ 0) (htz : tzW w b = 1) :
    nodeRangesAux w pfx (fuel + 1) ⟨b, true⟩ 0 =
      nodeRangesAux w pfx (fuel + 1)
        ⟨(b >>> 1) ||| ((ones w <<< (w - 1)) % 2 ^ w), false⟩ 1 := by
  obtain ⟨htzlt, htzbit, htzlow⟩ := tzW_spec hb hb0
  rw [htz] at htzlt htzbit htzlow
  obtain ⟨c, hc⟩ : ∃ c, (b >>> 1) ||| ((ones w <<< (w - 1)) % 2 ^ w) = c := ⟨_, rfl⟩
  have hcbit0 : c.testBit 0 = true := by
    rw [← hc, Nat.testBit_or, Nat.testBit_shiftRight]
    rw [show (1 + 0 : Nat) = 1 from rfl, htzbit, Bool.true_or]
  have hcne : c ≠ 0 := fun h => by
    rw [h, Nat.zero_testBit] at hcbit0
    cases hcbit0
  have hclt : c < 2 ^ w := by
    rw [← hc]
    refine Nat.or_lt_two_pow ?_ (Nat.mod_lt _ (Nat.pos_pow_of_pos _ (by omega)))
    exact lt_of_lt_of_le (shiftRight_lt_pow hb)
      (Nat.pow_le_pow_right (by omega) (by omega))
  rw [hc]
  conv_lhs => unfold nodeRangesAux
  conv_rhs => unfold nodeRangesAux
  rw [if_neg (fun hcon => hb0 (congrArg GlueMap.bitmap hcon))]
  rw [if_neg (fun hcon => hcne (congrArg GlueMap.bitmap hcon))]
  dsimp only
  rw [trailingZeros_hostbit, htz]
  rw [trailingZeros_false hclt hcne, tzW_zero_of_bit0 (by omega) hcbit0]
  rw [shr_host_lt (by omega) htzlt, hc]
  rw [shr_zero_shift _ (by omega)]

end PrefixSetRs

namespace PrefixSetRs

/-- Ranges of a single hostbit-carrying node (started at `last = 0`): either
some emitted range fails — the modelled `IpPrefixRange::new(..).unwrap()`
panic — or all succeed and the member counts add up to the weighted bit sum
including the hostbit's `2 ^ (w − base length)` term. -/
theorem nodeRangesAux_host (w : Nat) (pfx : Pfx) (b : Nat)
    (hb : b < 2 ^ w)
    (hfloor : ∀ i, b.testBit i = true → pfx.length ≤ i)
    (hlen : pfx.length ≤ w) :
    none ∈ nodeRangesAux w pfx (2 * w + 4) ⟨b, true⟩ 0 ∨
    ∃ rs : List Range,
      nodeRangesAux w pfx (2 * w + 4) ⟨b, true⟩ 0 = rs.map some ∧
      (∀ rg ∈ rs, rg.base = pfx ∧ pfx.length ≤ rg.lower ∧ rg.lower ≤ rg.upper ∧
        rg.upper ≤ w) ∧
      ((rs.map (fun rg => ((List.range (rg.upper + 1 - rg.lower)).map
          (fun i => 2 ^ (rg.lower + i - pfx.length))).sum)).sum =
        bitSum (fun i => 2 ^ (i - pfx.length)) b w + 2 ^ (w - pfx.length)) := by
  by_cases hb0 : b = 0
  · subst hb0
    rcases w with _ | _ | w2
    · -- w = 0: the sole output is the range [0, 0]
      right
      have hplen : pfx.length = 0 := by omega
      refine ⟨[⟨pfx, 0, 0⟩], ?_, ?_, ?_⟩
      · show nodeRangesAux 0 pfx (2 * 0 + 4) ⟨0, true⟩ 0 = [some ⟨pfx, 0, 0⟩]
        have h1 : nodeRangesAux 0 pfx (2 * 0 + 4) ⟨0, true⟩ 0
            = [rangeNew 0 pfx 0 0] := rfl
        rw [h1]
        unfold rangeNew
        rw [if_pos ⟨by omega, by omega, by omega⟩]
      · intro rg hrg
        rw [List.mem_singleton] at hrg
        subst hrg
        exact ⟨rfl, show pfx.length ≤ 0 by omega, show (0 : Nat) ≤ 0 by omega,
          show (0 : Nat) ≤ 0 by omega⟩
      · simp [bitSum, hplen, List.range_succ]
    · -- w = 1: the sole output is the range [1, 1]
      right
      refine ⟨[⟨pfx, 1, 1⟩], ?_, ?_, ?_⟩
      · show nodeRangesAux 1 pfx (2 * 1 + 4) ⟨0, true⟩ 0 = [some ⟨pfx, 1, 1⟩]
        have h1 : nodeRangesAux 1 pfx (2 * 1 + 4) ⟨0, true⟩ 0
            = [rangeNew 1 pfx 1 1] := rfl
        rw [h1]
        unfold rangeNew
        rw [if_pos ⟨by omega, by omega, by omega⟩]
      · intro rg hrg
        rw [List.mem_singleton] at hrg
        subst hrg
        exact ⟨rfl, show pfx.length ≤ 1 by omega, show (1 : Nat) ≤ 1 by omega,
          show (1 : Nat) ≤ 0 + 1 by omega⟩
      · simp [bitSum, List.range_succ]
    · -- w ≥ 2: the first range is [w, 2w − 1] and fails
      left
      have hne : (⟨0, true⟩ : GlueMap) ≠ GlueMap.zero := by decide
      rw [show 2 * (w2 + 2) + 4 = 2 * (w2 + 2) + 3 + 1 from rfl]
      unfold nodeRangesAux
      rw [if_neg hne]
      dsimp only
      rw [trailingZeros_hostbit, tzW_zero]
      rw [shr_host_top (by omega)]
      rw [not_false_map, Nat.xor_self]
      rw [trailingZeros_hostbit, tzW_zero]
      have hhead : rangeNew (w2 + 2) pfx (0 + (w2 + 2))
          (0 + (w2 + 2) + (w2 + 2) - 1) = none := by
        unfold rangeNew
        rw [if_neg (fun hcon => by have := hcon.2.2; omega)]
      rw [hhead]
      exact List.mem_cons_self _ _
  · have hw1 : 1 ≤ w := by
      by_contra hcon
      have hw0 : w = 0 := by omega
      subst hw0
      simp [Nat.lt_one_iff] at hb
      exact hb0 hb
    obtain ⟨rz, hrz⟩ : ∃ rz, tzW w b = rz := ⟨_, rfl⟩
    obtain ⟨htzlt, htzbit, htzlow⟩ := tzW_spec hb hb0
    rw [hrz] at htzlt htzbit htzlow
    have hne : (⟨b, true⟩ : GlueMap) ≠ GlueMap.zero :=
      fun hcon => hb0 (congrArg GlueMap.bitmap hcon)
    by_cases hrz0 : rz = 0
    · subst hrz0
      have hlen0 : pfx.length = 0 := by
        have := hfloor 0 htzbit
        omega
      have hxbit : ∀ j, j < w → (b ^^^ ones w).testBit j = !(b.testBit j) := by
        intro j hj
        rw [Nat.testBit_xor]
        unfold ones
        rw [Nat.testBit_two_pow_sub_one, decide_eq_true hj, Bool.xor_true]
      by_cases hbones : b = ones w
      · -- full run: the single range [0, w] consumes the hostbit correctly
        right
        have hrz' : tzW w (ones w) = 0 := hbones ▸ hrz
        have hne' : (⟨ones w, true⟩ : GlueMap) ≠ GlueMap.zero := hbones ▸ hne
        subst hbones
        have hstep : nodeRangesAux w pfx (2 * w + 4) ⟨ones w, true⟩ 0 =
            rangeNew w pfx (0 + 0) (0 + 0 + (w + 1) - 1) ::
              nodeRangesAux w pfx (2 * w + 3) GlueMap.zero
                (0 + 0 + (w + 1) - 1 + 1) := by
          rw [show 2 * w + 4 = 2 * w + 3 + 1 from rfl]
          conv_lhs => unfold nodeRangesAux
          rw [if_neg hne']
          dsimp only
          rw [trailingZeros_hostbit, hrz']
          rw [shr_zero_shift _ (by omega)]
          rw [show GlueMap.not w ⟨ones w, true⟩ = ⟨ones w ^^^ ones w, false⟩ from rfl]
          rw [Nat.xor_self]
          rw [trailingZeros_zero_false]
          rw [shr_host_over (by omega)]
        have hhead : rangeNew w pfx (0 + 0) (0 + 0 + (w + 1) - 1) =
            some ⟨pfx, 0, w⟩ := by
          rw [show (0 + 0 : Nat) = 0 from rfl, show 0 + 0 + (w + 1) - 1 = w from by omega]
          unfold rangeNew
          rw [if_pos ⟨by omega, by omega, le_refl w⟩]
        refine ⟨[⟨pfx, 0, w⟩], ?_, ?_, ?_⟩
        · rw [hstep, nodeRangesAux_zero_map, hhead]
          rfl
        · intro rg hrg
          rw [List.mem_singleton] at hrg
          subst hrg
          exact ⟨rfl, show pfx.length ≤ 0 by omega, show 0 ≤ w by omega,
            show w ≤ w by omega⟩
        · simp only [List.map_cons, List.map_nil, List.sum_cons, List.sum_nil,
            Nat.add_zero, hlen0, Nat.sub_zero, Nat.zero_add]
          rw [bitSum_one_bits (fun j hj => by
            unfold ones
            rw [Nat.testBit_two_pow_sub_one]
            exact decide_eq_true hj)]
          rw [List.range_succ, List.map_append, List.sum_append]
          simp
      · -- a proper run [0, k − 1]; the hostbit moves into the shifted tail
        have hxne : b ^^^ ones w ≠ 0 := fun h => hbones (Nat.xor_eq_zero.mp h)
        have honeslt : ones w < 2 ^ w := by
          have : 0 < 2 ^ w := Nat.pos_pow_of_pos w (by omega)
          unfold ones
          omega
        have hxlt : b ^^^ ones w < 2 ^ w := Nat.xor_lt_two_pow hb honeslt
        obtain ⟨k, hk⟩ : ∃ k, tzW w (b ^^^ ones w) = k := ⟨_, rfl⟩
        obtain ⟨hklt, hkbit, hklow⟩ := tzW_spec hxlt hxne
        rw [hk] at hklt hkbit hklow
        have hk1 : 1 ≤ k := by
          by_contra hcon
          have hk0 : k = 0 := by omega
          rw [hk0] at hkbit
          rw [hxbit 0 (by omega), htzbit] at hkbit
          cases hkbit
        have honesk : ∀ j, j < k → b.testBit j = true := by
          intro j hj
          have hxj := hklow j hj
          rw [hxbit j (by omega)] at hxj
          cases hbit : b.testBit j
          · rw [hbit] at hxj
            cases hxj
          · rfl
        obtain ⟨c2, hc2⟩ : ∃ c2,
            (b >>> k) ||| ((ones w <<< (w - k)) % 2 ^ w) = c2 := ⟨_, rfl⟩
        have hc2lt : c2 < 2 ^ w := by
          rw [← hc2]
          refine Nat.or_lt_two_pow ?_ (Nat.mod_lt _ (Nat.pos_pow_of_pos _ (by omega)))
          exact lt_of_lt_of_le (shiftRight_lt_pow hb)
            (Nat.pow_le_pow_right (by omega) (by omega))
        have hc2bits : ∀ j, c2.testBit j = ((b >>> k).testBit j ||
            (decide (w - k ≤ j) && decide (j < w))) := by
          intro j
          rw [← hc2, Nat.testBit_or, ones_shl_mod_testBit]
        have hstep : nodeRangesAux w pfx (2 * w + 4) ⟨b, true⟩ 0 =
            rangeNew w pfx (0 + 0) (0 + 0 + k - 1) ::
              nodeRangesAux w pfx (2 * w + 3) ⟨c2, false⟩ (0 + 0 + k - 1 + 1) := by
          rw [show 2 * w + 4 = 2 * w + 3 + 1 from rfl]
          conv_lhs => unfold nodeRangesAux
          rw [if_neg hne]
          dsimp only
          rw [trailingZeros_hostbit, hrz]
          rw [shr_zero_shift _ (by omega)]
          rw [show GlueMap.not w ⟨b, true⟩ = ⟨b ^^^ ones w, false⟩ from rfl]
          rw [trailingZeros_false hxlt hxne, hk]
          rw [shr_host_lt (by omega) hklt, hc2]
        have hhead : rangeNew w pfx (0 + 0) (0 + 0 + k - 1) =
            some ⟨pfx, 0, k - 1⟩ := by
          rw [show (0 + 0 : Nat) = 0 from rfl, show 0 + 0 + k - 1 = k - 1 from by omega]
          unfold rangeNew
          rw [if_pos ⟨by omega, by omega, by omega⟩]
        rcases nodeRangesAux_disj w pfx (2 * w + 3) c2 k
            (lt_of_lt_of_le hc2lt (Nat.pow_le_pow_right (by omega) (by omega)))
            hc2lt
            (by
              intro i _
              rw [hlen0]
              omega) with hnone | ⟨rs', heq', hfacts', hsum', hbnd'⟩
        · left
          rw [hstep, show 0 + 0 + k - 1 + 1 = k from by omega]
          exact List.mem_cons_of_mem _ hnone
        · by_cases hk1' : k = 1
          · subst hk1'
            right
            refine ⟨⟨pfx, 0, 1 - 1⟩ :: rs', ?_, ?_, ?_⟩
            · rw [hstep, hhead, show 0 + 0 + 1 - 1 + 1 = 1 from rfl, heq',
                List.map_cons]
            · intro rg hrg
              rcases List.mem_cons.mp hrg with rfl | hrg2
              · exact ⟨rfl, show pfx.length ≤ 0 by omega, show 0 ≤ 1 - 1 by omega,
                  show 1 - 1 ≤ w by omega⟩
              · exact hfacts' rg hrg2
            · simp only [List.map_cons, List.sum_cons]
              rw [hsum']
              obtain ⟨x, hx⟩ : ∃ x, b >>> 1 = x := ⟨_, rfl⟩
              have hc2top : c2.testBit (w - 1) = true := by
                rw [hc2bits]
                have h1 : decide (w - 1 ≤ w - 1) = true := decide_eq_true (by omega)
                have h2 : decide (w - 1 < w) = true := decide_eq_true (by omega)
                rw [h1, h2]
                simp
              have e1 : bitSum (fun i => 2 ^ (1 + i - pfx.length)) c2 w =
                  bitSum (fun i => 2 ^ (1 + i - pfx.length)) x (w - 1) +
                    2 ^ (w - pfx.length) := by
                rw [bitSum_split _ c2 w (w - 1) (by omega)]
                congr 1
                · refine bitSum_testBit_congr fun j hj => ?_
                  rw [hc2bits, ← hx]
                  have hd : decide (w - 1 ≤ j) = false := decide_eq_false (by omega)
                  rw [hd]
                  simp
                · rw [show w - (w - 1) = 1 from by omega, bitSum_one]
                  have hbt : (c2 >>> (w - 1)).testBit 0 = true := by
                    rw [Nat.testBit_shiftRight, show w - 1 + 0 = w - 1 from by omega]
                    exact hc2top
                  rw [hbt, if_pos rfl]
                  congr 1
                  omega
              have e2 : bitSum (fun i => 2 ^ (i - pfx.length)) b w =
                  1 + bitSum (fun i => 2 ^ (1 + i - pfx.length)) x (w - 1) := by
                rw [bitSum_split _ b w 1 (by omega)]
                rw [bitSum_one, htzbit, if_pos rfl, hx]
                congr 1
                rw [hlen0]
                rfl
              rw [e1, e2]
              have hsz : ((List.range (1 - 1 + 1 - 0)).map
                  (fun i => 2 ^ (0 + i - pfx.length))).sum = 1 := by
                rw [hlen0]
                rfl
              rw [hsz]
              omega
          · exfalso
            have hbit : c2.testBit (w - 1) = true := by
              rw [hc2bits]
              have h1 : decide (w - k ≤ w - 1) = true := decide_eq_true (by omega)
              have h2 : decide (w - 1 < w) = true := decide_eq_true (by omega)
              rw [h1, h2]
              simp
            have := hbnd' _ hbit
            omega
    · -- the very first shift materialises the hostbit
      obtain ⟨c, hc⟩ : ∃ c, (b >>> rz) ||| ((ones w <<< (w - rz)) % 2 ^ w) = c :=
        ⟨_, rfl⟩
      have hclt : c < 2 ^ w := by
        rw [← hc]
        refine Nat.or_lt_two_pow ?_ (Nat.mod_lt _ (Nat.pos_pow_of_pos _ (by omega)))
        exact lt_of_lt_of_le (shiftRight_lt_pow hb)
          (Nat.pow_le_pow_right (by omega) (by omega))
      have hcbit : ∀ j, c.testBit j = ((b >>> rz).testBit j ||
          (decide (w - rz ≤ j) && decide (j < w))) := by
        intro j
        rw [← hc, Nat.testBit_or, ones_shl_mod_testBit]
      have hcbit0 : c.testBit 0 = true := by
        rw [hcbit, Nat.testBit_shiftRight, show rz + 0 = rz from by omega, htzbit,
          Bool.true_or]
      have hcne : c ≠ 0 := fun h => by
        rw [h, Nat.zero_testBit] at hcbit0
        cases hcbit0
      have hctop : c.testBit (w - 1) = true := by
        rw [hcbit]
        have h1 : decide (w - rz ≤ w - 1) = true := decide_eq_true (by omega)
        have h2 : decide (w - 1 < w) = true := decide_eq_true (by omega)
        rw [h1, h2]
        simp
      by_cases hrz1 : rz = 1
      · -- exact materialisation: fold the hostbit into bit w − 1 and reuse
        subst hrz1
        have hclone : nodeRangesAux w pfx (2 * w + 4) ⟨b, true⟩ 0 =
            nodeRangesAux w pfx (2 * w + 4) ⟨c, false⟩ 1 := by
          rw [show 2 * w + 4 = 2 * w + 3 + 1 from rfl]
          have h0 := nodeRangesAux_host_one w pfx (2 * w + 3) b hb hb0 hrz
          rw [hc] at h0
          exact h0
        rcases nodeRangesAux_disj w pfx (2 * w + 4) c 1
            (lt_of_lt_of_le hclt (Nat.pow_le_pow_right (by omega) (by omega)))
            hclt
            (by
              intro i hbit
              rw [hcbit] at hbit
              rcases Bool.or_eq_true_iff.mp hbit with h | h
              · rw [Nat.testBit_shiftRight] at h
                have := hfloor _ h
                omega
              · have hd := (Bool.and_eq_true_iff.mp h).1
                rw [decide_eq_true_eq] at hd
                omega) with hnone | ⟨rs', heq', hfacts', hsum', hbnd'⟩
        · left
          rw [hclone]
          exact hnone
        · right
          refine ⟨rs', ?_, hfacts', ?_⟩
          · rw [hclone]
            exact heq'
          · rw [hsum']
            obtain ⟨x, hx⟩ : ∃ x, b >>> 1 = x := ⟨_, rfl⟩
            have e1 : bitSum (fun i => 2 ^ (1 + i - pfx.length)) c w =
                bitSum (fun i => 2 ^ (1 + i - pfx.length)) x (w - 1) +
                  2 ^ (w - pfx.length) := by
              rw [bitSum_split _ c w (w - 1) (by omega)]
              congr 1
              · refine bitSum_testBit_congr fun j hj => ?_
                rw [hcbit, ← hx]
                have hd : decide (w - 1 ≤ j) = false := decide_eq_false (by omega)
                rw [hd]
                simp
              · rw [show w - (w - 1) = 1 from by omega, bitSum_one]
                have hbt : (c >>> (w - 1)).testBit 0 = true := by
                  rw [Nat.testBit_shiftRight, show w - 1 + 0 = w - 1 from by omega]
                  exact hctop
                rw [hbt, if_pos rfl]
                congr 1
                omega
            have e2 : bitSum (fun i => 2 ^ (i - pfx.length)) b w =
                bitSum (fun i => 2 ^ (1 + i - pfx.length)) x (w - 1) := by
              rw [bitSum_split _ b w 1 (by omega)]
              rw [bitSum_one, htzlow 0 (by omega)]
              simp only [Bool.false_eq_true, if_false, Nat.zero_add]
              rw [hx]
            rw [e1, e2]
      · -- a stray materialised bit survives above `w` and forces a failure
        obtain ⟨ro, hro⟩ : ∃ ro, tzW w (c ^^^ ones w) = ro := ⟨_, rfl⟩
        have hcxbit : ∀ j, j < w → (c ^^^ ones w).testBit j = !(c.testBit j) := by
          intro j hj
          rw [Nat.testBit_xor]
          unfold ones
          rw [Nat.testBit_two_pow_sub_one, decide_eq_true hj, Bool.xor_true]
        have hro1 : 1 ≤ ro := by
          by_contra hcon
          have h0 : ro = 0 := by omega
          have hhit := findBit_hit (x := c ^^^ ones w) w 0
            (show findBit (c ^^^ ones w) w 0 < 0 + w by
              have h2 : tzW w (c ^^^ ones w) = ro := hro
              unfold tzW at h2
              omega)
          have h2 : tzW w (c ^^^ ones w) = ro := hro
          unfold tzW at h2
          rw [h2, h0] at hhit
          rw [hcxbit 0 (by omega), hcbit0] at hhit
          cases hhit
        have hstep : nodeRangesAux w pfx (2 * w + 4) ⟨b, true⟩ 0 =
            rangeNew w pfx (0 + rz) (0 + rz + ro - 1) ::
              nodeRangesAux w pfx (2 * w + 3) ⟨c >>> ro, false⟩
                (0 + rz + ro - 1 + 1) := by
          rw [show 2 * w + 4 = 2 * w + 3 + 1 from rfl]
          conv_lhs => unfold nodeRangesAux
          rw [if_neg hne]
          dsimp only
          rw [trailingZeros_hostbit, hrz]
          rw [shr_host_lt (by omega) htzlt, hc]
          rw [not_false_map]
          rw [trailingZeros_hostbit, hro]
          rw [shr_false hclt]
        by_cases hup : 0 + rz + ro - 1 ≤ w
        · rcases nodeRangesAux_disj w pfx (2 * w + 3) (c >>> ro) (rz + ro)
              (lt_of_lt_of_le (lt_of_lt_of_le (shiftRight_lt_pow hclt)
                  (Nat.pow_le_pow_right (by omega) (by omega)))
                (Nat.pow_le_pow_right (by omega) (le_refl _)))
              (lt_of_lt_of_le (shiftRight_lt_pow hclt)
                (Nat.pow_le_pow_right (by omega) (by omega)))
              (by
                intro i hbit
                rw [Nat.testBit_shiftRight, hcbit] at hbit
                rcases Bool.or_eq_true_iff.mp hbit with h | h
                · rw [Nat.testBit_shiftRight] at h
                  have := hfloor _ h
                  omega
                · have hd := (Bool.and_eq_true_iff.mp h).1
                  rw [decide_eq_true_eq] at hd
                  omega) with hnone | ⟨rs', heq', hfacts', hsum', hbnd'⟩
          · left
            rw [hstep, show 0 + rz + ro - 1 + 1 = rz + ro from by omega]
            exact List.mem_cons_of_mem _ hnone
          · exfalso
            have hrole : ro ≤ w - 1 := by omega
            have hbit : (c >>> ro).testBit (w - 1 - ro) = true := by
              rw [Nat.testBit_shiftRight, show ro + (w - 1 - ro) = w - 1 from by omega]
              exact hctop
            have := hbnd' _ hbit
            omega
        · left
          rw [hstep]
          have hhead : rangeNew w pfx (0 + rz) (0 + rz + ro - 1) = none := by
            unfold rangeNew
            rw [if_neg (fun hcon => hup hcon.2.2)]
          rw [hhead]
          exact List.mem_cons_self _ _

end PrefixSetRs

namespace PrefixSetRs

/-- The member-prefix count encoded by one node: `2 ^ (ℓ − base length)`
for every observable glue index `ℓ` (including the hostbit index `W`). -/
def nodeWeight (w : Nat) (n : Tree) : Nat :=
  ((List.range (w + 1)).map
    (fun ℓ => if GlueMap.test w n.map ℓ then 2 ^ (ℓ - n.pfx.length) else 0)).sum

/-- The weighted glue-bit count summed over all nodes of a set. -/
def weightedLen (w : Nat) (r : Option Tree) : Nat :=
  ((preorderSet r).map (nodeWeight w)).sum

theorem nodeWeight_eq_bitSum {w : Nat} {t : Tree} (hh : t.map.hostbit = false) :
    nodeWeight w t = bitSum (fun i => 2 ^ (0 + i - t.pfx.length)) t.map.bitmap w := by
  unfold nodeWeight bitSum
  rw [List.range_succ, List.map_append, List.sum_append]
  have hwtest : GlueMap.test w t.map w = false := by
    unfold GlueMap.test
    rw [if_neg (lt_irrefl w), if_pos rfl]
    exact hh
  simp only [List.map_cons, List.map_nil, hwtest, Bool.false_eq_true, if_false,
    List.sum_cons, List.sum_nil, Nat.add_zero]
  refine congrArg List.sum (List.map_congr_left fun i hi => ?_)
  rw [List.mem_range] at hi
  unfold GlueMap.test
  rw [if_pos hi]
  rw [Nat.zero_add]

/-- As `nodeWeight_eq_bitSum`, with the hostbit contributing its
`2 ^ (w − base length)` term. -/
theorem nodeWeight_host {w : Nat} {t : Tree} (hh : t.map.hostbit = true) :
    nodeWeight w t =
      bitSum (fun i => 2 ^ (i - t.pfx.length)) t.map.bitmap w +
        2 ^ (w - t.pfx.length) := by
  unfold nodeWeight bitSum
  rw [List.range_succ, List.map_append, List.sum_append]
  have hwtest : GlueMap.test w t.map w = true := by
    unfold GlueMap.test
    rw [if_neg (lt_irrefl w), if_pos rfl]
    exact hh
  simp only [List.map_cons, List.map_nil, hwtest, eq_self_iff_true, if_true,
    List.sum_cons, List.sum_nil, Nat.add_zero]
  congr 1
  refine congrArg List.sum (List.map_congr_left fun i hi => ?_)
  rw [List.mem_range] at hi
  unfold GlueMap.test
  rw [if_pos hi]

/-- The ranges emitted for one suitable node all succeed, and their member
counts add up to the node's weighted glue-bit count. -/
theorem nodeRanges_spec (w : Nat) (t : Tree) (hb : GlueMap.Bnd w t.map)
    (hf : GlueMap.Floor w t.pfx.length t.map) (hlw : t.pfx.length ≤ w)
    (hh : t.map.hostbit = false) :
    ∃ rs : List Range, nodeRanges w t = rs.map some ∧
      ((rs.map (fun rg => (rangePrefixes w rg).length)).sum = nodeWeight w t) := by
  have hmap : t.map = ⟨t.map.bitmap, false⟩ := by
    rw [← hh]
  obtain ⟨rs, heq, hfacts, hsum⟩ := nodeRangesAux_spec w t.pfx (2 * w + 4)
    t.map.bitmap 0 (by omega) (by simpa using hb)
    (by
      intro i hbit
      by_cases hi : i < w
      · have := hf i (by unfold GlueMap.test; rw [if_pos hi]; exact hbit)
        omega
      · exfalso
        have : (t.map.bitmap).testBit i = false :=
          Nat.testBit_lt_two_pow (lt_of_lt_of_le hb
            (Nat.pow_le_pow_right (by omega) (by omega)))
        rw [hbit] at this
        cases this)
  refine ⟨rs, ?_, ?_⟩
  · rw [nodeRanges, hmap]
    exact heq
  · rw [nodeWeight_eq_bitSum hh]
    refine Eq.trans ?_ hsum
    refine congrArg List.sum (List.map_congr_left fun rg hrg => ?_)
    obtain ⟨hbase, h1, h2, h3⟩ := hfacts rg hrg
    rw [rangePrefixes_length (by rw [hbase]; exact h1) h3]
    rw [hbase]

/-- Per-node dichotomy: either a range entry fails (the modelled panic), or
the node's range list is all-successful with member count equal to the
node's weight. -/
theorem nodeRanges_disj (w : Nat) (t : Tree) (hb : GlueMap.Bnd w t.map)
    (hf : GlueMap.Floor w t.pfx.length t.map) (hlw : t.pfx.length ≤ w) :
    none ∈ nodeRanges w t ∨
    ∃ rs : List Range, nodeRanges w t = rs.map some ∧
      ((rs.map (fun rg => (rangePrefixes w rg).length)).sum = nodeWeight w t) := by
  cases hh : t.map.hostbit
  · exact Or.inr (nodeRanges_spec w t hb hf hlw hh)
  · have hmap : t.map = ⟨t.map.bitmap, true⟩ := by rw [← hh]
    have hfloorb : ∀ i, (t.map.bitmap).testBit i = true → t.pfx.length ≤ i := by
      intro i hbit
      by_cases hi : i < w
      · exact hf i (by unfold GlueMap.test; rw [if_pos hi]; exact hbit)
      · exfalso
        have hfb : (t.map.bitmap).testBit i = false :=
          Nat.testBit_lt_two_pow (lt_of_lt_of_le hb
            (Nat.pow_le_pow_right (by omega) (by omega)))
        rw [hbit] at hfb
        cases hfb
    rcases nodeRangesAux_host w t.pfx t.map.bitmap hb hfloorb hlw with
      hnone | ⟨rs, heq, hfacts, hsum⟩
    · left
      rw [nodeRanges, hmap]
      exact hnone
    · right
      refine ⟨rs, ?_, ?_⟩
      · rw [nodeRanges, hmap]
        exact heq
      · rw [nodeWeight_host hh]
        refine Eq.trans ?_ hsum
        refine congrArg List.sum (List.map_congr_left fun rg hrg => ?_)
        obtain ⟨hbase, h1, h2, h3⟩ := hfacts rg hrg
        rw [rangePrefixes_length (by rw [hbase]; exact h1) h3, hbase]

/-- A failed entry anywhere poisons the `PrefixRangeIter` fold. -/
theorem foldr_none : ∀ os : List (Option Range), none ∈ os →
    (os.foldr (fun o acc => match o, acc with
      | some rg, some rest => some (rg :: rest)
      | _, _ => none) (some [])) = none := by
  intro os h
  induction os with
  | nil => cases h
  | cons o os ih =>
    rw [List.foldr_cons]
    rcases List.mem_cons.mp h with rfl | h2
    · cases os.foldr (fun o acc => match o, acc with
        | some rg, some rest => some (rg :: rest)
        | _, _ => none) (some []) <;> rfl
    · rw [ih h2]
      cases o <;> rfl

/-- The all-or-nothing fold of `PrefixRangeIter` on an all-successful
sequence. -/
theorem foldr_collect : ∀ rs : List Range,
    ((rs.map some).foldr
      (fun o acc => match o, acc with
        | some rg, some rest => some (rg :: rest)
        | _, _ => none)
      (some [])) = some rs := by
  intro rs
  induction rs with
  | nil => rfl
  | cons rg rs ih =>
    rw [List.map_cons, List.foldr_cons, ih]

end PrefixSetRs

namespace PrefixSetRs

/-- Collecting the per-node range lists of a suitable node sequence. -/
theorem nodes_ranges_collect (w : Nat) : ∀ ns : List Tree,
    (∀ n ∈ ns, GlueMap.Bnd w n.map ∧ GlueMap.Floor w n.pfx.length n.map ∧
      n.pfx.length ≤ w ∧ n.map.hostbit = false) →
    ∃ rss : List Range,
      ((ns.map (nodeRanges w)).flatten = rss.map some) ∧
      ((rss.map (fun rg => (rangePrefixes w rg).length)).sum =
        (ns.map (nodeWeight w)).sum) := by
  intro ns
  induction ns with
  | nil => exact fun _ => ⟨[], rfl, rfl⟩
  | cons n ns ihn =>
    intro h
    obtain ⟨h1, h2, h3, h4⟩ := h n (List.mem_cons_self n ns)
    obtain ⟨rs, hrs, hsum⟩ := nodeRanges_spec w n h1 h2 h3 h4
    obtain ⟨rss, hrss, hsums⟩ := ihn (fun n' hn' => h n' (List.mem_cons_of_mem _ hn'))
    refine ⟨rs ++ rss, ?_, ?_⟩
    · rw [List.map_cons, List.flatten_cons, hrs, hrss, List.map_append]
    · rw [List.map_append, List.sum_append, hsum, hsums, List.map_cons,
        List.sum_cons]

/-- Collecting the per-node dichotomies over a node sequence. -/
theorem nodes_ranges_collect_disj (w : Nat) : ∀ ns : List Tree,
    (∀ n ∈ ns, GlueMap.Bnd w n.map ∧ GlueMap.Floor w n.pfx.length n.map ∧
      n.pfx.length ≤ w) →
    (∃ n ∈ ns, none ∈ nodeRanges w n) ∨
    ∃ rss : List Range,
      ((ns.map (nodeRanges w)).flatten = rss.map some) ∧
      ((rss.map (fun rg => (rangePrefixes w rg).length)).sum =
        (ns.map (nodeWeight w)).sum) := by
  intro ns
  induction ns with
  | nil => exact fun _ => Or.inr ⟨[], rfl, rfl⟩
  | cons n ns ihn =>
    intro h
    obtain ⟨h1, h2, h3⟩ := h n (List.mem_cons_self n ns)
    rcases nodeRanges_disj w n h1 h2 h3 with hnone | ⟨rs, hrs, hsum⟩
    · exact Or.inl ⟨n, List.mem_cons_self n ns, hnone⟩
    · rcases ihn (fun n' hn' => h n' (List.mem_cons_of_mem _ hn')) with
        hnone | ⟨rss, hrss, hsums⟩
      · obtain ⟨n', hn', ho⟩ := hnone
        exact Or.inl ⟨n', List.mem_cons_of_mem _ hn', ho⟩
      · refine Or.inr ⟨rs ++ rss, ?_, ?_⟩
        · rw [List.map_cons, List.flatten_cons, hrs, hrss, List.map_append]
        · rw [List.map_append, List.sum_append, hsum, hsums, List.map_cons,
            List.sum_cons]

/-- A failed range entry at any node makes `ranges()` — and so `len()` —
panic, modelled as `none`. -/
theorem rangesSet_of_none {w : Nat} {r : Option Tree}
    (h : ∃ n ∈ preorderSet r, none ∈ nodeRanges w n) :
    rangesSet w r = none := by
  obtain ⟨n, hn, ho⟩ := h
  unfold rangesSet
  refine foldr_none _ ?_
  rw [List.mem_flatten]
  exact ⟨nodeRanges w n, List.mem_map_of_mem _ hn, ho⟩

/-- **C6** (amended): `len()` is `prefixes().count()`.  For a set whose
nodes carry bounded, floored glue maps with in-range base lengths, whenever
`len()` returns a value (the `NodeRangesIter` `unwrap` panics — modelled as
`none` — when the buggy hostbit handling of `GlueMap::shr` materialises an
out-of-range upper bound), that value is the sum over all nodes and over all
observable glue indices `ℓ` (the hostbit index `W` included) of
`2 ^ (ℓ − base.length)` member prefixes, not the sum of
`gluemap.count_ones()`; and on a hostbit-free set `len()` always returns
that weighted sum. -/
theorem len_is_weighted_bit_sum (w : Nat) (r : Option Tree)
    (hn : ∀ n ∈ preorderSet r, GlueMap.Bnd w n.map ∧
      GlueMap.Floor w n.pfx.length n.map ∧ n.pfx.length ≤ w) :
    (lenSet w r = none ∨ lenSet w r = some (weightedLen w r)) ∧
    ((∀ n ∈ preorderSet r, n.map.hostbit = false) →
      lenSet w r = some (weightedLen w r)) := by
  constructor
  · rcases nodes_ranges_collect_disj w (preorderSet r) hn with
      hnone | ⟨rss, hflat, hsum⟩
    · left
      have hr : rangesSet w r = none := rangesSet_of_none hnone
      unfold lenSet prefixesSet
      rw [hr]
      rfl
    · right
      have hranges : rangesSet w r = some rss := by
        unfold rangesSet
        rw [hflat]
        exact foldr_collect rss
      unfold lenSet prefixesSet
      rw [hranges]
      show some (rss.flatMap (rangePrefixes w)).length = some (weightedLen w r)
      congr 1
      unfold weightedLen
      rw [List.length_flatMap, ← hsum]
      exact congrArg List.sum (List.map_congr_left fun rg _ => rfl)
  · intro hh
    obtain ⟨rss, hflat, hsum⟩ := nodes_ranges_collect w (preorderSet r)
      (fun n hn' => ⟨(hn n hn').1, (hn n hn').2.1, (hn n hn').2.2, hh n hn'⟩)
    have hranges : rangesSet w r = some rss := by
      unfold rangesSet
      rw [hflat]
      exact foldr_collect rss
    unfold lenSet prefixesSet
    rw [hranges]
    show some (rss.flatMap (rangePrefixes w)).length = some (weightedLen w r)
    congr 1
    unfold weightedLen
    rw [List.length_flatMap, ← hsum]
    exact congrArg List.sum (List.map_congr_left fun rg _ => rfl)

end PrefixSetRs

namespace PrefixSetRs

/-- The weighted count at the concrete two-prefix scenario: the bits
25–31 over base length 24 give `2 + 4 + ... + 128 = 254`; the dichotomy
holds, and as the scenario is hostbit-free, `len()` returns exactly 254. -/
theorem len_is_weighted_bit_sum_witness :
    (lenSet 32 scenario2 = none ∨
      lenSet 32 scenario2 = some (weightedLen 32 scenario2)) ∧
    lenSet 32 scenario2 = some (weightedLen 32 scenario2) ∧
    weightedLen 32 scenario2 = 254 := by
  have hhyp : ∀ n ∈ preorderSet scenario2, GlueMap.Bnd 32 n.map ∧
      GlueMap.Floor 32 n.pfx.length n.map ∧ n.pfx.length ≤ 32 := by
    have hAll : ∀ n ∈ preorderSet scenario2, n.map.bitmap < 2 ^ 32 ∧
        n.pfx.length ≤ 32 ∧
        (∀ i ∈ List.range 33, GlueMap.test 32 n.map i = true →
          n.pfx.length ≤ i) := by decide
    intro n hn
    obtain ⟨h1, h2, h4⟩ := hAll n hn
    refine ⟨h1, ?_, h2⟩
    intro i hti
    by_cases hi : i ≤ 32
    · exact h4 i (List.mem_range.mpr (by omega)) hti
    · rw [GlueMap.test_of_gt (by omega)] at hti
      cases hti
  obtain ⟨h1, h2⟩ := len_is_weighted_bit_sum 32 scenario2 hhyp
  have hfree : ∀ n ∈ preorderSet scenario2, n.map.hostbit = false := by decide
  exact ⟨h1, h2 hfree, rfl⟩

end PrefixSetRs

namespace PrefixSetRs

/-- Inserting a single maximal-length prefix (here the host route
`192.0.2.1/32`) stores it as the glue map's hostbit (`singleton(32)`
overflows `checked_shl`).  `NodeRangesIter` then computes the range
`32..63`: `trailing_zeros` is 32, and the buggy hostbit arm of
`GlueMap::shr` materialises `ONES`, so `right_ones` is 32 as well.  The
`IpPrefixRange::new(.., 32, 63).unwrap()` panics — modelled as `none` — so
`len()` diverges on this reachable set instead of returning a count. -/
theorem lenSet_host_route_panics :
    lenSet 32 (insertSet 32 none (nodeOfPrefix 32 ⟨0xC0000201, 32⟩)) = none := by
  decide

end PrefixSetRs
